import Mathlib

/-!
Verification development for the Order Maintenance Tree (OMT) of
src/ft/omt-tmpl.h.  The repository ships only the template header
(declarations plus behavioral doc comments); the implementation file
omt-tmpl.cc that the header includes at its end is not part of the
source tree.  Every executable definition below is therefore modelled
from the specification (spec.md together with the effect comments of
the header), as faithfully as that text allows.  Machine integers
(uint32_t indices, weights and sizes) are modelled as Nat; the all-ones
sentinel NODE_NULL that marks a null child or the end of the free list
is modelled as the `none` case of `Option Nat`.
-/

namespace toku

/-- Modelled from the spec: the error taxonomy of section 7.  The spec
treats the concrete integer values of the host error codes as out of
scope, so they are modelled as an enumerated type; `ok` is the zero
return of the C functions. -/
inductive errcode where
  | ok
  | KEY_EXISTS
  | NOT_FOUND
  | INVALID_ARGUMENT
deriving DecidableEq, Repr

/-- Modelled from the spec: struct omt_node of the header (weight,
left child index, right child index, stored value).  A null child is
`none`. -/
structure omt_node (α : Type) where
  weight : Nat
  left : Option Nat
  right : Option Nat
  value : α
deriving DecidableEq, Repr

/-- Modelled from the spec: struct omt_array of the header.  The
`values` list is the whole allocated buffer, so its length plays the
role of the capacity field of the C container; the live elements sit at
positions [start_idx, start_idx + num_values). -/
structure omt_array (α : Type) where
  start_idx : Nat
  num_values : Nat
  values : List α
deriving DecidableEq, Repr

/-- Modelled from the spec: struct omt_tree of the header: root index,
head of the free list, and the node pool.  The free list is threaded
through the `left` field of free slots (spec section 4.1). -/
structure omt_tree (α : Type) where
  root : Option Nat
  free_idx : Option Nat
  nodes : List (omt_node α)
deriving DecidableEq, Repr

/-- Modelled from the spec: the tagged union (is_array flag plus union
of the two representations) held by the omt container. -/
inductive omt_rep (α : Type) where
  | array : omt_array α → omt_rep α
  | tree : omt_tree α → omt_rep α
deriving DecidableEq, Repr

/-- Modelled from the spec: the omt container.  The C capacity field is
always kept equal to the length of the allocated buffer, so it is
derived from the representation instead of being stored. -/
structure omt (α : Type) where
  d : omt_rep α
deriving DecidableEq, Repr

variable {α : Type} {σ : Type}

/-- The is_array flag of the container. -/
def omt.is_array (o : omt α) : Bool :=
  match o.d with
  | .array _ => true
  | .tree _ => false

/-- The capacity of the container: length of the allocated buffer. -/
def omt.capacity (o : omt α) : Nat :=
  match o.d with
  | .array a => a.values.length
  | .tree t => t.nodes.length

/-- Default node used to read the pool out of range (the C code never
does so on valid states). -/
def defaultNode [Inhabited α] : omt_node α := ⟨0, none, none, default⟩

/-- Read a node slot of the pool. -/
def getNode [Inhabited α] (ns : List (omt_node α)) (i : Nat) : omt_node α :=
  ns.getD i defaultNode

/-- Modelled from the spec: nweight of the header, the weight of a
subtree given its root index; a null subtree has weight 0. -/
def nweight [Inhabited α] (ns : List (omt_node α)) : Option Nat → Nat
  | none => 0
  | some i => (getNode ns i).weight

/-- The live element list of an array form container. -/
def liveList (a : omt_array α) : List α :=
  (a.values.drop a.start_idx).take a.num_values

/-- In-order value sequence of a subtree, with explicit fuel (the pool
length plus one always suffices on valid states). -/
def subtreeList [Inhabited α] (ns : List (omt_node α)) : Nat → Option Nat → List α
  | 0, _ => []
  | _ + 1, none => []
  | fuel + 1, some i =>
      let n := getNode ns i
      subtreeList ns fuel n.left ++ n.value :: subtreeList ns fuel n.right

/-- In-order list of the node slot indices of a subtree. -/
def subtreeIdxs [Inhabited α] (ns : List (omt_node α)) : Nat → Option Nat → List Nat
  | 0, _ => []
  | _ + 1, none => []
  | fuel + 1, some i =>
      let n := getNode ns i
      subtreeIdxs ns fuel n.left ++ i :: subtreeIdxs ns fuel n.right

/-- The abstract value sequence V of the container (spec section 3):
the live slice in array form, the in-order traversal in tree form. -/
def seqOf [Inhabited α] (o : omt α) : List α :=
  match o.d with
  | .array a => liveList a
  | .tree t => subtreeList t.nodes t.nodes.length t.root

/-- Modelled from the spec: size() returns num_values in array form and
the weight of the root in tree form. -/
def omt.size [Inhabited α] (o : omt α) : Nat :=
  match o.d with
  | .array a => a.num_values
  | .tree t => nweight t.nodes t.root

/-- Modelled from the spec: node_malloc (spec section 4.1).  Allocation
pops from the free list; when the free list is empty the pool grows
geometrically (to max 2 (2 * capacity)), the fresh slots being chained
into the free list, and the first fresh slot is returned. -/
def node_malloc [Inhabited α] (t : omt_tree α) : omt_tree α × Nat :=
  match t.free_idx with
  | some i => ({ t with free_idx := (getNode t.nodes i).left }, i)
  | none =>
      let cap := t.nodes.length
      let newCap := max 2 (2 * cap)
      let fresh : List (omt_node α) := (List.range (newCap - cap)).map fun k =>
        ⟨0, if cap + k + 1 < newCap then some (cap + k + 1) else none, none, default⟩
      let ns := t.nodes ++ fresh
      ({ root := t.root, free_idx := (getNode ns cap).left, nodes := ns }, cap)

/-- Modelled from the spec: node_free pushes a slot onto the free list,
threading the link through the left field of the freed slot. -/
def node_free [Inhabited α] (t : omt_tree α) (i : Nat) : omt_tree α :=
  { t with
    nodes := t.nodes.set i { getNode t.nodes i with left := t.free_idx }
    free_idx := some i }

/-- The tree obtained by freeing slot i and redirecting the root to
the surviving child; the shape of an unlink step of delete. -/
def promote [Inhabited α] (t : omt_tree α) (i : Nat) (newRoot : Option Nat) : omt_tree α :=
  { node_free t i with root := newRoot }

@[simp] theorem promote_nodes [Inhabited α] (t : omt_tree α) (i : Nat) (nr : Option Nat) :
    (promote t i nr).nodes = (node_free t i).nodes := rfl

@[simp] theorem promote_root [Inhabited α] (t : omt_tree α) (i : Nat) (nr : Option Nat) :
    (promote t i nr).root = nr := rfl

@[simp] theorem promote_free [Inhabited α] (t : omt_tree α) (i : Nat) (nr : Option Nat) :
    (promote t i nr).free_idx = (node_free t i).free_idx := rfl

/-- The tree obtained by redirecting the root of t1 to slot i after
writing the node nd there; the shape every structural descent step of
an insertion or deletion produces. -/
def assembleNode [Inhabited α] (t1 : omt_tree α) (i : Nat) (nd : omt_node α) : omt_tree α :=
  { t1 with root := some i, nodes := t1.nodes.set i nd }

@[simp] theorem assembleNode_nodes [Inhabited α] (t1 : omt_tree α) (i : Nat) (nd : omt_node α) :
    (assembleNode t1 i nd).nodes = t1.nodes.set i nd := rfl

@[simp] theorem assembleNode_root [Inhabited α] (t1 : omt_tree α) (i : Nat) (nd : omt_node α) :
    (assembleNode t1 i nd).root = some i := rfl

@[simp] theorem assembleNode_free [Inhabited α] (t1 : omt_tree α) (i : Nat) (nd : omt_node α) :
    (assembleNode t1 i nd).free_idx = t1.free_idx := rfl

/-- Modelled from the spec: the weight balance predicate of section
4.3.  With left weight L and right weight R (after the pending
modifications) and W = 1 + L + R, the subtree is balanced iff
2 * max L R < W + 2; will_need_rebalance holds when it is not. -/
def will_need_rebalance [Inhabited α] (ns : List (omt_node α))
    (oi : Option Nat) (leftmod rightmod : Int) : Bool :=
  match oi with
  | none => false
  | some i =>
      let n := getNode ns i
      let wl : Int := (nweight ns n.left : Int) + leftmod
      let wr : Int := (nweight ns n.right : Int) + rightmod
      decide ((1 + wl + wr) + 2 ≤ 2 * max wl wr)

/-- Modelled from the spec: rebuild_subtree_from_idxs.  Given the
in-order slot list of a subtree, reassemble a perfectly weight balanced
subtree by picking the median slot as the new root and recursing on the
halves; each reused slot has its weight, left and right fields
rewritten and keeps its value.  Fuel-indexed; fuel = length of the slot
list suffices. -/
def rebuild_from_idxs [Inhabited α] (ns : List (omt_node α)) :
    Nat → List Nat → List (omt_node α) × Option Nat
  | _, [] => (ns, none)
  | 0, _ :: _ => (ns, none)
  | fuel + 1, idxs@(_ :: _) =>
      let half := idxs.length / 2
      let m := idxs.getD half 0
      let p1 := rebuild_from_idxs ns fuel (idxs.take half)
      let p2 := rebuild_from_idxs p1.1 fuel (idxs.drop (half + 1))
      (p2.1.set m ⟨idxs.length, p1.2, p2.2, (getNode p2.1 m).value⟩, some m)

/-- Modelled from the spec: rebalance of section 4.3 — flatten the
subtree rooted at t.root into its in-order slot list and rebuild it
perfectly balanced. -/
def rebalance [Inhabited α] (t : omt_tree α) : omt_tree α :=
  let idxs := subtreeIdxs t.nodes t.nodes.length t.root
  let p := rebuild_from_idxs t.nodes idxs.length idxs
  { root := p.2, free_idx := t.free_idx, nodes := p.1 }

/-- Modelled from the spec: convert_to_tree (spec section 4.2).  A pool
of size max capacity live_count is allocated; the first live_count
slots receive the live values, the remaining slots are chained into the
free list, and a perfectly weight balanced tree is built over the value
slots by the recursive midpoint procedure. -/
def convert_to_tree [Inhabited α] (a : omt_array α) : omt_tree α :=
  let vs := liveList a
  let cnt := vs.length
  let cap := max a.values.length cnt
  let ns0 : List (omt_node α) := (List.range cap).map fun j =>
    ⟨0, if cnt ≤ j ∧ j + 1 < cap then some (j + 1) else none, none, vs.getD j default⟩
  let p := rebuild_from_idxs ns0 cnt (List.range cnt)
  { root := p.2, free_idx := if cnt < cap then some cnt else none, nodes := p.1 }

/-- Modelled from the spec: convert_to_array (spec section 4.2): copy
the values out by in-order traversal to offset 0 into a buffer of the
same capacity. -/
def convert_to_array [Inhabited α] (t : omt_tree α) : omt_array α :=
  let vs := subtreeList t.nodes t.nodes.length t.root
  ⟨0, vs.length, vs ++ List.replicate (t.nodes.length - vs.length) default⟩

/-- Modelled from the spec: maybe_resize_array (spec section 4.2,
Growth).  If the slack (leading plus trailing) covers the needed extra
slots, no action; otherwise a fresh buffer sized to the next power of
two at least live_count + needed is allocated and the live values are
rebuilt at offset 0. -/
def maybe_resize_array [Inhabited α] (a : omt_array α) (needed : Nat) : omt_array α :=
  if needed ≤ a.values.length - a.num_values then a
  else
    let newCap := 2 ^ Nat.clog 2 (a.num_values + needed)
    ⟨0, a.num_values, liveList a ++ List.replicate (newCap - a.num_values) default⟩

/-- Modelled from the spec: maybe_resize_or_convert, called before a
mutation that may need extra slots.  In array form it defers to
maybe_resize_array; in tree form the pool grows on demand inside
node_malloc, so no action is taken here. -/
def maybe_resize_or_convert [Inhabited α] (o : omt α) (needed : Nat) : omt α :=
  match o.d with
  | .array a => ⟨.array (maybe_resize_array a needed)⟩
  | .tree _ => o

/-- Modelled from the spec: insert_internal of the header together with
the rebalance discipline of spec section 4.3.  The descent keeps a flag
mayReb that records whether no ancestor has been selected for
rebalancing yet; the first (highest) node of the path found out of
balance is rebuilt after the insertion below it finished.  t.root is
the root of the subtree under consideration; the free list and the node
pool ride along in t. -/
def insert_help [Inhabited α] (value : α) :
    Nat → omt_tree α → Nat → Bool → omt_tree α
  | 0, t, _, _ => t
  | fuel + 1, t, idx, mayReb =>
      match t.root with
      | none =>
          let p := node_malloc t
          assembleNode p.1 p.2 ⟨1, none, none, value⟩
      | some i =>
          let n := getNode t.nodes i
          let lw := nweight t.nodes n.left
          if idx ≤ lw then
            let needReb := mayReb && will_need_rebalance t.nodes (some i) 1 0
            let t1 := insert_help value fuel { t with root := n.left } idx (mayReb && !needReb)
            let t2 := assembleNode t1 i ⟨n.weight + 1, t1.root, n.right, n.value⟩
            if needReb then rebalance t2 else t2
          else
            let needReb := mayReb && will_need_rebalance t.nodes (some i) 0 1
            let t1 := insert_help value fuel { t with root := n.right } (idx - lw - 1) (mayReb && !needReb)
            let t2 := assembleNode t1 i ⟨n.weight + 1, n.left, t1.root, n.value⟩
            if needReb then rebalance t2 else t2

/-- Modelled from the spec: delete_internal of the header together with
the rebalance discipline of spec section 4.3.  Returns the tree whose
root is the new subtree root, and the removed value.  A node with at
most one child is unlinked and freed; a node with two children receives
the value of its in-order successor, whose slot is freed by the
recursive call. -/
def delete_help [Inhabited α] :
    Nat → omt_tree α → Nat → Bool → omt_tree α × α
  | 0, t, _, _ => (t, default)
  | fuel + 1, t, idx, mayReb =>
      match t.root with
      | none => (t, default)
      | some i =>
          let n := getNode t.nodes i
          let lw := nweight t.nodes n.left
          if idx < lw then
            let needReb := mayReb && will_need_rebalance t.nodes (some i) (-1) 0
            let p := delete_help fuel { t with root := n.left } idx (mayReb && !needReb)
            let t2 := assembleNode p.1 i ⟨n.weight - 1, p.1.root, n.right, n.value⟩
            (if needReb then rebalance t2 else t2, p.2)
          else if lw < idx then
            let needReb := mayReb && will_need_rebalance t.nodes (some i) 0 (-1)
            let p := delete_help fuel { t with root := n.right } (idx - lw - 1) (mayReb && !needReb)
            let t2 := assembleNode p.1 i ⟨n.weight - 1, n.left, p.1.root, n.value⟩
            (if needReb then rebalance t2 else t2, p.2)
          else
            match n.left, n.right with
            | none, _ => (promote t i n.right, n.value)
            | some _, none => (promote t i n.left, n.value)
            | some _, some _ =>
                let needReb := mayReb && will_need_rebalance t.nodes (some i) 0 (-1)
                let p := delete_help fuel { t with root := n.right } 0 (mayReb && !needReb)
                let t2 := assembleNode p.1 i ⟨n.weight - 1, n.left, p.1.root, p.2⟩
                (if needReb then rebalance t2 else t2, n.value)

/-- Modelled from the spec: set_at_internal, the descent that replaces
the value stored at position idx of a subtree without touching the
structure. -/
def set_help [Inhabited α] (value : α) :
    Nat → List (omt_node α) → Option Nat → Nat → List (omt_node α)
  | 0, ns, _, _ => ns
  | _ + 1, ns, none, _ => ns
  | fuel + 1, ns, some i, idx =>
      let n := getNode ns i
      let lw := nweight ns n.left
      if idx < lw then set_help value fuel ns n.left idx
      else if lw < idx then set_help value fuel ns n.right (idx - lw - 1)
      else ns.set i { n with value := value }

/-- Modelled from the spec: fetch_internal, the positional descent
guided by subtree weights. -/
def fetch_help [Inhabited α] :
    Nat → List (omt_node α) → Option Nat → Nat → Option α
  | 0, _, _, _ => none
  | _ + 1, _, none, _ => none
  | fuel + 1, ns, some i, idx =>
      let n := getNode ns i
      let lw := nweight ns n.left
      if idx < lw then fetch_help fuel ns n.left idx
      else if lw < idx then fetch_help fuel ns n.right (idx - lw - 1)
      else some n.value

/-- Modelled from the spec: find_internal_zero of the header.  Returns
the error code, the value written to the value out-parameter (none
meaning it was left untouched), and the index written to the index
out-parameter, which find_zero writes on every path. -/
def find_internal_zero [Inhabited α] (h : α → Int) :
    Nat → List (omt_node α) → Option Nat → errcode × Option α × Option Nat
  | 0, _, _ => (.NOT_FOUND, none, some 0)
  | _ + 1, _, none => (.NOT_FOUND, none, some 0)
  | fuel + 1, ns, some i =>
      let n := getNode ns i
      let hv := h n.value
      if hv < 0 then
        let p := find_internal_zero h fuel ns n.right
        (p.1, p.2.1, p.2.2.map (· + nweight ns n.left + 1))
      else if 0 < hv then
        find_internal_zero h fuel ns n.left
      else
        let p := find_internal_zero h fuel ns n.left
        if p.1 = .NOT_FOUND then (.ok, some n.value, some (nweight ns n.left))
        else p

/-- Modelled from the spec: find_internal_plus of the header — smallest
index whose comparator value is positive; out-parameters untouched on
DB_NOTFOUND. -/
def find_internal_plus [Inhabited α] (h : α → Int) :
    Nat → List (omt_node α) → Option Nat → errcode × Option α × Option Nat
  | 0, _, _ => (.NOT_FOUND, none, none)
  | _ + 1, _, none => (.NOT_FOUND, none, none)
  | fuel + 1, ns, some i =>
      let n := getNode ns i
      if 0 < h n.value then
        let p := find_internal_plus h fuel ns n.left
        if p.1 = .NOT_FOUND then (.ok, some n.value, some (nweight ns n.left))
        else p
      else
        let p := find_internal_plus h fuel ns n.right
        if p.1 = .ok then (p.1, p.2.1, p.2.2.map (· + nweight ns n.left + 1))
        else p

/-- Modelled from the spec: find_internal_minus of the header — largest
index whose comparator value is negative; out-parameters untouched on
DB_NOTFOUND. -/
def find_internal_minus [Inhabited α] (h : α → Int) :
    Nat → List (omt_node α) → Option Nat → errcode × Option α × Option Nat
  | 0, _, _ => (.NOT_FOUND, none, none)
  | _ + 1, _, none => (.NOT_FOUND, none, none)
  | fuel + 1, ns, some i =>
      let n := getNode ns i
      if h n.value < 0 then
        let p := find_internal_minus h fuel ns n.right
        if p.1 = .ok then (p.1, p.2.1, p.2.2.map (· + nweight ns n.left + 1))
        else (.ok, some n.value, some (nweight ns n.left))
      else
        find_internal_minus h fuel ns n.left

/-- Modelled from the spec: the standard binary search of the array
form for find_zero, over the half open range [lo, hi) of the live
list. -/
def find_zero_arr [Inhabited α] (h : α → Int) (l : List α) :
    Nat → Nat → Nat → errcode × Option α × Option Nat
  | 0, lo, _ => (.NOT_FOUND, none, some lo)
  | fuel + 1, lo, hi =>
      if hi ≤ lo then (.NOT_FOUND, none, some lo)
      else
        let mid := (lo + hi) / 2
        let x := l.getD mid default
        let hv := h x
        if hv < 0 then find_zero_arr h l fuel (mid + 1) hi
        else if 0 < hv then find_zero_arr h l fuel lo mid
        else
          let p := find_zero_arr h l fuel lo mid
          if p.1 = .NOT_FOUND then (.ok, some x, some mid) else p

/-- Modelled from the spec: the standard binary search of the array
form for find with positive direction. -/
def find_plus_arr [Inhabited α] (h : α → Int) (l : List α) :
    Nat → Nat → Nat → errcode × Option α × Option Nat
  | 0, _, _ => (.NOT_FOUND, none, none)
  | fuel + 1, lo, hi =>
      if hi ≤ lo then (.NOT_FOUND, none, none)
      else
        let mid := (lo + hi) / 2
        let x := l.getD mid default
        if 0 < h x then
          let p := find_plus_arr h l fuel lo mid
          if p.1 = .NOT_FOUND then (.ok, some x, some mid) else p
        else find_plus_arr h l fuel (mid + 1) hi

/-- Modelled from the spec: the standard binary search of the array
form for find with negative direction. -/
def find_minus_arr [Inhabited α] (h : α → Int) (l : List α) :
    Nat → Nat → Nat → errcode × Option α × Option Nat
  | 0, _, _ => (.NOT_FOUND, none, none)
  | fuel + 1, lo, hi =>
      if hi ≤ lo then (.NOT_FOUND, none, none)
      else
        let mid := (lo + hi) / 2
        let x := l.getD mid default
        if h x < 0 then
          let p := find_minus_arr h l fuel (mid + 1) hi
          if p.1 = .NOT_FOUND then (.ok, some x, some mid) else p
        else find_minus_arr h l fuel lo mid

/-- Modelled from the spec: create() — an empty container in array
form with capacity 0 (spec section 4.4, Construction). -/
def omt.create : omt α := ⟨.array ⟨0, 0, []⟩⟩

/-- Modelled from the spec: create_from_sorted_array copies the given
values into a new array form buffer of capacity numvalues. -/
def omt.create_from_sorted_array (vs : List α) : omt α :=
  ⟨.array ⟨0, vs.length, vs⟩⟩

/-- Modelled from the spec: insert_at (spec sections 4.2 and 4.4).
Checks the index, makes room, absorbs a front insert into leading slack
or an append into trailing slack, and otherwise converts to tree form
and performs the weight guided insertion with rebalancing. -/
def omt.insert_at [Inhabited α] (o : omt α) (value : α) (idx : Nat) : errcode × omt α :=
  if o.size < idx then (.INVALID_ARGUMENT, o)
  else
    let o1 := maybe_resize_or_convert o 1
    match o1.d with
    | .array a =>
        if idx = 0 ∧ 0 < a.start_idx then
          (.ok, ⟨.array ⟨a.start_idx - 1, a.num_values + 1,
                          a.values.set (a.start_idx - 1) value⟩⟩)
        else if idx = a.num_values ∧ a.start_idx + a.num_values < a.values.length then
          (.ok, ⟨.array ⟨a.start_idx, a.num_values + 1,
                          a.values.set (a.start_idx + a.num_values) value⟩⟩)
        else
          let t := convert_to_tree a
          (.ok, ⟨.tree (insert_help value (t.nodes.length + 1) t idx true)⟩)
    | .tree t => (.ok, ⟨.tree (insert_help value (t.nodes.length + 1) t idx true)⟩)

/-- Modelled from the spec: delete_at (spec sections 4.2 and 4.4).
Checks the index, absorbs a delete at either end of the array form, and
otherwise converts to tree form and performs the weight guided deletion
with rebalancing. -/
def omt.delete_at [Inhabited α] (o : omt α) (idx : Nat) : errcode × omt α :=
  if o.size ≤ idx then (.INVALID_ARGUMENT, o)
  else
    match o.d with
    | .array a =>
        if idx = a.num_values - 1 then
          (.ok, ⟨.array ⟨a.start_idx, a.num_values - 1, a.values⟩⟩)
        else if idx = 0 then
          (.ok, ⟨.array ⟨a.start_idx + 1, a.num_values - 1, a.values⟩⟩)
        else
          let t := convert_to_tree a
          (.ok, ⟨.tree (delete_help (t.nodes.length + 1) t idx true).1⟩)
    | .tree t => (.ok, ⟨.tree (delete_help (t.nodes.length + 1) t idx true).1⟩)

/-- Modelled from the spec: set_at overwrites position idx, leaving the
structure unchanged. -/
def omt.set_at [Inhabited α] (o : omt α) (value : α) (idx : Nat) : errcode × omt α :=
  if o.size ≤ idx then (.INVALID_ARGUMENT, o)
  else
    match o.d with
    | .array a =>
        (.ok, ⟨.array { a with values := a.values.set (a.start_idx + idx) value }⟩)
    | .tree t =>
        (.ok, ⟨.tree { t with nodes := set_help value (t.nodes.length + 1) t.nodes t.root idx }⟩)

/-- Modelled from the spec: fetch returns V_idx; on error the value
out-parameter is untouched (modelled as none). -/
def omt.fetch [Inhabited α] (o : omt α) (idx : Nat) : errcode × Option α :=
  if o.size ≤ idx then (.INVALID_ARGUMENT, none)
  else
    match o.d with
    | .array a => (.ok, some (a.values.getD (a.start_idx + idx) default))
    | .tree t => (.ok, fetch_help (t.nodes.length + 1) t.nodes t.root idx)

/-- Modelled from the spec: find_zero — smallest index whose comparator
value is zero, with the index out-parameter written on every path. -/
def omt.find_zero [Inhabited α] (o : omt α) (h : α → Int) :
    errcode × Option α × Option Nat :=
  match o.d with
  | .array a => find_zero_arr h (liveList a) (a.num_values + 1) 0 a.num_values
  | .tree t => find_internal_zero h (t.nodes.length + 1) t.nodes t.root

/-- Modelled from the spec: find with a direction; zero direction is
not allowed. -/
def omt.find [Inhabited α] (o : omt α) (h : α → Int) (direction : Int) :
    errcode × Option α × Option Nat :=
  if direction = 0 then (.INVALID_ARGUMENT, none, none)
  else if 0 < direction then
    match o.d with
    | .array a => find_plus_arr h (liveList a) (a.num_values + 1) 0 a.num_values
    | .tree t => find_internal_plus h (t.nodes.length + 1) t.nodes t.root
  else
    match o.d with
    | .array a => find_minus_arr h (liveList a) (a.num_values + 1) 0 a.num_values
    | .tree t => find_internal_minus h (t.nodes.length + 1) t.nodes t.root

/-- Modelled from the spec: the comparator guided insert of the header:
find_zero locates either an equal element (DB_KEYEXIST) or the
insertion point, and insert_at performs the insertion there. -/
def omt.insert [Inhabited α] (o : omt α) (value : α) (h : α → Int) :
    errcode × omt α × Option Nat :=
  let f := o.find_zero h
  if f.1 = .ok then (.KEY_EXISTS, o, none)
  else
    let ix := f.2.2.getD 0
    let p := o.insert_at value ix
    if p.1 = .ok then (.ok, p.2, some ix) else (p.1, p.2, none)

/-- Modelled from the spec: clear makes the container logically empty
without reallocating; the buffer is reused in array form. -/
def omt.clear [Inhabited α] (o : omt α) : omt α :=
  match o.d with
  | .array a => ⟨.array ⟨0, 0, a.values⟩⟩
  | .tree t => ⟨.array ⟨0, 0, List.replicate t.nodes.length default⟩⟩

/-- Modelled from the spec: split_at — after success this contains
V[0, idx) (array form over the same buffer) and the returned container
is freshly created from V[idx, n). -/
def omt.split_at [Inhabited α] (o : omt α) (idx : Nat) :
    errcode × omt α × Option (omt α) :=
  if o.size < idx then (.INVALID_ARGUMENT, o, none)
  else
    let a := match o.d with
      | .array a => a
      | .tree t => convert_to_array t
    (.ok, ⟨.array ⟨a.start_idx, idx, a.values⟩⟩,
      some (omt.create_from_sorted_array ((liveList a).drop idx)))

/-- Modelled from the spec: merge concatenates the two sequences into a
fresh container (the precondition that the right values come after the
left ones in the logical order is the concern of the caller). -/
def omt.merge [Inhabited α] (l r : omt α) : omt α :=
  omt.create_from_sorted_array (seqOf l ++ seqOf r)

/-- Iteration over a plain list with early exit, carrying the extra
state and the running index; this is both the shape of the C callback
loop and the list model of iterate. -/
def listIterate (f : α → Nat → σ → σ × Int) : List α → Nat → σ → σ × Int
  | [], _, s => (s, 0)
  | x :: xs, i, s =>
      let p := f x i s
      if p.2 = 0 then listIterate f xs (i + 1) p.1 else p

/-- Modelled from the spec: the in-order iteration of tree form,
calling the callback with the value, its index and the extra state,
stopping on a nonzero return. -/
def iterate_tree [Inhabited α] (f : α → Nat → σ → σ × Int) :
    Nat → List (omt_node α) → Option Nat → Nat → σ → σ × Int
  | 0, _, _, _, s => (s, 0)
  | _ + 1, _, none, _, s => (s, 0)
  | fuel + 1, ns, some i, idx, s =>
      let n := getNode ns i
      let lw := nweight ns n.left
      let p1 := iterate_tree f fuel ns n.left idx s
      if p1.2 ≠ 0 then p1
      else
        let p2 := f n.value (idx + lw) p1.1
        if p2.2 ≠ 0 then p2
        else iterate_tree f fuel ns n.right (idx + lw + 1) p2.1

/-- Modelled from the spec: iterate runs the callback over the values
from left to right; a nonzero return of the callback stops the
iteration and is returned. -/
def omt.iterate [Inhabited α] (o : omt α) (f : α → Nat → σ → σ × Int) (s : σ) : σ × Int :=
  match o.d with
  | .array a => listIterate f (liveList a) 0 s
  | .tree t => iterate_tree f (t.nodes.length + 1) t.nodes t.root 0 s

/-! ## The naive list model

The spec (section 8, Testable properties) asks that the container
behave, through its whole interface, exactly like a naive model that
keeps the sequence V as a plain list.  The following definitions are
that model, written from the words of the spec. -/

/-- List model of insert_at: insertion at position i. -/
def insertList (l : List α) (v : α) (i : Nat) : List α :=
  l.take i ++ v :: l.drop i

/-- List model of delete_at: removal of position i. -/
def deleteList (l : List α) (i : Nat) : List α :=
  l.take i ++ l.drop (i + 1)

/-! ## Abstract binary trees and the representation relation -/

/-- Abstract binary tree used to describe the shape stored in the node
pool. -/
inductive bt (α : Type) where
  | leaf
  | node (l : bt α) (v : α) (r : bt α)

/-- Number of values in an abstract tree. -/
def bt.size : bt α → Nat
  | .leaf => 0
  | .node l _ r => l.size + r.size + 1

/-- In-order value sequence of an abstract tree. -/
def bt.flatten : bt α → List α
  | .leaf => []
  | .node l v r => l.flatten ++ v :: r.flatten

/-- Rep ns root b il states that starting at index root the node pool
ns stores the abstract tree b, that every stored weight is one plus the
weights of the children, and that il is the in-order list of the pool
slots so used. -/
inductive Rep [Inhabited α] (ns : List (omt_node α)) : Option Nat → bt α → List Nat → Prop where
  | leaf : Rep ns none .leaf []
  | node {i : Nat} {l r : bt α} {il ir : List Nat} :
      i < ns.length →
      (getNode ns i).weight = l.size + r.size + 1 →
      Rep ns (getNode ns i).left l il →
      Rep ns (getNode ns i).right r ir →
      Rep ns (some i) (.node l (getNode ns i).value r) (il ++ i :: ir)

/-- FreeChain ns head fl states that fl is the list of slots of the
free list of the pool ns, starting at head and threaded through the
left fields. -/
inductive FreeChain [Inhabited α] (ns : List (omt_node α)) : Option Nat → List Nat → Prop where
  | nil : FreeChain ns none []
  | cons {i : Nat} {rest : List Nat} :
      i < ns.length →
      FreeChain ns (getNode ns i).left rest →
      FreeChain ns (some i) (i :: rest)

/-- Well formed tree form: some abstract tree is represented, the free
list is a genuine chain, no slot is used twice (in particular the
reachable slots and the free slots are disjoint), and together they
cover the pool. -/
def TreeOK [Inhabited α] (t : omt_tree α) : Prop :=
  ∃ b il fl, Rep t.nodes t.root b il ∧ FreeChain t.nodes t.free_idx fl ∧
    (il ++ fl).Nodup ∧ ∀ j, j < t.nodes.length → j ∈ il ∨ j ∈ fl

/-- The representation invariant of the container (spec section 3). -/
def Inv [Inhabited α] (o : omt α) : Prop :=
  match o.d with
  | .array a => a.start_idx + a.num_values ≤ a.values.length
  | .tree t => TreeOK t

/-! ## Pool access lemmas -/

theorem getNode_set_self [Inhabited α] {ns : List (omt_node α)} {i : Nat}
    (h : i < ns.length) (nd : omt_node α) : getNode (ns.set i nd) i = nd := by
  simp [getNode, List.getD_eq_getElem?_getD, List.getElem?_set_self, h]

theorem getNode_set_ne [Inhabited α] {ns : List (omt_node α)} {i j : Nat}
    (h : i ≠ j) (nd : omt_node α) : getNode (ns.set i nd) j = getNode ns j := by
  simp [getNode, List.getD_eq_getElem?_getD, List.getElem?_set_ne h]

theorem getNode_append_left [Inhabited α] {ns ext : List (omt_node α)} {j : Nat}
    (h : j < ns.length) : getNode (ns ++ ext) j = getNode ns j := by
  simp [getNode, List.getD_eq_getElem?_getD, List.getElem?_append_left h]

theorem getNode_lt [Inhabited α] {ns : List (omt_node α)} {j : Nat}
    (h : j < ns.length) : ns[j]? = some (getNode ns j) := by
  simp [getNode, List.getD_eq_getElem?_getD, List.getElem?_eq_getElem h]

/-! ## Basic facts about Rep and FreeChain -/

theorem Rep.mem_lt [Inhabited α] {ns : List (omt_node α)} {r : Option Nat}
    {b : bt α} {il : List Nat} (h : Rep ns r b il) : ∀ j ∈ il, j < ns.length := by
  induction h with
  | leaf => intro j hj; cases hj
  | node hi hw hl hr ihl ihr =>
      intro j hj
      rcases List.mem_append.1 hj with hj | hj
      · exact ihl j hj
      · rcases List.mem_cons.1 hj with rfl | hj
        · exact hi
        · exact ihr j hj

theorem Rep.size_eq [Inhabited α] {ns : List (omt_node α)} {r : Option Nat}
    {b : bt α} {il : List Nat} (h : Rep ns r b il) : b.size = il.length := by
  induction h with
  | leaf => rfl
  | node hi hw hl hr ihl ihr =>
      simp [bt.size, ihl, ihr]; omega

theorem Rep.nweight_eq [Inhabited α] {ns : List (omt_node α)} {r : Option Nat}
    {b : bt α} {il : List Nat} (h : Rep ns r b il) : nweight ns r = b.size := by
  cases h with
  | leaf => rfl
  | node hi hw hl hr => simpa [nweight, bt.size] using hw

theorem Rep.flatten_vals [Inhabited α] {ns : List (omt_node α)} {r : Option Nat}
    {b : bt α} {il : List Nat} (h : Rep ns r b il) :
    b.flatten = il.map (fun j => (getNode ns j).value) := by
  induction h with
  | leaf => rfl
  | node hi hw hl hr ihl ihr =>
      simp [bt.flatten, ihl, ihr]

theorem Rep.stable [Inhabited α] {ns ns' : List (omt_node α)} {r : Option Nat}
    {b : bt α} {il : List Nat} (h : Rep ns r b il)
    (hlen : ns.length ≤ ns'.length)
    (hsame : ∀ j ∈ il, getNode ns' j = getNode ns j) : Rep ns' r b il := by
  induction h with
  | leaf => exact .leaf
  | @node i l r il ir hi hw hl hr ihl ihr =>
      have hsame_i : getNode ns' i = getNode ns i := hsame i (by simp)
      have h1 : Rep ns' (getNode ns i).left l il :=
        ihl fun j hj => hsame j (by simp [hj])
      have h2 : Rep ns' (getNode ns i).right r ir :=
        ihr fun j hj => hsame j (by simp [hj])
      have : Rep ns' (some i) (bt.node l (getNode ns' i).value r) (il ++ i :: ir) :=
        Rep.node (lt_of_lt_of_le hi hlen)
        (by rw [hsame_i, hw]) (by rw [hsame_i]; exact h1) (by rw [hsame_i]; exact h2)
      rwa [hsame_i] at this

theorem FreeChain.chain_mem_lt [Inhabited α] {ns : List (omt_node α)} {f : Option Nat}
    {fl : List Nat} (h : FreeChain ns f fl) : ∀ j ∈ fl, j < ns.length := by
  induction h with
  | nil => intro j hj; cases hj
  | cons hi hrest ih =>
      intro j hj
      rcases List.mem_cons.1 hj with rfl | hj
      · exact hi
      · exact ih j hj

theorem FreeChain.chain_stable [Inhabited α] {ns ns' : List (omt_node α)} {f : Option Nat}
    {fl : List Nat} (h : FreeChain ns f fl)
    (hlen : ns.length ≤ ns'.length)
    (hsame : ∀ j ∈ fl, getNode ns' j = getNode ns j) : FreeChain ns' f fl := by
  induction h with
  | nil => exact .nil
  | @cons i rest hi hrest ih =>
      have hsame_i : getNode ns' i = getNode ns i := hsame i (by simp)
      refine FreeChain.cons (lt_of_lt_of_le hi hlen) ?_
      rw [hsame_i]
      exact ih fun j hj => hsame j (by simp [hj])

theorem subtreeList_eq [Inhabited α] {ns : List (omt_node α)} {r : Option Nat}
    {b : bt α} {il : List Nat} (h : Rep ns r b il) :
    ∀ fuel, b.size ≤ fuel → subtreeList ns fuel r = b.flatten := by
  induction h with
  | leaf =>
      intro fuel _
      cases fuel <;> rfl
  | @node i l r il ir hi hw hl hr ihl ihr =>
      intro fuel hfuel
      have hsz : l.size + r.size + 1 ≤ fuel := hfuel
      obtain ⟨fuel, rfl⟩ : ∃ f, fuel = f + 1 := ⟨fuel - 1, by omega⟩
      simp only [subtreeList, bt.flatten]
      rw [ihl fuel (by omega), ihr fuel (by omega)]

theorem subtreeIdxs_eq [Inhabited α] {ns : List (omt_node α)} {r : Option Nat}
    {b : bt α} {il : List Nat} (h : Rep ns r b il) :
    ∀ fuel, b.size ≤ fuel → subtreeIdxs ns fuel r = il := by
  induction h with
  | leaf =>
      intro fuel _
      cases fuel <;> rfl
  | @node i l r il ir hi hw hl hr ihl ihr =>
      intro fuel hfuel
      have hsz : l.size + r.size + 1 ≤ fuel := hfuel
      obtain ⟨fuel, rfl⟩ : ∃ f, fuel = f + 1 := ⟨fuel - 1, by omega⟩
      simp only [subtreeIdxs]
      rw [ihl fuel (by omega), ihr fuel (by omega)]

theorem bt.flatten_length (b : bt α) : b.flatten.length = b.size := by
  induction b with
  | leaf => rfl
  | node l v r ihl ihr => simp [bt.flatten, bt.size, ihl, ihr]; omega

/-! ## Helper list lemmas -/

theorem list_split_mid {β : Type} [Inhabited β] (l : List β) (k : Nat) (h : k < l.length) :
    l = l.take k ++ l.getD k default :: l.drop (k + 1) := by
  conv_lhs => rw [← List.take_append_drop k l]
  rw [List.drop_eq_getElem_cons h]
  simp [List.getD_eq_getElem?_getD, List.getElem?_eq_getElem h]

theorem nodup_mid {lf rt : List Nat} {m : Nat} (h : (lf ++ m :: rt).Nodup) :
    lf.Nodup ∧ rt.Nodup ∧ m ∉ lf ∧ m ∉ rt ∧ ∀ j ∈ lf, j ∉ rt := by
  rw [List.nodup_append] at h
  obtain ⟨h1, h2, h3⟩ := h
  rw [List.nodup_cons] at h2
  refine ⟨h1, h2.2, fun hm => h3 hm (by simp), h2.1, fun j hj hjr => h3 hj (by simp [hjr])⟩

theorem getD_map_range {β : Type} (f : Nat → β) {n k : Nat} (d : β) (hk : k < n) :
    ((List.range n).map f).getD k d = f k := by
  simp [List.getD_eq_getElem?_getD, List.getElem?_map, List.getElem?_range hk]

/-! ## Correctness of rebuild_from_idxs -/

theorem rebuild_spec [Inhabited α] :
    ∀ (fuel : Nat) (idxs : List Nat) (ns : List (omt_node α)),
      idxs.length ≤ fuel → idxs.Nodup → (∀ j ∈ idxs, j < ns.length) →
      ∃ b : bt α,
        Rep (rebuild_from_idxs ns fuel idxs).1 (rebuild_from_idxs ns fuel idxs).2 b idxs ∧
        (rebuild_from_idxs ns fuel idxs).1.length = ns.length ∧
        (∀ j, j ∉ idxs → getNode (rebuild_from_idxs ns fuel idxs).1 j = getNode ns j) ∧
        b.flatten = idxs.map (fun j => (getNode ns j).value) := by
  intro fuel
  induction fuel with
  | zero =>
      intro idxs ns hf _ _
      have : idxs = [] := List.length_eq_zero.1 (Nat.le_zero.1 hf)
      subst this
      exact ⟨bt.leaf, Rep.leaf, rfl, fun j _ => rfl, rfl⟩
  | succ fuel ih =>
      intro idxs ns hf hnd hmem
      match idxs with
      | [] => exact ⟨bt.leaf, Rep.leaf, rfl, fun j _ => rfl, rfl⟩
      | x :: xs =>
        have hL : 0 < (x :: xs).length := by simp
        have hhalf : (x :: xs).length / 2 < (x :: xs).length := Nat.div_lt_self hL (by omega)
        have hsplit : x :: xs =
            (x :: xs).take ((x :: xs).length / 2) ++
              (x :: xs).getD ((x :: xs).length / 2) 0 ::
                (x :: xs).drop ((x :: xs).length / 2 + 1) :=
          list_split_mid _ _ hhalf
        generalize hmm : (x :: xs).getD ((x :: xs).length / 2) 0 = m at hsplit
        generalize hlf : (x :: xs).take ((x :: xs).length / 2) = lf at hsplit
        generalize hrt : (x :: xs).drop ((x :: xs).length / 2 + 1) = rt at hsplit
        have hlen_lf : lf.length = (x :: xs).length / 2 := by
          rw [← hlf, List.length_take]; omega
        have hlen_rt : rt.length = (x :: xs).length - ((x :: xs).length / 2) - 1 := by
          rw [← hrt, List.length_drop]
          omega
        have hnd2 := hnd
        rw [hsplit] at hnd2
        obtain ⟨hnd_lf, hnd_rt, hm_lf, hm_rt, hdisj⟩ := nodup_mid hnd2
        have hmem2 := hmem
        rw [hsplit] at hmem2
        have hmem_lf : ∀ j ∈ lf, j < ns.length := fun j hj => hmem2 j (by simp [hj])
        have hmem_rt : ∀ j ∈ rt, j < ns.length := fun j hj => hmem2 j (by simp [hj])
        have hm_lt : m < ns.length := hmem2 m (by simp)
        obtain ⟨bl, hRl, hlen1, hfr1, hfl1⟩ :=
          ih lf ns (by omega) hnd_lf hmem_lf
        obtain ⟨br, hRr, hlen2, hfr2, hfl2⟩ :=
          ih rt (rebuild_from_idxs ns fuel lf).1 (by omega) hnd_rt
            (fun j hj => by rw [hlen1]; exact hmem_rt j hj)
        have hstep : rebuild_from_idxs ns (fuel + 1) (x :: xs) =
            ((rebuild_from_idxs (rebuild_from_idxs ns fuel lf).1 fuel rt).1.set m
              ⟨(x :: xs).length, (rebuild_from_idxs ns fuel lf).2,
                (rebuild_from_idxs (rebuild_from_idxs ns fuel lf).1 fuel rt).2,
                (getNode (rebuild_from_idxs (rebuild_from_idxs ns fuel lf).1 fuel rt).1 m).value⟩,
              some m) := by
          rw [← hmm, ← hlf, ← hrt]
          rfl
        set p1 := rebuild_from_idxs ns fuel lf
        set p2 := rebuild_from_idxs p1.1 fuel rt
        have hm_ne_lf : ∀ j ∈ lf, j ≠ m := fun j hj hje => hm_lf (hje ▸ hj)
        have hval_m : getNode p2.1 m = getNode ns m := by
          rw [hfr2 m hm_rt, hfr1 m hm_lf]
        -- the updated pool
        set nd : omt_node α := ⟨(x :: xs).length, p1.2, p2.2, (getNode p2.1 m).value⟩
        set ns3 := p2.1.set m nd
        have hlen3 : ns3.length = ns.length := by
          simp only [ns3, List.length_set]; rw [hlen2, hlen1]
        have hget3 : getNode ns3 m = nd :=
          getNode_set_self (by rw [hlen2, hlen1]; exact hm_lt) nd
        have hfr3 : ∀ j, j ≠ m → getNode ns3 j = getNode p2.1 j :=
          fun j hj => getNode_set_ne (fun he => hj he.symm) nd
        have hRl3 : Rep ns3 p1.2 bl lf := by
          refine hRl.stable (by rw [hlen3]; exact le_of_eq hlen1) (fun j hj => ?_)
          rw [hfr3 j (hm_ne_lf j hj), hfr2 j (hdisj j hj)]
        have hRr3 : Rep ns3 p2.2 br rt := by
          refine hRr.stable (by rw [hlen3, hlen2]; exact le_of_eq hlen1) (fun j hj => ?_)
          exact hfr3 j (fun hje => hm_rt (hje ▸ hj))
        have hsz_l : bl.size = lf.length := by rw [hRl.size_eq]
        have hsz_r : br.size = rt.length := by rw [hRr.size_eq]
        have hw : (getNode ns3 m).weight = bl.size + br.size + 1 := by
          rw [hget3, hsz_l, hsz_r, hlen_lf, hlen_rt]
          simp only [nd]
          omega
        have hRep : Rep ns3 (some m) (bt.node bl (getNode ns3 m).value br) (lf ++ m :: rt) := by
          refine Rep.node (by rw [hlen3]; exact hm_lt) hw ?_ ?_
          · rw [hget3]; exact hRl3
          · rw [hget3]; exact hRr3
        refine ⟨bt.node bl (getNode ns3 m).value br, ?_, ?_, ?_, ?_⟩
        · rw [hstep, hsplit]
          exact hRep
        · rw [hstep]
          exact hlen3
        · intro j hj
          rw [hsplit] at hj
          have hj_lf : j ∉ lf := fun hh => hj (by simp [hh])
          have hj_rt : j ∉ rt := fun hh => hj (by simp [hh])
          have hj_m : j ≠ m := fun hh => hj (by simp [hh])
          rw [hstep]
          show getNode ns3 j = getNode ns j
          rw [hfr3 j hj_m, hfr2 j hj_rt, hfr1 j hj_lf]
        · show (bt.node bl (getNode ns3 m).value br).flatten = _
          have hdisj2 : ∀ j ∈ rt, j ∉ lf := fun j hj hjl => hdisj j hjl hj
          have hvr : br.flatten = rt.map fun j => (getNode ns j).value := by
            rw [hfl2]
            exact List.map_congr_left fun j hj => by rw [hfr1 j (hdisj2 j hj)]
          have hvm : (getNode ns3 m).value = (getNode ns m).value := by
            rw [hget3]
            show (getNode p2.1 m).value = _
            rw [hval_m]
          conv_rhs => rw [hsplit]
          simp only [bt.flatten, List.map_append, List.map_cons]
          rw [hfl1, hvr, hvm]

/-! ## Free list lemmas and the allocator -/

theorem freeChain_seg [Inhabited α] (ns : List (omt_node α)) :
    ∀ (cnt base : Nat), base + cnt ≤ ns.length →
      (∀ k, k < cnt → (getNode ns (base + k)).left =
        if k + 1 < cnt then some (base + k + 1) else none) →
      FreeChain ns (if 0 < cnt then some base else none)
        ((List.range cnt).map (base + ·)) := by
  intro cnt
  induction cnt with
  | zero =>
      intro base _ _
      simpa using FreeChain.nil
  | succ cnt ih =>
      intro base hle hchain
      have hbase : base < ns.length := by omega
      have htail : FreeChain ns (if 0 < cnt then some (base + 1) else none)
          ((List.range cnt).map ((base + 1) + ·)) := by
        refine ih (base + 1) (by omega) (fun k hk => ?_)
        have h := hchain (k + 1) (by omega)
        have e1 : base + (k + 1) = base + 1 + k := by omega
        rw [e1] at h
        rw [h]
        by_cases hc : k + 1 < cnt
        · rw [if_pos (show k + 1 + 1 < cnt + 1 by omega), if_pos hc]
        · rw [if_neg (show ¬(k + 1 + 1 < cnt + 1) by omega), if_neg hc]
      have hhead := hchain 0 (by omega)
      simp only [Nat.add_zero] at hhead
      have hlist : (List.range (cnt + 1)).map (base + ·) =
          base :: (List.range cnt).map ((base + 1) + ·) := by
        rw [List.range_succ_eq_map]
        simp only [List.map_cons, List.map_map, Nat.add_zero]
        refine congrArg (base :: ·) (List.map_congr_left fun k _ => ?_)
        simp [Function.comp]
        omega
      rw [if_pos (by omega : 0 < cnt + 1), hlist]
      refine FreeChain.cons hbase ?_
      rcases Nat.eq_zero_or_pos cnt with hc | hc
      · subst hc
        rw [if_neg (by omega)] at hhead
        rw [hhead]
        simpa using FreeChain.nil
      · rw [if_pos (by omega : 0 + 1 < cnt + 1)] at hhead
        rw [hhead]
        rw [if_pos hc] at htail
        exact htail

theorem node_malloc_spec [Inhabited α] {t : omt_tree α} {fl : List Nat}
    (hfc : FreeChain t.nodes t.free_idx fl) (hnd : fl.Nodup) :
    ∃ fl2 : List Nat,
      FreeChain (node_malloc t).1.nodes (node_malloc t).1.free_idx fl2 ∧
      (node_malloc t).1.root = t.root ∧
      t.nodes.length ≤ (node_malloc t).1.nodes.length ∧
      (∀ j, j < t.nodes.length → getNode (node_malloc t).1.nodes j = getNode t.nodes j) ∧
      (node_malloc t).2 < (node_malloc t).1.nodes.length ∧
      ((node_malloc t).2 :: fl2).Nodup ∧
      (∀ j, ((node_malloc t).2 = j ∨ j ∈ fl2) ↔
        (j ∈ fl ∨ (t.nodes.length ≤ j ∧ j < (node_malloc t).1.nodes.length))) := by
  rcases hfq : t.free_idx with _ | i
  · rw [hfq] at hfc
    cases hfc
    -- the free list is empty: the pool grows
    simp only [node_malloc, hfq]
    set cap := t.nodes.length with hcap
    set newCap := max 2 (2 * cap) with hnewCap
    set fresh : List (omt_node α) := (List.range (newCap - cap)).map (fun k =>
      ⟨0, if cap + k + 1 < newCap then some (cap + k + 1) else none, none, default⟩) with hfresh
    have hcaplt : cap < newCap := by
      rcases Nat.eq_zero_or_pos cap with hz | hp
      · rw [hz]; exact lt_max_of_lt_left (by omega)
      · exact lt_max_of_lt_right (by omega)
    have hlenfresh : fresh.length = newCap - cap := by
      rw [hfresh, List.length_map, List.length_range]
    have hlen2 : (t.nodes ++ fresh).length = newCap := by
      rw [List.length_append, hlenfresh, ← hcap]
      omega
    have hgetfresh : ∀ k, k < newCap - cap →
        getNode (t.nodes ++ fresh) (cap + k) =
          ⟨0, if cap + k + 1 < newCap then some (cap + k + 1) else none, none, default⟩ := by
      intro k hk
      rw [getNode, List.getD_append_right _ _ _ _ (by omega), hfresh]
      have : cap + k - t.nodes.length = k := by rw [← hcap]; omega
      rw [this]
      exact getD_map_range _ _ hk
    have hseg : FreeChain (t.nodes ++ fresh)
        (if 0 < newCap - cap - 1 then some (cap + 1) else none)
        ((List.range (newCap - cap - 1)).map ((cap + 1) + ·)) := by
      refine freeChain_seg (t.nodes ++ fresh) (newCap - cap - 1) (cap + 1)
        (by omega) (fun k hk => ?_)
      have e1 : cap + 1 + k = cap + (k + 1) := by omega
      rw [e1, hgetfresh (k + 1) (by omega)]
      by_cases hc : k + 1 < newCap - cap - 1
      · rw [if_pos (show cap + (k + 1) + 1 < newCap by omega), if_pos hc]
      · rw [if_neg (show ¬(cap + (k + 1) + 1 < newCap) by omega), if_neg hc]
    have hget0 : getNode (t.nodes ++ fresh) cap =
        ⟨0, if cap + 0 + 1 < newCap then some (cap + 0 + 1) else none, none, default⟩ := by
      have h0 := hgetfresh 0 (by omega)
      rwa [Nat.add_zero] at h0
    refine ⟨(List.range (newCap - cap - 1)).map ((cap + 1) + ·), ?_, ?_, ?_, ?_, ?_, ?_, ?_⟩
    · show FreeChain (t.nodes ++ fresh) (getNode (t.nodes ++ fresh) cap).left _
      rw [hget0]
      show FreeChain _ (if cap + 0 + 1 < newCap then some (cap + 0 + 1) else none) _
      simp only [Nat.add_zero]
      by_cases hc : cap + 1 < newCap
      · rw [if_pos hc]
        rw [if_pos (show 0 < newCap - cap - 1 by omega)] at hseg
        exact hseg
      · rw [if_neg hc]
        rw [if_neg (show ¬(0 < newCap - cap - 1) by omega)] at hseg
        have : newCap - cap - 1 = 0 := by omega
        rw [this] at hseg ⊢
        simpa using hseg
    · trivial
    · rw [hlen2]; omega
    · intro j hj
      exact getNode_append_left hj
    · show cap < (t.nodes ++ fresh).length
      rw [hlen2]; exact hcaplt
    · refine List.Nodup.cons ?_ ?_
      · intro hmem
        rcases List.mem_map.1 hmem with ⟨k, _, hk⟩
        omega
      · exact (List.nodup_range _).map (fun a b hab => by omega)
    · intro j
      constructor
      · rintro (rfl | hj)
        · exact Or.inr ⟨le_refl _, by rw [hlen2]; exact hcaplt⟩
        · rcases List.mem_map.1 hj with ⟨k, hk, rfl⟩
          rw [List.mem_range] at hk
          exact Or.inr ⟨by omega, by rw [hlen2]; omega⟩
      · rintro (hj | ⟨h1, h2⟩)
        · cases hj
        · rw [hlen2] at h2
          rcases Nat.eq_or_lt_of_le h1 with rfl | hlt
          · exact Or.inl rfl
          · refine Or.inr (List.mem_map.2 ⟨j - cap - 1, List.mem_range.2 (by omega), by omega⟩)
  · rw [hfq] at hfc
    rcases hfc with _ | ⟨hi, hrest⟩
    rename_i rest
    simp only [node_malloc, hfq]
    refine ⟨rest, ?_, ?_, ?_, ?_, ?_, ?_, fun j => ?_⟩
    · exact hrest
    · trivial
    · exact le_refl _
    · exact fun j _ => trivial
    · exact hi
    · exact hnd
    constructor
    · rintro (rfl | hj)
      · exact Or.inl (by simp)
      · exact Or.inl (by simp [hj])
    · rintro (hj | ⟨h1, h2⟩)
      · rcases List.mem_cons.1 hj with rfl | hj
        · exact Or.inl rfl
        · exact Or.inr hj
      · omega

theorem node_free_spec [Inhabited α] {t : omt_tree α} {fl : List Nat} {i : Nat}
    (hfc : FreeChain t.nodes t.free_idx fl) (hi : i < t.nodes.length) (hnotin : i ∉ fl) :
    FreeChain (node_free t i).nodes (node_free t i).free_idx (i :: fl) ∧
    (node_free t i).nodes.length = t.nodes.length ∧
    (node_free t i).root = t.root ∧
    ∀ j, j ≠ i → getNode (node_free t i).nodes j = getNode t.nodes j := by
  have hfr : ∀ j, j ≠ i → getNode (node_free t i).nodes j = getNode t.nodes j := by
    intro j hj
    exact getNode_set_ne (fun he => hj he.symm) _
  have hlen : (node_free t i).nodes.length = t.nodes.length := by
    simp [node_free, List.length_set]
  refine ⟨?_, hlen, rfl, hfr⟩
  refine FreeChain.cons (by rw [hlen]; exact hi) ?_
  have hget : getNode (node_free t i).nodes i =
      { getNode t.nodes i with left := t.free_idx } := getNode_set_self hi _
  rw [hget]
  show FreeChain (node_free t i).nodes t.free_idx fl
  refine hfc.chain_stable (by rw [hlen]) (fun j hj => hfr j (fun he => hnotin (he ▸ hj)))

/-! ## Assembly helpers -/

theorem insertList_length {l : List α} {v : α} {i : Nat} :
    (insertList l v i).length = l.length + 1 := by
  unfold insertList
  rcases Nat.le_total i l.length with h | h
  · simp [List.length_take, List.length_drop]
    omega
  · simp [List.length_take, List.length_drop]
    omega

theorem insertList_left {l1 l2 : List α} {v : α} {i : Nat} (h : i ≤ l1.length) :
    insertList (l1 ++ l2) v i = insertList l1 v i ++ l2 := by
  unfold insertList
  rw [List.take_append_of_le_length h, List.drop_append_of_le_length h]
  simp

theorem insertList_right {l1 l2 : List α} {v x : α} {i : Nat} (h : l1.length < i) :
    insertList (l1 ++ x :: l2) v i = l1 ++ x :: insertList l2 v (i - l1.length - 1) := by
  obtain ⟨k, hk⟩ : ∃ k, i - l1.length = k + 1 := ⟨i - l1.length - 1, by omega⟩
  unfold insertList
  rw [List.take_append_eq_append_take, List.drop_append_eq_append_drop]
  rw [List.take_of_length_le (by omega), List.drop_eq_nil_of_le (by omega), hk]
  rw [List.take_succ_cons, List.drop_succ_cons]
  simp

theorem nodup_length_le {il : List Nat} {n : Nat} (hnd : il.Nodup)
    (hmem : ∀ j ∈ il, j < n) : il.length ≤ n := by
  classical
  have h1 : il.toFinset ⊆ Finset.range n := fun j hj =>
    Finset.mem_range.2 (hmem j (List.mem_toFinset.1 hj))
  have h2 := Finset.card_le_card h1
  rwa [List.toFinset_card_of_nodup hnd, Finset.card_range] at h2

theorem nodup_concat3 {X Y Z : List Nat} {i : Nat}
    (hx : X.Nodup) (hy : Y.Nodup) (hz : Z.Nodup)
    (hxy : ∀ j ∈ X, j ∉ Y) (hxz : ∀ j ∈ X, j ∉ Z) (hyz : ∀ j ∈ Y, j ∉ Z)
    (hix : i ∉ X) (hiy : i ∉ Y) (hiz : i ∉ Z) :
    ((X ++ i :: Y) ++ Z).Nodup := by
  rw [List.nodup_append, List.nodup_append, List.nodup_cons]
  refine ⟨⟨hx, ⟨hiy, hy⟩, ?_⟩, hz, ?_⟩
  · intro a ha hmem
    rcases List.mem_cons.1 hmem with rfl | hmem
    · exact hix ha
    · exact hxy a ha hmem
  · intro a ha hmem
    rcases List.mem_append.1 ha with ha | ha
    · exact hxz a ha hmem
    · rcases List.mem_cons.1 ha with rfl | ha
      · exact hiz hmem
      · exact hyz a ha hmem

theorem nodup_split3 {X Y Z : List Nat} {i : Nat}
    (h : ((X ++ i :: Y) ++ Z).Nodup) :
    X.Nodup ∧ Y.Nodup ∧ Z.Nodup ∧
    (∀ j ∈ X, j ∉ Y) ∧ (∀ j ∈ X, j ∉ Z) ∧ (∀ j ∈ Y, j ∉ Z) ∧
    i ∉ X ∧ i ∉ Y ∧ i ∉ Z := by
  rw [List.nodup_append, List.nodup_append, List.nodup_cons] at h
  obtain ⟨⟨hx, ⟨hiy, hy⟩, hd1⟩, hz, hd2⟩ := h
  refine ⟨hx, hy, hz, ?_, ?_, ?_, ?_, hiy, ?_⟩
  · exact fun j hj hjy => hd1 hj (by simp [hjy])
  · exact fun j hj hjz => hd2 (by simp [hj]) hjz
  · exact fun j hj hjz => hd2 (by simp [hj]) hjz
  · exact fun hix => hd1 hix (by simp)
  · exact fun hiz => hd2 (by simp) hiz

/-- Components established by one tree mutation step: the new tree
represents some abstract tree whose flatten is the required result
sequence, the free list is intact, no slot is used twice, and the
untouched slots keep their contents. -/
def StepOK [Inhabited α] (t t2 : omt_tree α) (il fl : List Nat) (res : List α) : Prop :=
  ∃ b2 il2 fl2,
    Rep t2.nodes t2.root b2 il2 ∧
    FreeChain t2.nodes t2.free_idx fl2 ∧
    (il2 ++ fl2).Nodup ∧
    b2.flatten = res ∧
    t.nodes.length ≤ t2.nodes.length ∧
    (∀ j, (j ∈ il2 ∨ j ∈ fl2) ↔
      (j ∈ il ∨ j ∈ fl ∨ (t.nodes.length ≤ j ∧ j < t2.nodes.length))) ∧
    (∀ j, j ∉ il → j ∉ fl → j < t.nodes.length → getNode t2.nodes j = getNode t.nodes j)

theorem rebalance_spec [Inhabited α] {t : omt_tree α} {b : bt α} {il fl : List Nat}
    (hrep : Rep t.nodes t.root b il) (hfc : FreeChain t.nodes t.free_idx fl)
    (hnd : (il ++ fl).Nodup) :
    ∃ b2, Rep (rebalance t).nodes (rebalance t).root b2 il ∧
      FreeChain (rebalance t).nodes (rebalance t).free_idx fl ∧
      b2.flatten = b.flatten ∧
      (rebalance t).nodes.length = t.nodes.length ∧
      (∀ j, j ∉ il → getNode (rebalance t).nodes j = getNode t.nodes j) := by
  have hnd_il : il.Nodup := ((List.sublist_append_left il fl).nodup hnd)
  have hnd_fl : fl.Nodup := ((List.sublist_append_right il fl).nodup hnd)
  have hmem := hrep.mem_lt
  have hsz : b.size ≤ t.nodes.length := by
    rw [hrep.size_eq]
    exact nodup_length_le hnd_il hmem
  have hidxs : subtreeIdxs t.nodes t.nodes.length t.root = il :=
    subtreeIdxs_eq hrep t.nodes.length hsz
  obtain ⟨b2, hrep2, hlen2, hfr2, hfl2⟩ :=
    rebuild_spec il.length il t.nodes (le_refl _) hnd_il hmem
  refine ⟨b2, ?_, ?_, ?_, ?_, ?_⟩
  · show Rep (rebuild_from_idxs t.nodes _ _).1 (rebuild_from_idxs t.nodes _ _).2 b2 il
    rw [hidxs]
    exact hrep2
  · show FreeChain (rebuild_from_idxs t.nodes _ _).1 t.free_idx fl
    rw [hidxs]
    refine hfc.chain_stable (le_of_eq hlen2.symm) (fun j hj => hfr2 j (fun hjil => ?_))
    rw [List.nodup_append] at hnd
    exact hnd.2.2 hjil hj
  · rw [hfl2, hrep.flatten_vals]
  · show (rebuild_from_idxs t.nodes _ _).1.length = t.nodes.length
    rw [hidxs]
    exact hlen2
  · intro j hj
    show getNode (rebuild_from_idxs t.nodes _ _).1 j = getNode t.nodes j
    rw [hidxs]
    exact hfr2 j hj

theorem StepOK.rebalance_if [Inhabited α] {t t2 : omt_tree α} {il fl : List Nat}
    {res : List α} (h : StepOK t t2 il fl res) (c : Bool) :
    StepOK t (if c then rebalance t2 else t2) il fl res := by
  cases c
  · simpa using h
  · simp only [if_pos]
    obtain ⟨b2, il2, fl2, hrep, hfc, hnd, hfl, hlen, hacc, hfr⟩ := h
    obtain ⟨b3, hrep3, hfc3, hfl3, hlen3, hfr3⟩ := rebalance_spec hrep hfc hnd
    refine ⟨b3, il2, fl2, hrep3, hfc3, hnd, by rw [hfl3, hfl], by omega, ?_, ?_⟩
    · intro j
      rw [hacc j, hlen3]
    · intro j h1 h2 h3
      have hnotil2 : j ∉ il2 := by
        intro hj
        rcases (hacc j).1 (Or.inl hj) with h | h | h
        · exact h1 h
        · exact h2 h
        · omega
      rw [hfr3 j hnotil2]
      exact hfr j h1 h2 h3

theorem Rep.singleton [Inhabited α] {ns : List (omt_node α)} {i : Nat} {v : α}
    (hi : i < ns.length) (hget : getNode ns i = ⟨1, none, none, v⟩) :
    Rep ns (some i) (bt.node bt.leaf v bt.leaf) [i] := by
  have h : Rep ns (some i) (bt.node bt.leaf (getNode ns i).value bt.leaf) ([] ++ i :: []) :=
    Rep.node hi (by rw [hget]; rfl) (by rw [hget]; exact Rep.leaf)
    (by rw [hget]; exact Rep.leaf)
  rw [hget] at h
  simpa using h

theorem assemble_left [Inhabited α] {t t1 : omt_tree α} {r b2 : bt α}
    {ill ilr il2 fl fl2 : List Nat} {i : Nat} {w2 : Nat} {v2 : α} {rp : Option Nat}
    (hi : i < t.nodes.length)
    (hr : Rep t.nodes rp r ilr)
    (hnd : ((ill ++ i :: ilr) ++ fl).Nodup)
    (hrep2 : Rep t1.nodes t1.root b2 il2)
    (hfc2 : FreeChain t1.nodes t1.free_idx fl2)
    (hnd2 : (il2 ++ fl2).Nodup)
    (hle2 : t.nodes.length ≤ t1.nodes.length)
    (hacc2 : ∀ j, (j ∈ il2 ∨ j ∈ fl2) ↔
      (j ∈ ill ∨ j ∈ fl ∨ (t.nodes.length ≤ j ∧ j < t1.nodes.length)))
    (hfr2 : ∀ j, j ∉ ill → j ∉ fl → j < t.nodes.length →
      getNode t1.nodes j = getNode t.nodes j)
    (hw2 : w2 = b2.size + r.size + 1) :
    Rep (assembleNode t1 i ⟨w2, t1.root, rp, v2⟩).nodes
      (assembleNode t1 i ⟨w2, t1.root, rp, v2⟩).root
      (bt.node b2 v2 r) (il2 ++ i :: ilr) ∧
    FreeChain (assembleNode t1 i ⟨w2, t1.root, rp, v2⟩).nodes
      (assembleNode t1 i ⟨w2, t1.root, rp, v2⟩).free_idx fl2 ∧
    ((il2 ++ i :: ilr) ++ fl2).Nodup ∧
    t.nodes.length ≤ (assembleNode t1 i ⟨w2, t1.root, rp, v2⟩).nodes.length ∧
    (∀ j, (j ∈ il2 ++ i :: ilr ∨ j ∈ fl2) ↔
      (j ∈ ill ++ i :: ilr ∨ j ∈ fl ∨ (t.nodes.length ≤ j ∧
        j < (assembleNode t1 i ⟨w2, t1.root, rp, v2⟩).nodes.length))) ∧
    (∀ j, j ∉ ill ++ i :: ilr → j ∉ fl → j < t.nodes.length →
      getNode (assembleNode t1 i ⟨w2, t1.root, rp, v2⟩).nodes j =
        getNode t.nodes j) := by
  obtain ⟨hnd_ill, hnd_ilr, hnd_fl, hd_li_lr, hd_li_fl, hd_lr_fl, hi_ill, hi_ilr, hi_fl⟩ :=
    nodup_split3 hnd
  have hi_il2 : i ∉ il2 := by
    intro hmem
    rcases (hacc2 i).1 (Or.inl hmem) with h | h | h
    · exact hi_ill h
    · exact hi_fl h
    · omega
  have hi_fl2 : i ∉ fl2 := by
    intro hmem
    rcases (hacc2 i).1 (Or.inr hmem) with h | h | h
    · exact hi_ill h
    · exact hi_fl h
    · omega
  set nd : omt_node α := ⟨w2, t1.root, rp, v2⟩ with hnd_def
  set t2 := assembleNode t1 i nd with ht2
  have hlen_t2 : t2.nodes.length = t1.nodes.length := by
    simp [ht2, assembleNode, List.length_set]
  have hget_i : getNode t2.nodes i = nd :=
    getNode_set_self (by omega) nd
  have hfr_t2 : ∀ j, j ≠ i → getNode t2.nodes j = getNode t1.nodes j :=
    fun j hj => getNode_set_ne (fun he => hj he.symm) nd
  have hrepL : Rep t2.nodes t1.root b2 il2 := by
    refine hrep2.stable (by omega) (fun j hj => hfr_t2 j (fun he => hi_il2 (he ▸ hj)))
  have hilr_mem := hr.mem_lt
  have hrepR : Rep t2.nodes rp r ilr := by
    refine hr.stable (by omega) (fun j hj => ?_)
    have h1 : j ≠ i := fun he => hi_ilr (he ▸ hj)
    have h2 : j ∉ ill := fun hmem => hd_li_lr j hmem hj
    have h3 : j ∉ fl := hd_lr_fl j hj
    rw [hfr_t2 j h1, hfr2 j h2 h3 (hilr_mem j hj)]
  have hrep_out : Rep t2.nodes (some i) (bt.node b2 v2 r) (il2 ++ i :: ilr) := by
    have h : Rep t2.nodes (some i)
        (bt.node b2 (getNode t2.nodes i).value r) (il2 ++ i :: ilr) :=
      Rep.node (by omega) (by rw [hget_i]; exact hw2) (by rw [hget_i]; exact hrepL)
        (by rw [hget_i]; exact hrepR)
    rw [hget_i] at h
    exact h
  refine ⟨?_, ?_, ?_, by omega, ?_, ?_⟩
  · show Rep t2.nodes t2.root (bt.node b2 v2 r) (il2 ++ i :: ilr)
    have : t2.root = some i := rfl
    rw [this]
    exact hrep_out
  · show FreeChain t2.nodes t1.free_idx fl2
    refine hfc2.chain_stable (by omega) (fun j hj => hfr_t2 j (fun he => hi_fl2 (he ▸ hj)))
  · obtain ⟨hnd_il2, hnd_fl2, hd22⟩ := List.nodup_append.1 hnd2
    refine nodup_concat3 hnd_il2 hnd_ilr hnd_fl2 ?_ ?_ ?_ hi_il2 hi_ilr hi_fl2
    · intro j hj hjr
      rcases (hacc2 j).1 (Or.inl hj) with h | h | h
      · exact hd_li_lr j h hjr
      · exact hd_lr_fl j hjr h
      · exact absurd (hilr_mem j hjr) (by omega)
    · exact fun j hj => hd22 hj
    · intro j hj hjf
      rcases (hacc2 j).1 (Or.inr hjf) with h | h | h
      · exact hd_li_lr j h hj
      · exact hd_lr_fl j hj h
      · exact absurd (hilr_mem j hj) (by omega)
  · intro j
    have hj := hacc2 j
    simp only [List.mem_append, List.mem_cons] at hj ⊢
    constructor
    · rintro ((h | h | h) | h)
      · rcases hj.1 (Or.inl h) with h2 | h2 | h2
        · exact Or.inl (Or.inl h2)
        · exact Or.inr (Or.inl h2)
        · exact Or.inr (Or.inr (by omega))
      · exact Or.inl (Or.inr (Or.inl h))
      · exact Or.inl (Or.inr (Or.inr h))
      · rcases hj.1 (Or.inr h) with h2 | h2 | h2
        · exact Or.inl (Or.inl h2)
        · exact Or.inr (Or.inl h2)
        · exact Or.inr (Or.inr (by omega))
    · rintro ((h | h | h) | h | h)
      · rcases hj.2 (Or.inl h) with h2 | h2
        · exact Or.inl (Or.inl h2)
        · exact Or.inr h2
      · exact Or.inl (Or.inr (Or.inl h))
      · exact Or.inl (Or.inr (Or.inr h))
      · rcases hj.2 (Or.inr (Or.inl h)) with h2 | h2
        · exact Or.inl (Or.inl h2)
        · exact Or.inr h2
      · rcases hj.2 (Or.inr (Or.inr (by omega))) with h2 | h2
        · exact Or.inl (Or.inl h2)
        · exact Or.inr h2
  · intro j hjbig hjfl hjlt
    simp only [List.mem_append, List.mem_cons] at hjbig
    push_neg at hjbig
    obtain ⟨hj_ill, hj_i, hj_ilr⟩ := hjbig
    rw [hfr_t2 j hj_i, hfr2 j hj_ill hjfl hjlt]

theorem assemble_right [Inhabited α] {t t1 : omt_tree α} {l b2 : bt α}
    {ill ilr il2 fl fl2 : List Nat} {i : Nat} {w2 : Nat} {v2 : α} {lp : Option Nat}
    (hi : i < t.nodes.length)
    (hl : Rep t.nodes lp l ill)
    (hnd : ((ill ++ i :: ilr) ++ fl).Nodup)
    (hrep2 : Rep t1.nodes t1.root b2 il2)
    (hfc2 : FreeChain t1.nodes t1.free_idx fl2)
    (hnd2 : (il2 ++ fl2).Nodup)
    (hle2 : t.nodes.length ≤ t1.nodes.length)
    (hacc2 : ∀ j, (j ∈ il2 ∨ j ∈ fl2) ↔
      (j ∈ ilr ∨ j ∈ fl ∨ (t.nodes.length ≤ j ∧ j < t1.nodes.length)))
    (hfr2 : ∀ j, j ∉ ilr → j ∉ fl → j < t.nodes.length →
      getNode t1.nodes j = getNode t.nodes j)
    (hw2 : w2 = l.size + b2.size + 1) :
    Rep (assembleNode t1 i ⟨w2, lp, t1.root, v2⟩).nodes
      (assembleNode t1 i ⟨w2, lp, t1.root, v2⟩).root
      (bt.node l v2 b2) (ill ++ i :: il2) ∧
    FreeChain (assembleNode t1 i ⟨w2, lp, t1.root, v2⟩).nodes
      (assembleNode t1 i ⟨w2, lp, t1.root, v2⟩).free_idx fl2 ∧
    ((ill ++ i :: il2) ++ fl2).Nodup ∧
    t.nodes.length ≤ (assembleNode t1 i ⟨w2, lp, t1.root, v2⟩).nodes.length ∧
    (∀ j, (j ∈ ill ++ i :: il2 ∨ j ∈ fl2) ↔
      (j ∈ ill ++ i :: ilr ∨ j ∈ fl ∨ (t.nodes.length ≤ j ∧
        j < (assembleNode t1 i ⟨w2, lp, t1.root, v2⟩).nodes.length))) ∧
    (∀ j, j ∉ ill ++ i :: ilr → j ∉ fl → j < t.nodes.length →
      getNode (assembleNode t1 i ⟨w2, lp, t1.root, v2⟩).nodes j =
        getNode t.nodes j) := by
  obtain ⟨hnd_ill, hnd_ilr, hnd_fl, hd_li_lr, hd_li_fl, hd_lr_fl, hi_ill, hi_ilr, hi_fl⟩ :=
    nodup_split3 hnd
  have hi_il2 : i ∉ il2 := by
    intro hmem
    rcases (hacc2 i).1 (Or.inl hmem) with h | h | h
    · exact hi_ilr h
    · exact hi_fl h
    · omega
  have hi_fl2 : i ∉ fl2 := by
    intro hmem
    rcases (hacc2 i).1 (Or.inr hmem) with h | h | h
    · exact hi_ilr h
    · exact hi_fl h
    · omega
  set nd : omt_node α := ⟨w2, lp, t1.root, v2⟩ with hnd_def
  set t2 := assembleNode t1 i nd with ht2
  have hlen_t2 : t2.nodes.length = t1.nodes.length := by
    simp [ht2, assembleNode, List.length_set]
  have hget_i : getNode t2.nodes i = nd :=
    getNode_set_self (by omega) nd
  have hfr_t2 : ∀ j, j ≠ i → getNode t2.nodes j = getNode t1.nodes j :=
    fun j hj => getNode_set_ne (fun he => hj he.symm) nd
  have hrepR : Rep t2.nodes t1.root b2 il2 := by
    refine hrep2.stable (by omega) (fun j hj => hfr_t2 j (fun he => hi_il2 (he ▸ hj)))
  have hill_mem := hl.mem_lt
  have hrepL : Rep t2.nodes lp l ill := by
    refine hl.stable (by omega) (fun j hj => ?_)
    have h1 : j ≠ i := fun he => hi_ill (he ▸ hj)
    have h2 : j ∉ ilr := fun hmem => hd_li_lr j hj hmem
    have h3 : j ∉ fl := hd_li_fl j hj
    rw [hfr_t2 j h1, hfr2 j h2 h3 (hill_mem j hj)]
  have hrep_out : Rep t2.nodes (some i) (bt.node l v2 b2) (ill ++ i :: il2) := by
    have h : Rep t2.nodes (some i)
        (bt.node l (getNode t2.nodes i).value b2) (ill ++ i :: il2) :=
      Rep.node (by omega) (by rw [hget_i]; exact hw2) (by rw [hget_i]; exact hrepL)
        (by rw [hget_i]; exact hrepR)
    rw [hget_i] at h
    exact h
  refine ⟨?_, ?_, ?_, by omega, ?_, ?_⟩
  · show Rep t2.nodes t2.root (bt.node l v2 b2) (ill ++ i :: il2)
    have : t2.root = some i := rfl
    rw [this]
    exact hrep_out
  · show FreeChain t2.nodes t1.free_idx fl2
    refine hfc2.chain_stable (by omega) (fun j hj => hfr_t2 j (fun he => hi_fl2 (he ▸ hj)))
  · obtain ⟨hnd_il2, hnd_fl2, hd22⟩ := List.nodup_append.1 hnd2
    refine nodup_concat3 hnd_ill hnd_il2 hnd_fl2 ?_ ?_ ?_ hi_ill hi_il2 hi_fl2
    · intro j hj hjr
      rcases (hacc2 j).1 (Or.inl hjr) with h | h | h
      · exact hd_li_lr j hj h
      · exact hd_li_fl j hj h
      · exact absurd (hill_mem j hj) (by omega)
    · intro j hj hjf
      rcases (hacc2 j).1 (Or.inr hjf) with h | h | h
      · exact hd_li_lr j hj h
      · exact hd_li_fl j hj h
      · exact absurd (hill_mem j hj) (by omega)
    · exact fun j hj => hd22 hj
  · intro j
    have hj := hacc2 j
    simp only [List.mem_append, List.mem_cons] at hj ⊢
    constructor
    · rintro ((h | h | h) | h)
      · exact Or.inl (Or.inl h)
      · exact Or.inl (Or.inr (Or.inl h))
      · rcases hj.1 (Or.inl h) with h2 | h2 | h2
        · exact Or.inl (Or.inr (Or.inr h2))
        · exact Or.inr (Or.inl h2)
        · exact Or.inr (Or.inr (by omega))
      · rcases hj.1 (Or.inr h) with h2 | h2 | h2
        · exact Or.inl (Or.inr (Or.inr h2))
        · exact Or.inr (Or.inl h2)
        · exact Or.inr (Or.inr (by omega))
    · rintro ((h | h | h) | h | h)
      · exact Or.inl (Or.inl h)
      · exact Or.inl (Or.inr (Or.inl h))
      · rcases hj.2 (Or.inl h) with h2 | h2
        · exact Or.inl (Or.inr (Or.inr h2))
        · exact Or.inr h2
      · rcases hj.2 (Or.inr (Or.inl h)) with h2 | h2
        · exact Or.inl (Or.inr (Or.inr h2))
        · exact Or.inr h2
      · rcases hj.2 (Or.inr (Or.inr (by omega))) with h2 | h2
        · exact Or.inl (Or.inr (Or.inr h2))
        · exact Or.inr h2
  · intro j hjbig hjfl hjlt
    simp only [List.mem_append, List.mem_cons] at hjbig
    push_neg at hjbig
    obtain ⟨hj_ill, hj_i, hj_ilr⟩ := hjbig
    rw [hfr_t2 j hj_i, hfr2 j hj_ilr hjfl hjlt]

theorem insert_help_go [Inhabited α] (value : α) :
    ∀ (fuel : Nat) (b : bt α) (t : omt_tree α) (il fl : List Nat) (idx : Nat) (mayReb : Bool),
      Rep t.nodes t.root b il →
      FreeChain t.nodes t.free_idx fl →
      (il ++ fl).Nodup →
      idx ≤ b.size →
      b.size < fuel →
      StepOK t (insert_help value fuel t idx mayReb) il fl
        (insertList b.flatten value idx) := by
  intro fuel
  induction fuel with
  | zero =>
      intro b t il fl idx mayReb _ _ _ _ h
      exact absurd h (by omega)
  | succ fuel ih =>
      intro b t il fl idx mayReb hrep hfc hnd hidx hsz
      rcases hR : t.root with _ | i
      · rw [hR] at hrep
        cases hrep
        obtain rfl : idx = 0 := Nat.le_zero.1 hidx
        simp only [List.nil_append] at hnd
        simp only [insert_help, hR]
        obtain ⟨fl2, hfc2, hroot2, hle2, hfr2, hilt2, hnd2, hacc2⟩ := node_malloc_spec hfc hnd
        set p := node_malloc t with hp
        have hp2fl2 : p.2 ∉ fl2 := (List.nodup_cons.1 hnd2).1
        have hset_len : (p.1.nodes.set p.2 (⟨1, none, none, value⟩ : omt_node α)).length =
            p.1.nodes.length := List.length_set _ _ _
        refine ⟨bt.node bt.leaf value bt.leaf, [p.2], fl2, ?_, ?_, ?_, rfl, ?_, ?_, ?_⟩
        · simp only [assembleNode_nodes, assembleNode_root]
          exact Rep.singleton (by rw [hset_len]; exact hilt2) (getNode_set_self hilt2 _)
        · simp only [assembleNode_nodes, assembleNode_free]
          refine hfc2.chain_stable (le_of_eq hset_len.symm) (fun j hj => ?_)
          exact getNode_set_ne (fun he => hp2fl2 (by rw [he]; exact hj)) _
        · simpa using hnd2
        · simp only [assembleNode_nodes]
          rw [hset_len]
          exact hle2
        · intro j
          have hj := hacc2 j
          simp only [List.mem_singleton, List.not_mem_nil, false_or,
            assembleNode_nodes] at hj ⊢
          rw [hset_len]
          constructor
          · rintro (h | h)
            · exact (hj.1 (Or.inl h.symm)).imp id id
            · exact (hj.1 (Or.inr h)).imp id id
          · rintro (h | h)
            · rcases hj.2 (Or.inl h) with h2 | h2
              · exact Or.inl h2.symm
              · exact Or.inr h2
            · rcases hj.2 (Or.inr h) with h2 | h2
              · exact Or.inl h2.symm
              · exact Or.inr h2
        · intro j _ hjfl hjlt
          have hne : j ≠ p.2 := by
            intro he
            rcases (hacc2 j).1 (Or.inl he.symm) with h | h
            · exact hjfl h
            · omega
          simp only [assembleNode_nodes]
          rw [getNode_set_ne (fun he => hne he.symm) _, hfr2 j hjlt]
      · rw [hR] at hrep
        cases hrep with
        | node hi hw hl hr =>
        rename_i l r ill ilr
        have hlw : nweight t.nodes (getNode t.nodes i).left = l.size := hl.nweight_eq
        have hszn : l.size + r.size + 1 < fuel + 1 := by
          simpa [bt.size] using hsz
        have hflat : (bt.node l (getNode t.nodes i).value r).flatten =
            l.flatten ++ (getNode t.nodes i).value :: r.flatten := rfl
        simp only [insert_help, hR]
        by_cases hbr : idx ≤ nweight t.nodes (getNode t.nodes i).left
        · rw [if_pos hbr]
          have hidxl : idx ≤ l.size := by omega
          have hndL : (ill ++ fl).Nodup := by
            refine List.Sublist.nodup ?_ hnd
            rw [List.append_assoc]
            exact (List.sublist_append_right (i :: ilr) fl).append_left ill
          have hstep := ih l { t with root := (getNode t.nodes i).left } ill fl idx
            (mayReb && !(mayReb && will_need_rebalance t.nodes (some i) 1 0))
            hl hfc hndL hidxl (by omega)
          obtain ⟨b2, il2, fl2, hrep2, hfc2, hnd2, hfl2, hle2, hacc2, hfr2⟩ := hstep
          have hb2sz : b2.size = l.size + 1 := by
            rw [← bt.flatten_length, hfl2, insertList_length, bt.flatten_length]
          refine StepOK.rebalance_if ?_ _
          obtain ⟨hA, hB, hC, hD, hE, hF⟩ :=
            assemble_left hi hr hnd hrep2 hfc2 hnd2 hle2 hacc2 hfr2
              (show (getNode t.nodes i).weight + 1 = b2.size + r.size + 1 by omega)
          refine ⟨bt.node b2 (getNode t.nodes i).value r, il2 ++ i :: ilr, fl2,
            hA, hB, hC, ?_, hD, hE, hF⟩
          show b2.flatten ++ (getNode t.nodes i).value :: r.flatten = _
          rw [hfl2, hflat, insertList_left (by rw [bt.flatten_length]; exact hidxl)]
        · rw [if_neg hbr]
          have hszb : idx ≤ l.size + r.size + 1 := by
            simpa [bt.size] using hidx
          have hidxr : idx - nweight t.nodes (getNode t.nodes i).left - 1 ≤ r.size := by
            omega
          have hndR : (ilr ++ fl).Nodup := by
            refine List.Sublist.nodup ?_ hnd
            rw [List.append_assoc]
            exact (List.sublist_cons_self i (ilr ++ fl)).trans
              (List.sublist_append_right ill (i :: (ilr ++ fl)))
          have hstep := ih r { t with root := (getNode t.nodes i).right } ilr fl
            (idx - nweight t.nodes (getNode t.nodes i).left - 1)
            (mayReb && !(mayReb && will_need_rebalance t.nodes (some i) 0 1))
            hr hfc hndR hidxr (by omega)
          obtain ⟨b2, il2, fl2, hrep2, hfc2, hnd2, hfl2, hle2, hacc2, hfr2⟩ := hstep
          have hb2sz : b2.size = r.size + 1 := by
            rw [← bt.flatten_length, hfl2, insertList_length, bt.flatten_length]
          refine StepOK.rebalance_if ?_ _
          obtain ⟨hA, hB, hC, hD, hE, hF⟩ :=
            assemble_right hi hl hnd hrep2 hfc2 hnd2 hle2 hacc2 hfr2
              (show (getNode t.nodes i).weight + 1 = l.size + b2.size + 1 by omega)
          refine ⟨bt.node l (getNode t.nodes i).value b2, ill ++ i :: il2, fl2,
            hA, hB, hC, ?_, hD, hE, hF⟩
          show l.flatten ++ (getNode t.nodes i).value :: b2.flatten = _
          rw [hfl2, hflat, insertList_right (by rw [bt.flatten_length]; omega),
            bt.flatten_length, hlw]

theorem deleteList_length {l : List α} {i : Nat} (h : i < l.length) :
    (deleteList l i).length = l.length - 1 := by
  unfold deleteList
  simp [List.length_take, List.length_drop]
  omega

theorem deleteList_left {l1 l2 : List α} {i : Nat} (h : i < l1.length) :
    deleteList (l1 ++ l2) i = deleteList l1 i ++ l2 := by
  unfold deleteList
  rw [List.take_append_of_le_length (by omega), List.drop_append_of_le_length (by omega)]
  simp

theorem deleteList_right {l1 l2 : List α} {x : α} {i : Nat} (h : l1.length < i) :
    deleteList (l1 ++ x :: l2) i = l1 ++ x :: deleteList l2 (i - l1.length - 1) := by
  obtain ⟨k, hk⟩ : ∃ k, i - l1.length = k + 1 := ⟨i - l1.length - 1, by omega⟩
  unfold deleteList
  rw [List.take_append_eq_append_take, List.drop_append_eq_append_drop]
  rw [List.take_of_length_le (by omega), List.drop_eq_nil_of_le (by omega), hk]
  have hk2 : i + 1 - l1.length = k + 1 + 1 := by omega
  rw [hk2, List.take_succ_cons, List.drop_succ_cons]
  simp

theorem deleteList_at {l1 l2 : List α} {x : α} :
    deleteList (l1 ++ x :: l2) l1.length = l1 ++ l2 := by
  unfold deleteList
  rw [List.take_append_of_le_length (le_refl _), List.take_of_length_le (le_refl _)]
  rw [List.drop_append_eq_append_drop, List.drop_eq_nil_of_le (by omega)]
  have : l1.length + 1 - l1.length = 1 := by omega
  rw [this]
  simp

theorem getD_mid {l1 l2 : List α} {x d : α} :
    (l1 ++ x :: l2).getD l1.length d = x := by
  rw [List.getD_append_right _ _ _ _ (le_refl _)]
  simp

theorem getD_right {l1 l2 : List α} {x d : α} {i : Nat} (h : l1.length < i) :
    (l1 ++ x :: l2).getD i d = l2.getD (i - l1.length - 1) d := by
  obtain ⟨k, hk⟩ : ∃ k, i - l1.length = k + 1 := ⟨i - l1.length - 1, by omega⟩
  rw [List.getD_append_right _ _ _ _ (by omega), hk]
  simp

theorem head_cons_deleteList {l : List α} {d : α} (h : l ≠ []) :
    l.getD 0 d :: deleteList l 0 = l := by
  cases l with
  | nil => exact absurd rfl h
  | cons x xs => rfl

theorem Rep_some_size_pos [Inhabited α] {ns : List (omt_node α)} {j : Nat}
    {b : bt α} {il : List Nat} (h : Rep ns (some j) b il) : 0 < b.size := by
  cases h with
  | node hi hw hl hr => simp [bt.size]

theorem delete_help_go [Inhabited α] :
    ∀ (fuel : Nat) (b : bt α) (t : omt_tree α) (il fl : List Nat) (idx : Nat) (mayReb : Bool),
      Rep t.nodes t.root b il →
      FreeChain t.nodes t.free_idx fl →
      (il ++ fl).Nodup →
      idx < b.size →
      b.size < fuel →
      StepOK t (delete_help fuel t idx mayReb).1 il fl (deleteList b.flatten idx) ∧
      (delete_help fuel t idx mayReb).2 = b.flatten.getD idx default := by
  intro fuel
  induction fuel with
  | zero =>
      intro b t il fl idx mayReb _ _ _ _ h
      exact absurd h (by omega)
  | succ fuel ih =>
      intro b t il fl idx mayReb hrep hfc hnd hidx hsz
      rcases hR : t.root with _ | i
      · rw [hR] at hrep
        cases hrep
        exact absurd hidx (by simp [bt.size])
      · rw [hR] at hrep
        cases hrep with
        | node hi hw hl hr =>
        rename_i l r ill ilr
        have hlw : nweight t.nodes (getNode t.nodes i).left = l.size := hl.nweight_eq
        have hszn : l.size + r.size + 1 < fuel + 1 := by
          simpa [bt.size] using hsz
        have hidxn : idx < l.size + r.size + 1 := by
          simpa [bt.size] using hidx
        have hflat : (bt.node l (getNode t.nodes i).value r).flatten =
            l.flatten ++ (getNode t.nodes i).value :: r.flatten := rfl
        have hlfl : l.flatten.length = l.size := bt.flatten_length l
        have hrfl : r.flatten.length = r.size := bt.flatten_length r
        obtain ⟨hnd_ill, hnd_ilr, hnd_fl, hd_li_lr, hd_li_fl, hd_lr_fl, hi_ill, hi_ilr, hi_fl⟩ :=
          nodup_split3 hnd
        simp only [delete_help, hR]
        by_cases hbr1 : idx < nweight t.nodes (getNode t.nodes i).left
        · rw [if_pos hbr1]
          have hidxl : idx < l.size := by omega
          have hndL : (ill ++ fl).Nodup := by
            refine List.Sublist.nodup ?_ hnd
            rw [List.append_assoc]
            exact (List.sublist_append_right (i :: ilr) fl).append_left ill
          obtain ⟨hstep, hrem⟩ := ih l { t with root := (getNode t.nodes i).left } ill fl idx
            (mayReb && !(mayReb && will_need_rebalance t.nodes (some i) (-1) 0))
            hl hfc hndL hidxl (by omega)
          obtain ⟨b2, il2, fl2, hrep2, hfc2, hnd2, hfl2, hle2, hacc2, hfr2⟩ := hstep
          have hb2sz : b2.size = l.size - 1 := by
            rw [← bt.flatten_length, hfl2, deleteList_length (by omega), bt.flatten_length]
          constructor
          · refine StepOK.rebalance_if ?_ _
            obtain ⟨hA, hB, hC, hD, hE, hF⟩ :=
              assemble_left hi hr hnd hrep2 hfc2 hnd2 hle2 hacc2 hfr2
                (show (getNode t.nodes i).weight - 1 = b2.size + r.size + 1 by omega)
            refine ⟨bt.node b2 (getNode t.nodes i).value r, il2 ++ i :: ilr, fl2,
              hA, hB, hC, ?_, hD, hE, hF⟩
            show b2.flatten ++ (getNode t.nodes i).value :: r.flatten = _
            rw [hfl2, hflat, deleteList_left (by omega)]
          · rw [hrem, hflat, List.getD_append _ _ _ _ (by omega)]
        · rw [if_neg hbr1]
          by_cases hbr2 : nweight t.nodes (getNode t.nodes i).left < idx
          · rw [if_pos hbr2]
            have hidxr : idx - nweight t.nodes (getNode t.nodes i).left - 1 < r.size := by
              omega
            have hndR : (ilr ++ fl).Nodup := by
              refine List.Sublist.nodup ?_ hnd
              rw [List.append_assoc]
              exact (List.sublist_cons_self i (ilr ++ fl)).trans
                (List.sublist_append_right ill (i :: (ilr ++ fl)))
            obtain ⟨hstep, hrem⟩ := ih r { t with root := (getNode t.nodes i).right } ilr fl
              (idx - nweight t.nodes (getNode t.nodes i).left - 1)
              (mayReb && !(mayReb && will_need_rebalance t.nodes (some i) 0 (-1)))
              hr hfc hndR hidxr (by omega)
            obtain ⟨b2, il2, fl2, hrep2, hfc2, hnd2, hfl2, hle2, hacc2, hfr2⟩ := hstep
            have hb2sz : b2.size = r.size - 1 := by
              rw [← bt.flatten_length, hfl2, deleteList_length (by omega), bt.flatten_length]
            constructor
            · refine StepOK.rebalance_if ?_ _
              obtain ⟨hA, hB, hC, hD, hE, hF⟩ :=
                assemble_right hi hl hnd hrep2 hfc2 hnd2 hle2 hacc2 hfr2
                  (show (getNode t.nodes i).weight - 1 = l.size + b2.size + 1 by omega)
              refine ⟨bt.node l (getNode t.nodes i).value b2, ill ++ i :: il2, fl2,
                hA, hB, hC, ?_, hD, hE, hF⟩
              show l.flatten ++ (getNode t.nodes i).value :: b2.flatten = _
              rw [hfl2, hflat, deleteList_right (by omega), hlfl, hlw]
            · rw [hrem, hflat, getD_right (by omega), hlfl, hlw]
          · rw [if_neg hbr2]
            have hidxe : idx = l.size := by omega
            rcases hL : (getNode t.nodes i).left with _ | li
            · -- no left child: promote the right child and free slot i
              rw [hL] at hl
              cases hl
              obtain rfl : idx = 0 := by
                rw [hidxe]; rfl
              simp only [hL]
              obtain ⟨hfc3, hlen3, hroot3, hfr3⟩ := node_free_spec hfc hi hi_fl
              constructor
              · refine ⟨r, ilr, i :: fl, ?_, ?_, ?_, ?_, ?_, ?_, ?_⟩
                · simp only [promote_nodes, promote_root]
                  refine hr.stable (le_of_eq hlen3.symm) (fun j hj => ?_)
                  exact hfr3 j (fun he => hi_ilr (he ▸ hj))
                · simp only [promote_nodes, promote_free]
                  exact hfc3
                · rw [List.nodup_append]
                  refine ⟨hnd_ilr, List.nodup_cons.2 ⟨hi_fl, hnd_fl⟩, ?_⟩
                  intro a ha hmem
                  rcases List.mem_cons.1 hmem with rfl | hmem
                  · exact hi_ilr ha
                  · exact hd_lr_fl a ha hmem
                · show r.flatten = deleteList (bt.node bt.leaf (getNode t.nodes i).value r).flatten 0
                  rfl
                · simp only [promote_nodes]
                  exact le_of_eq hlen3.symm
                · intro j
                  simp only [promote_nodes, List.nil_append, List.mem_append, List.mem_cons]
                  rw [hlen3]
                  constructor
                  · rintro (h | h | h)
                    · exact Or.inl (Or.inr h)
                    · exact Or.inl (Or.inl h)
                    · exact Or.inr (Or.inl h)
                  · rintro ((h | h) | h | h)
                    · exact Or.inr (Or.inl h)
                    · exact Or.inl h
                    · exact Or.inr (Or.inr h)
                    · omega
                · intro j hjbig hjfl hjlt
                  simp only [List.nil_append, List.mem_cons] at hjbig
                  push_neg at hjbig
                  simp only [promote_nodes]
                  exact hfr3 j hjbig.1
              · show (getNode t.nodes i).value = _
                rfl
            · rcases hRt : (getNode t.nodes i).right with _ | ri
              · -- no right child: promote the left child and free slot i
                rw [hRt] at hr
                cases hr
                simp only [hL, hRt]
                obtain ⟨hfc3, hlen3, hroot3, hfr3⟩ := node_free_spec hfc hi hi_fl
                constructor
                · refine ⟨l, ill, i :: fl, ?_, ?_, ?_, ?_, ?_, ?_, ?_⟩
                  · simp only [promote_nodes, promote_root]
                    rw [← hL]
                    refine hl.stable (le_of_eq hlen3.symm) (fun j hj => ?_)
                    exact hfr3 j (fun he => hi_ill (he ▸ hj))
                  · simp only [promote_nodes, promote_free]
                    exact hfc3
                  · rw [List.nodup_append]
                    refine ⟨hnd_ill, List.nodup_cons.2 ⟨hi_fl, hnd_fl⟩, ?_⟩
                    intro a ha hmem
                    rcases List.mem_cons.1 hmem with rfl | hmem
                    · exact hi_ill ha
                    · exact hd_li_fl a ha hmem
                  · show l.flatten = deleteList
                      (bt.node l (getNode t.nodes i).value bt.leaf).flatten idx
                    rw [hflat, hidxe, ← hlfl, deleteList_at]
                    simp [bt.flatten]
                  · simp only [promote_nodes]
                    exact le_of_eq hlen3.symm
                  · intro j
                    simp only [promote_nodes, List.mem_append, List.mem_cons,
                      List.not_mem_nil, or_false]
                    rw [hlen3]
                    constructor
                    · rintro (h | h | h)
                      · exact Or.inl (Or.inl h)
                      · exact Or.inl (Or.inr h)
                      · exact Or.inr (Or.inl h)
                    · rintro ((h | h) | h | h)
                      · exact Or.inl h
                      · exact Or.inr (Or.inl h)
                      · exact Or.inr (Or.inr h)
                      · omega
                  · intro j hjbig hjfl hjlt
                    simp only [List.mem_append, List.mem_cons, List.not_mem_nil,
                      or_false] at hjbig
                    push_neg at hjbig
                    simp only [promote_nodes]
                    exact hfr3 j hjbig.2
                · show (getNode t.nodes i).value = _
                  rw [hflat, hidxe, ← hlfl, getD_mid]
              · -- two children: move the successor value up
                rw [hL] at hl
                rw [hRt] at hr
                have hrpos : 0 < r.size := Rep_some_size_pos hr
                simp only [hL, hRt]
                have hndR : (ilr ++ fl).Nodup := by
                  refine List.Sublist.nodup ?_ hnd
                  rw [List.append_assoc]
                  exact (List.sublist_cons_self i (ilr ++ fl)).trans
                    (List.sublist_append_right ill (i :: (ilr ++ fl)))
                obtain ⟨hstep, hrem⟩ := ih r { t with root := some ri } ilr fl 0
                  (mayReb && !(mayReb && will_need_rebalance t.nodes (some i) 0 (-1)))
                  hr hfc hndR (by omega) (by omega)
                obtain ⟨b2, il2, fl2, hrep2, hfc2, hnd2, hfl2, hle2, hacc2, hfr2⟩ := hstep
                have hb2sz : b2.size = r.size - 1 := by
                  rw [← bt.flatten_length, hfl2, deleteList_length (by omega), bt.flatten_length]
                constructor
                · refine StepOK.rebalance_if ?_ _
                  obtain ⟨hA, hB, hC, hD, hE, hF⟩ :=
                    assemble_right hi hl hnd hrep2 hfc2 hnd2 hle2 hacc2 hfr2
                      (show (getNode t.nodes i).weight - 1 = l.size + b2.size + 1 by omega)
                  refine ⟨bt.node l ((delete_help fuel { t with root := some ri } 0
                      (mayReb && !(mayReb && will_need_rebalance t.nodes (some i) 0 (-1)))).2) b2,
                    ill ++ i :: il2, fl2, hA, hB, hC, ?_, hD, hE, hF⟩
                  have hne : r.flatten ≠ [] := by
                    intro he
                    rw [← bt.flatten_length, he] at hrpos
                    exact absurd hrpos (by simp)
                  show l.flatten ++ _ :: b2.flatten = _
                  rw [hfl2, hrem, hflat, hidxe, ← hlfl, deleteList_at,
                    head_cons_deleteList hne]
                · show (getNode t.nodes i).value = _
                  rw [hflat, hidxe, ← hlfl, getD_mid]

theorem setList_mid {l1 l2 : List α} {x a : α} :
    (l1 ++ x :: l2).set l1.length a = l1 ++ a :: l2 := by
  rw [List.set_append_right _ _ (le_refl _)]
  simp

theorem setList_right {l1 l2 : List α} {x a : α} {i : Nat} (h : l1.length < i) :
    (l1 ++ x :: l2).set i a = l1 ++ x :: l2.set (i - l1.length - 1) a := by
  obtain ⟨k, hk⟩ : ∃ k, i - l1.length = k + 1 := ⟨i - l1.length - 1, by omega⟩
  rw [List.set_append_right _ _ (by omega), hk, List.set_cons_succ]
  simp

theorem set_help_go [Inhabited α] (value : α) :
    ∀ (fuel : Nat) (b : bt α) (ns : List (omt_node α)) (root : Option Nat)
      (il : List Nat) (idx : Nat),
      Rep ns root b il →
      il.Nodup →
      idx < b.size →
      b.size < fuel →
      ∃ b2, Rep (set_help value fuel ns root idx) root b2 il ∧
        b2.flatten = b.flatten.set idx value ∧
        (set_help value fuel ns root idx).length = ns.length ∧
        (∀ j, j ∉ il → getNode (set_help value fuel ns root idx) j = getNode ns j) := by
  intro fuel
  induction fuel with
  | zero =>
      intro b ns root il idx _ _ _ h
      exact absurd h (by omega)
  | succ fuel ih =>
      intro b ns root il idx hrep hnd hidx hsz
      rcases hR : root with _ | i
      · rw [hR] at hrep
        cases hrep
        exact absurd hidx (by simp [bt.size])
      · rw [hR] at hrep
        cases hrep with
        | node hi hw hl hr =>
        rename_i l r ill ilr
        obtain ⟨hnd_ill, hnd_ilr, hi_ill, hi_ilr, hd_lr⟩ := nodup_mid hnd
        have hlw : nweight ns (getNode ns i).left = l.size := hl.nweight_eq
        have hszn : l.size + r.size + 1 < fuel + 1 := by simpa [bt.size] using hsz
        have hidxn : idx < l.size + r.size + 1 := by simpa [bt.size] using hidx
        have hlfl : l.flatten.length = l.size := bt.flatten_length l
        have hflat : (bt.node l (getNode ns i).value r).flatten =
            l.flatten ++ (getNode ns i).value :: r.flatten := rfl
        simp only [set_help, hR]
        by_cases hbr1 : idx < nweight ns (getNode ns i).left
        · rw [if_pos hbr1]
          obtain ⟨b2, hrep2, hfl2, hlen2, hfr2⟩ :=
            ih l ns (getNode ns i).left ill idx hl hnd_ill (by omega) (by omega)
          have hgi : getNode (set_help value fuel ns (getNode ns i).left idx) i =
              getNode ns i := hfr2 i hi_ill
          have hrepR : Rep (set_help value fuel ns (getNode ns i).left idx)
              (getNode ns i).right r ilr := by
            refine hr.stable (le_of_eq hlen2.symm) (fun j hj => ?_)
            exact hfr2 j (fun hmem => hd_lr j hmem hj)
          refine ⟨bt.node b2 (getNode ns i).value r, ?_, ?_, hlen2, ?_⟩
          · have h2 : Rep (set_help value fuel ns (getNode ns i).left idx) (some i)
                (bt.node b2 (getNode (set_help value fuel ns (getNode ns i).left idx) i).value r)
                (ill ++ i :: ilr) := by
              refine Rep.node (by rw [hlen2]; exact hi) ?_ ?_ ?_
              · rw [hgi, hw]
                have : b2.size = l.size := by
                  rw [← bt.flatten_length, hfl2, List.length_set, bt.flatten_length]
                omega
              · rw [hgi]
                exact hrep2
              · rw [hgi]
                exact hrepR
            rwa [hgi] at h2
          · show b2.flatten ++ (getNode ns i).value :: r.flatten = _
            rw [hfl2, hflat, List.set_append_left _ _ (by omega)]
          · intro j hj
            simp only [List.mem_append, List.mem_cons] at hj
            push_neg at hj
            exact hfr2 j hj.1
        · rw [if_neg hbr1]
          by_cases hbr2 : nweight ns (getNode ns i).left < idx
          · rw [if_pos hbr2]
            obtain ⟨b2, hrep2, hfl2, hlen2, hfr2⟩ :=
              ih r ns (getNode ns i).right ilr
                (idx - nweight ns (getNode ns i).left - 1) hr hnd_ilr (by omega) (by omega)
            have hgi : getNode (set_help value fuel ns (getNode ns i).right
                (idx - nweight ns (getNode ns i).left - 1)) i = getNode ns i :=
              hfr2 i hi_ilr
            have hrepL : Rep (set_help value fuel ns (getNode ns i).right
                (idx - nweight ns (getNode ns i).left - 1)) (getNode ns i).left l ill := by
              refine hl.stable (le_of_eq hlen2.symm) (fun j hj => ?_)
              exact hfr2 j (hd_lr j hj)
            refine ⟨bt.node l (getNode ns i).value b2, ?_, ?_, hlen2, ?_⟩
            · have h2 : Rep (set_help value fuel ns (getNode ns i).right
                  (idx - nweight ns (getNode ns i).left - 1)) (some i)
                  (bt.node l (getNode (set_help value fuel ns (getNode ns i).right
                    (idx - nweight ns (getNode ns i).left - 1)) i).value b2)
                  (ill ++ i :: ilr) := by
                refine Rep.node (by rw [hlen2]; exact hi) ?_ ?_ ?_
                · rw [hgi, hw]
                  have : b2.size = r.size := by
                    rw [← bt.flatten_length, hfl2, List.length_set, bt.flatten_length]
                  omega
                · rw [hgi]
                  exact hrepL
                · rw [hgi]
                  exact hrep2
              rwa [hgi] at h2
            · show l.flatten ++ (getNode ns i).value :: b2.flatten = _
              rw [hfl2, hflat, setList_right (by omega), hlfl, hlw]
            · intro j hj
              simp only [List.mem_append, List.mem_cons] at hj
              push_neg at hj
              exact hfr2 j hj.2.2
          · rw [if_neg hbr2]
            have hidxe : idx = l.size := by omega
            have hgi : getNode (ns.set i { getNode ns i with value := value }) i =
                { getNode ns i with value := value } := getNode_set_self hi _
            have hfr3 : ∀ j, j ≠ i →
                getNode (ns.set i { getNode ns i with value := value }) j = getNode ns j :=
              fun j hj => getNode_set_ne (fun he => hj he.symm) _
            refine ⟨bt.node l value r, ?_, ?_, List.length_set _ _ _, ?_⟩
            · have hrepL : Rep (ns.set i { getNode ns i with value := value })
                  (getNode ns i).left l ill := by
                refine hl.stable (by rw [List.length_set]) (fun j hj => ?_)
                exact hfr3 j (fun he => hi_ill (he ▸ hj))
              have hrepR : Rep (ns.set i { getNode ns i with value := value })
                  (getNode ns i).right r ilr := by
                refine hr.stable (by rw [List.length_set]) (fun j hj => ?_)
                exact hfr3 j (fun he => hi_ilr (he ▸ hj))
              have h2 : Rep (ns.set i { getNode ns i with value := value }) (some i)
                  (bt.node l (getNode (ns.set i { getNode ns i with value := value }) i).value r)
                  (ill ++ i :: ilr) := by
                refine Rep.node (by rw [List.length_set]; exact hi) ?_ ?_ ?_
                · rw [hgi]
                  exact hw
                · rw [hgi]
                  exact hrepL
                · rw [hgi]
                  exact hrepR
              rw [hgi] at h2
              exact h2
            · show l.flatten ++ value :: r.flatten = _
              rw [hflat, hidxe, ← hlfl, setList_mid]
            · intro j hj
              simp only [List.mem_append, List.mem_cons] at hj
              push_neg at hj
              exact hfr3 j hj.2.1

theorem fetch_help_go [Inhabited α] :
    ∀ (fuel : Nat) (b : bt α) (ns : List (omt_node α)) (root : Option Nat)
      (il : List Nat) (idx : Nat),
      Rep ns root b il → idx < b.size → b.size < fuel →
      fetch_help fuel ns root idx = some (b.flatten.getD idx default) := by
  intro fuel
  induction fuel with
  | zero =>
      intro b ns root il idx _ _ h
      exact absurd h (by omega)
  | succ fuel ih =>
      intro b ns root il idx hrep hidx hsz
      rcases hR : root with _ | i
      · rw [hR] at hrep
        cases hrep
        exact absurd hidx (by simp [bt.size])
      · rw [hR] at hrep
        cases hrep with
        | node hi hw hl hr =>
        rename_i l r ill ilr
        have hlw : nweight ns (getNode ns i).left = l.size := hl.nweight_eq
        have hszn : l.size + r.size + 1 < fuel + 1 := by simpa [bt.size] using hsz
        have hidxn : idx < l.size + r.size + 1 := by simpa [bt.size] using hidx
        have hlfl : l.flatten.length = l.size := bt.flatten_length l
        have hflat : (bt.node l (getNode ns i).value r).flatten =
            l.flatten ++ (getNode ns i).value :: r.flatten := rfl
        simp only [fetch_help, hR]
        by_cases hbr1 : idx < nweight ns (getNode ns i).left
        · rw [if_pos hbr1]
          rw [ih l ns (getNode ns i).left ill idx hl (by omega) (by omega)]
          rw [hflat, List.getD_append _ _ _ _ (by omega)]
        · rw [if_neg hbr1]
          by_cases hbr2 : nweight ns (getNode ns i).left < idx
          · rw [if_pos hbr2]
            rw [ih r ns (getNode ns i).right ilr
              (idx - nweight ns (getNode ns i).left - 1) hr (by omega) (by omega)]
            rw [hflat, getD_right (by omega), hlfl, hlw]
          · rw [if_neg hbr2]
            have hidxe : idx = l.size := by omega
            rw [hflat, hidxe, ← hlfl, getD_mid]

/-! ## Monotone comparators and the searches -/

/-- The precondition of every comparator guided operation (spec section
6): the sign of the comparator is monotonically non decreasing along
the sequence. -/
def MonoSign (h : α → Int) (l : List α) : Prop :=
  List.Pairwise (fun a b => (h a).sign ≤ (h b).sign) l

theorem mono_neg {x y : Int} (hs : x.sign ≤ y.sign) (hy : y < 0) : x < 0 := by
  rcases lt_trichotomy x 0 with hc | hc | hc
  · exact hc
  · subst hc
    rw [Int.sign_zero, Int.sign_eq_neg_one_iff_neg.2 hy] at hs
    omega
  · rw [Int.sign_eq_one_iff_pos.2 hc, Int.sign_eq_neg_one_iff_neg.2 hy] at hs
    omega

theorem mono_pos {x y : Int} (hs : x.sign ≤ y.sign) (hx : 0 < x) : 0 < y := by
  rcases lt_trichotomy y 0 with hc | hc | hc
  · rw [Int.sign_eq_one_iff_pos.2 hx, Int.sign_eq_neg_one_iff_neg.2 hc] at hs
    omega
  · subst hc
    rw [Int.sign_eq_one_iff_pos.2 hx, Int.sign_zero] at hs
    omega
  · exact hc

theorem mono_nonpos {x y : Int} (hs : x.sign ≤ y.sign) (hy : y ≤ 0) : x ≤ 0 := by
  by_contra hc
  push_neg at hc
  have := mono_pos hs hc
  omega

theorem mono_nonneg {x y : Int} (hs : x.sign ≤ y.sign) (hx : 0 ≤ x) : 0 ≤ y := by
  by_contra hc
  push_neg at hc
  have := mono_neg hs hc
  omega

theorem monoSign_append_mid {h : α → Int} {lf rf : List α} {v : α}
    (hm : MonoSign h (lf ++ v :: rf)) :
    MonoSign h lf ∧ MonoSign h rf ∧
    (∀ x ∈ lf, (h x).sign ≤ (h v).sign) ∧
    (∀ y ∈ rf, (h v).sign ≤ (h y).sign) := by
  rw [MonoSign, List.pairwise_append] at hm
  obtain ⟨h1, h2, h3⟩ := hm
  rw [List.pairwise_cons] at h2
  exact ⟨h1, h2.2, fun x hx => h3 x hx v (by simp), h2.1⟩

theorem monoSign_getD [Inhabited α] {h : α → Int} {l : List α} (hm : MonoSign h l)
    {a b : Nat} (hab : a < b) (hb : b < l.length) :
    (h (l.getD a default)).sign ≤ (h (l.getD b default)).sign := by
  rw [MonoSign, List.pairwise_iff_get] at hm
  have h2 := hm ⟨a, by omega⟩ ⟨b, hb⟩ hab
  rw [List.getD_eq_getElem?_getD, List.getElem?_eq_getElem (show a < l.length by omega),
    List.getD_eq_getElem?_getD, List.getElem?_eq_getElem hb]
  simpa using h2

theorem getD_mem {β : Type} {l : List β} {k : Nat} (hk : k < l.length) (d : β) :
    l.getD k d ∈ l := by
  rw [List.getD_eq_getElem?_getD, List.getElem?_eq_getElem hk]
  exact List.getElem_mem hk

theorem find_zero_tree_go [Inhabited α] (h : α → Int) :
    ∀ (fuel : Nat) (b : bt α) (ns : List (omt_node α)) (root : Option Nat) (il : List Nat),
      Rep ns root b il →
      MonoSign h b.flatten →
      b.size < fuel →
      (∃ j, j < b.flatten.length ∧ h (b.flatten.getD j default) = 0 ∧
        (∀ k, k < j → h (b.flatten.getD k default) ≠ 0) ∧
        find_internal_zero h fuel ns root =
          (.ok, some (b.flatten.getD j default), some j)) ∨
      ((∀ k, k < b.flatten.length → h (b.flatten.getD k default) ≠ 0) ∧
       ∃ j, j ≤ b.flatten.length ∧
        (∀ k, k < j → h (b.flatten.getD k default) < 0) ∧
        (∀ k, j ≤ k → k < b.flatten.length → 0 < h (b.flatten.getD k default)) ∧
        find_internal_zero h fuel ns root = (.NOT_FOUND, none, some j)) := by
  intro fuel
  induction fuel with
  | zero =>
      intro b ns root il _ _ h0
      exact absurd h0 (by omega)
  | succ fuel ih =>
      intro b ns root il hrep hm hsz
      rcases hR : root with _ | i
      · rw [hR] at hrep
        cases hrep
        refine Or.inr ⟨?_, 0, ?_, ?_, ?_, rfl⟩ <;> simp [bt.flatten]
      · rw [hR] at hrep
        cases hrep with
        | node hi hw hl hr =>
        rename_i l r ill ilr
        have hlw : nweight ns (getNode ns i).left = l.size := hl.nweight_eq
        have hszn : l.size + r.size + 1 < fuel + 1 := by simpa [bt.size] using hsz
        have hlfl : l.flatten.length = l.size := bt.flatten_length l
        have hrfl : r.flatten.length = r.size := bt.flatten_length r
        have hflat : (bt.node l (getNode ns i).value r).flatten =
            l.flatten ++ (getNode ns i).value :: r.flatten := rfl
        rw [hflat] at hm ⊢
        obtain ⟨hm_l, hm_r, hrel_l, hrel_r⟩ := monoSign_append_mid hm
        have hlen_all : (l.flatten ++ (getNode ns i).value :: r.flatten).length =
            l.size + r.size + 1 := by
          simp [List.length_append, hlfl, hrfl]
          omega
        have hget_l : ∀ k, k < l.size →
            (l.flatten ++ (getNode ns i).value :: r.flatten).getD k default =
              l.flatten.getD k default := by
          intro k hk
          exact List.getD_append _ _ _ _ (by omega)
        have hget_m : (l.flatten ++ (getNode ns i).value :: r.flatten).getD l.size default =
            (getNode ns i).value := by
          rw [← hlfl, getD_mid]
        have hget_r : ∀ k, l.size < k →
            (l.flatten ++ (getNode ns i).value :: r.flatten).getD k default =
              r.flatten.getD (k - l.size - 1) default := by
          intro k hk
          rw [getD_right (by omega), hlfl]
        simp only [find_internal_zero, hR]
        by_cases hv1 : h (getNode ns i).value < 0
        · rw [if_pos hv1]
          have hneg_l : ∀ x ∈ l.flatten, h x < 0 :=
            fun x hx => mono_neg (hrel_l x hx) hv1
          rcases ih r ns (getNode ns i).right ilr hr hm_r (by omega) with
            ⟨j, hjlt, hjz, hjmin, hres⟩ | ⟨hnone, j, hjle, hjneg, hjpos, hres⟩
          · refine Or.inl ⟨j + nweight ns (getNode ns i).left + 1, ?_, ?_, ?_, ?_⟩
            · rw [hlen_all, hlw]
              omega
            · rw [hget_r _ (by omega), hlw]
              have he : j + l.size + 1 - l.size - 1 = j := by omega
              rw [he]
              exact hjz
            · intro k hk
              rw [hlw] at hk
              rcases lt_trichotomy k l.size with hc | hc | hc
              · rw [hget_l _ hc]
                have hh : h (l.flatten.getD k default) < 0 :=
                  hneg_l _ (getD_mem (by omega) default)
                omega
              · rw [hc, hget_m]
                omega
              · rw [hget_r _ hc]
                exact hjmin _ (by omega)
            · rw [hres]
              rw [hget_r _ (by omega), hlw]
              have he : j + l.size + 1 - l.size - 1 = j := by omega
              rw [he]
              rfl
          · refine Or.inr ⟨?_, j + nweight ns (getNode ns i).left + 1, ?_, ?_, ?_, ?_⟩
            · intro k hk
              rw [hlen_all] at hk
              rcases lt_trichotomy k l.size with hc | hc | hc
              · rw [hget_l _ hc]
                have hh : h (l.flatten.getD k default) < 0 :=
                  hneg_l _ (getD_mem (by omega) default)
                omega
              · rw [hc, hget_m]
                omega
              · rw [hget_r _ hc]
                exact hnone _ (by omega)
            · rw [hlen_all, hlw]
              omega
            · intro k hk
              rw [hlw] at hk
              rcases lt_trichotomy k l.size with hc | hc | hc
              · rw [hget_l _ hc]
                exact hneg_l _ (getD_mem (by omega) default)
              · rw [hc, hget_m]
                exact hv1
              · rw [hget_r _ hc]
                exact hjneg _ (by omega)
            · intro k hk1 hk2
              rw [hlw] at hk1
              rw [hlen_all] at hk2
              rw [hget_r _ (by omega)]
              exact hjpos _ (by omega) (by omega)
            · rw [hres]
              rw [hlw]
              rfl
        · rw [if_neg hv1]
          by_cases hv2 : 0 < h (getNode ns i).value
          · rw [if_pos hv2]
            have hpos_r : ∀ y ∈ r.flatten, 0 < h y :=
              fun y hy => mono_pos (hrel_r y hy) hv2
            rcases ih l ns (getNode ns i).left ill hl hm_l (by omega) with
              ⟨j, hjlt, hjz, hjmin, hres⟩ | ⟨hnone, j, hjle, hjneg, hjpos, hres⟩
            · refine Or.inl ⟨j, ?_, ?_, ?_, ?_⟩
              · rw [hlen_all]
                omega
              · rw [hget_l _ (by omega)]
                exact hjz
              · intro k hk
                rw [hget_l _ (by omega)]
                exact hjmin _ hk
              · rw [hget_l _ (by omega)]
                exact hres
            · refine Or.inr ⟨?_, j, ?_, ?_, ?_, ?_⟩
              · intro k hk
                rw [hlen_all] at hk
                rcases lt_trichotomy k l.size with hc | hc | hc
                · rw [hget_l _ hc]
                  exact hnone _ (by omega)
                · rw [hc, hget_m]
                  omega
                · rw [hget_r _ hc]
                  have hh : 0 < h (r.flatten.getD (k - l.size - 1) default) :=
                    hpos_r _ (getD_mem (by omega) default)
                  omega
              · rw [hlen_all]
                omega
              · intro k hk
                rw [hget_l _ (by omega)]
                exact hjneg _ hk
              · intro k hk1 hk2
                rw [hlen_all] at hk2
                rcases lt_trichotomy k l.size with hc | hc | hc
                · rw [hget_l _ hc]
                  exact hjpos _ hk1 (by omega)
                · rw [hc, hget_m]
                  exact hv2
                · rw [hget_r _ hc]
                  exact hpos_r _ (getD_mem (by omega) default)
              · exact hres
          · rw [if_neg hv2]
            have hv0 : h (getNode ns i).value = 0 := by omega
            rcases ih l ns (getNode ns i).left ill hl hm_l (by omega) with
              ⟨j, hjlt, hjz, hjmin, hres⟩ | ⟨hnone, j, hjle, hjneg, hjpos, hres⟩
            · rw [hres]
              rw [if_neg (by simp)]
              refine Or.inl ⟨j, ?_, ?_, ?_, ?_⟩
              · rw [hlen_all]
                omega
              · rw [hget_l _ (by omega)]
                exact hjz
              · intro k hk
                rw [hget_l _ (by omega)]
                exact hjmin _ hk
              · rw [hget_l _ (by omega)]
            · rw [hres]
              rw [if_pos (by simp)]
              refine Or.inl ⟨nweight ns (getNode ns i).left, ?_, ?_, ?_, ?_⟩
              · rw [hlen_all, hlw]
                omega
              · rw [hlw, hget_m]
                exact hv0
              · intro k hk
                rw [hlw] at hk
                rw [hget_l _ (by omega)]
                exact hnone _ (by omega)
              · rw [hlw, hget_m]

theorem find_plus_tree_go [Inhabited α] (h : α → Int) :
    ∀ (fuel : Nat) (b : bt α) (ns : List (omt_node α)) (root : Option Nat) (il : List Nat),
      Rep ns root b il →
      MonoSign h b.flatten →
      b.size < fuel →
      (∃ j, j < b.flatten.length ∧ 0 < h (b.flatten.getD j default) ∧
        (∀ k, k < j → h (b.flatten.getD k default) ≤ 0) ∧
        find_internal_plus h fuel ns root =
          (.ok, some (b.flatten.getD j default), some j)) ∨
      ((∀ k, k < b.flatten.length → h (b.flatten.getD k default) ≤ 0) ∧
        find_internal_plus h fuel ns root = (.NOT_FOUND, none, none)) := by
  intro fuel
  induction fuel with
  | zero =>
      intro b ns root il _ _ h0
      exact absurd h0 (by omega)
  | succ fuel ih =>
      intro b ns root il hrep hm hsz
      rcases hR : root with _ | i
      · rw [hR] at hrep
        cases hrep
        refine Or.inr ⟨?_, rfl⟩
        simp [bt.flatten]
      · rw [hR] at hrep
        cases hrep with
        | node hi hw hl hr =>
        rename_i l r ill ilr
        have hlw : nweight ns (getNode ns i).left = l.size := hl.nweight_eq
        have hszn : l.size + r.size + 1 < fuel + 1 := by simpa [bt.size] using hsz
        have hlfl : l.flatten.length = l.size := bt.flatten_length l
        have hrfl : r.flatten.length = r.size := bt.flatten_length r
        have hflat : (bt.node l (getNode ns i).value r).flatten =
            l.flatten ++ (getNode ns i).value :: r.flatten := rfl
        rw [hflat] at hm ⊢
        obtain ⟨hm_l, hm_r, hrel_l, hrel_r⟩ := monoSign_append_mid hm
        have hlen_all : (l.flatten ++ (getNode ns i).value :: r.flatten).length =
            l.size + r.size + 1 := by
          simp [List.length_append, hlfl, hrfl]
          omega
        have hget_l : ∀ k, k < l.size →
            (l.flatten ++ (getNode ns i).value :: r.flatten).getD k default =
              l.flatten.getD k default := by
          intro k hk
          exact List.getD_append _ _ _ _ (by omega)
        have hget_m : (l.flatten ++ (getNode ns i).value :: r.flatten).getD l.size default =
            (getNode ns i).value := by
          rw [← hlfl, getD_mid]
        have hget_r : ∀ k, l.size < k →
            (l.flatten ++ (getNode ns i).value :: r.flatten).getD k default =
              r.flatten.getD (k - l.size - 1) default := by
          intro k hk
          rw [getD_right (by omega), hlfl]
        simp only [find_internal_plus, hR]
        by_cases hv : 0 < h (getNode ns i).value
        · rw [if_pos hv]
          rcases ih l ns (getNode ns i).left ill hl hm_l (by omega) with
            ⟨j, hjlt, hjp, hjmin, hres⟩ | ⟨hnone, hres⟩
          · rw [hres, if_neg (by simp)]
            refine Or.inl ⟨j, ?_, ?_, ?_, ?_⟩
            · rw [hlen_all]
              omega
            · rw [hget_l _ (by omega)]
              exact hjp
            · intro k hk
              rw [hget_l _ (by omega)]
              exact hjmin _ hk
            · rw [hget_l _ (by omega)]
          · rw [hres, if_pos rfl]
            refine Or.inl ⟨nweight ns (getNode ns i).left, ?_, ?_, ?_, ?_⟩
            · rw [hlen_all, hlw]
              omega
            · rw [hlw, hget_m]
              exact hv
            · intro k hk
              rw [hlw] at hk
              rw [hget_l _ (by omega)]
              exact hnone _ (by omega)
            · rw [hlw, hget_m]
        · rw [if_neg hv]
          push_neg at hv
          have hnp_l : ∀ x ∈ l.flatten, h x ≤ 0 :=
            fun x hx => mono_nonpos (hrel_l x hx) hv
          rcases ih r ns (getNode ns i).right ilr hr hm_r (by omega) with
            ⟨j, hjlt, hjp, hjmin, hres⟩ | ⟨hnone, hres⟩
          · rw [hres, if_pos rfl]
            refine Or.inl ⟨j + nweight ns (getNode ns i).left + 1, ?_, ?_, ?_, ?_⟩
            · rw [hlen_all, hlw]
              omega
            · rw [hget_r _ (by omega), hlw]
              have he : j + l.size + 1 - l.size - 1 = j := by omega
              rw [he]
              exact hjp
            · intro k hk
              rw [hlw] at hk
              rcases lt_trichotomy k l.size with hc | hc | hc
              · rw [hget_l _ hc]
                exact hnp_l _ (getD_mem (by omega) default)
              · rw [hc, hget_m]
                exact hv
              · rw [hget_r _ hc]
                exact hjmin _ (by omega)
            · rw [hget_r _ (by omega), hlw]
              have he : j + l.size + 1 - l.size - 1 = j := by omega
              rw [he]
              rfl
          · rw [hres, if_neg (by simp)]
            refine Or.inr ⟨?_, rfl⟩
            intro k hk
            rw [hlen_all] at hk
            rcases lt_trichotomy k l.size with hc | hc | hc
            · rw [hget_l _ hc]
              exact hnp_l _ (getD_mem (by omega) default)
            · rw [hc, hget_m]
              exact hv
            · rw [hget_r _ hc]
              exact hnone _ (by omega)

theorem find_minus_tree_go [Inhabited α] (h : α → Int) :
    ∀ (fuel : Nat) (b : bt α) (ns : List (omt_node α)) (root : Option Nat) (il : List Nat),
      Rep ns root b il →
      MonoSign h b.flatten →
      b.size < fuel →
      (∃ j, j < b.flatten.length ∧ h (b.flatten.getD j default) < 0 ∧
        (∀ k, j < k → k < b.flatten.length → 0 ≤ h (b.flatten.getD k default)) ∧
        find_internal_minus h fuel ns root =
          (.ok, some (b.flatten.getD j default), some j)) ∨
      ((∀ k, k < b.flatten.length → 0 ≤ h (b.flatten.getD k default)) ∧
        find_internal_minus h fuel ns root = (.NOT_FOUND, none, none)) := by
  intro fuel
  induction fuel with
  | zero =>
      intro b ns root il _ _ h0
      exact absurd h0 (by omega)
  | succ fuel ih =>
      intro b ns root il hrep hm hsz
      rcases hR : root with _ | i
      · rw [hR] at hrep
        cases hrep
        refine Or.inr ⟨?_, rfl⟩
        simp [bt.flatten]
      · rw [hR] at hrep
        cases hrep with
        | node hi hw hl hr =>
        rename_i l r ill ilr
        have hlw : nweight ns (getNode ns i).left = l.size := hl.nweight_eq
        have hszn : l.size + r.size + 1 < fuel + 1 := by simpa [bt.size] using hsz
        have hlfl : l.flatten.length = l.size := bt.flatten_length l
        have hrfl : r.flatten.length = r.size := bt.flatten_length r
        have hflat : (bt.node l (getNode ns i).value r).flatten =
            l.flatten ++ (getNode ns i).value :: r.flatten := rfl
        rw [hflat] at hm ⊢
        obtain ⟨hm_l, hm_r, hrel_l, hrel_r⟩ := monoSign_append_mid hm
        have hlen_all : (l.flatten ++ (getNode ns i).value :: r.flatten).length =
            l.size + r.size + 1 := by
          simp [List.length_append, hlfl, hrfl]
          omega
        have hget_l : ∀ k, k < l.size →
            (l.flatten ++ (getNode ns i).value :: r.flatten).getD k default =
              l.flatten.getD k default := by
          intro k hk
          exact List.getD_append _ _ _ _ (by omega)
        have hget_m : (l.flatten ++ (getNode ns i).value :: r.flatten).getD l.size default =
            (getNode ns i).value := by
          rw [← hlfl, getD_mid]
        have hget_r : ∀ k, l.size < k →
            (l.flatten ++ (getNode ns i).value :: r.flatten).getD k default =
              r.flatten.getD (k - l.size - 1) default := by
          intro k hk
          rw [getD_right (by omega), hlfl]
        simp only [find_internal_minus, hR]
        by_cases hv : h (getNode ns i).value < 0
        · rw [if_pos hv]
          rcases ih r ns (getNode ns i).right ilr hr hm_r (by omega) with
            ⟨j, hjlt, hjn, hjmax, hres⟩ | ⟨hnone, hres⟩
          · rw [hres, if_pos rfl]
            refine Or.inl ⟨j + nweight ns (getNode ns i).left + 1, ?_, ?_, ?_, ?_⟩
            · rw [hlen_all, hlw]
              omega
            · rw [hget_r _ (by omega), hlw]
              have he : j + l.size + 1 - l.size - 1 = j := by omega
              rw [he]
              exact hjn
            · intro k hk1 hk2
              rw [hlw] at hk1
              rw [hlen_all] at hk2
              rw [hget_r _ (by omega)]
              exact hjmax _ (by omega) (by omega)
            · rw [hget_r _ (by omega), hlw]
              have he : j + l.size + 1 - l.size - 1 = j := by omega
              rw [he]
              rfl
          · rw [hres, if_neg (by simp)]
            refine Or.inl ⟨nweight ns (getNode ns i).left, ?_, ?_, ?_, ?_⟩
            · rw [hlen_all, hlw]
              omega
            · rw [hlw, hget_m]
              exact hv
            · intro k hk1 hk2
              rw [hlw] at hk1
              rw [hlen_all] at hk2
              rw [hget_r _ (by omega)]
              exact hnone _ (by omega)
            · rw [hlw, hget_m]
        · rw [if_neg hv]
          push_neg at hv
          have hnn_r : ∀ y ∈ r.flatten, 0 ≤ h y :=
            fun y hy => mono_nonneg (hrel_r y hy) hv
          rcases ih l ns (getNode ns i).left ill hl hm_l (by omega) with
            ⟨j, hjlt, hjn, hjmax, hres⟩ | ⟨hnone, hres⟩
          · rw [hres]
            refine Or.inl ⟨j, ?_, ?_, ?_, ?_⟩
            · rw [hlen_all]
              omega
            · rw [hget_l _ (by omega)]
              exact hjn
            · intro k hk1 hk2
              rw [hlen_all] at hk2
              rcases lt_trichotomy k l.size with hc | hc | hc
              · rw [hget_l _ hc]
                exact hjmax _ hk1 (by omega)
              · rw [hc, hget_m]
                exact hv
              · rw [hget_r _ hc]
                exact hnn_r _ (getD_mem (by omega) default)
            · rw [hget_l _ (by omega)]
          · rw [hres]
            refine Or.inr ⟨?_, rfl⟩
            intro k hk
            rw [hlen_all] at hk
            rcases lt_trichotomy k l.size with hc | hc | hc
            · rw [hget_l _ hc]
              exact hnone _ (by omega)
            · rw [hc, hget_m]
              exact hv
            · rw [hget_r _ hc]
              exact hnn_r _ (getD_mem (by omega) default)

theorem find_zero_arr_go [Inhabited α] (h : α → Int) (l : List α) (hm : MonoSign h l) :
    ∀ (fuel lo hi : Nat), lo ≤ hi → hi ≤ l.length → hi - lo < fuel →
      (∃ j, lo ≤ j ∧ j < hi ∧ h (l.getD j default) = 0 ∧
        (∀ k, lo ≤ k → k < j → h (l.getD k default) ≠ 0) ∧
        find_zero_arr h l fuel lo hi = (.ok, some (l.getD j default), some j)) ∨
      ((∀ k, lo ≤ k → k < hi → h (l.getD k default) ≠ 0) ∧
       ∃ j, lo ≤ j ∧ j ≤ hi ∧
        (∀ k, lo ≤ k → k < j → h (l.getD k default) < 0) ∧
        (∀ k, j ≤ k → k < hi → 0 < h (l.getD k default)) ∧
        find_zero_arr h l fuel lo hi = (.NOT_FOUND, none, some j)) := by
  intro fuel
  induction fuel with
  | zero =>
      intro lo hi hlohi _ h0
      exact absurd h0 (by omega)
  | succ fuel ih =>
      intro lo hi hlohi hhil hfuel
      simp only [find_zero_arr]
      by_cases hend : hi ≤ lo
      · rw [if_pos hend]
        exact Or.inr ⟨fun k hk1 hk2 => by omega, lo, le_refl _, by omega,
          fun k hk1 hk2 => by omega, fun k hk1 hk2 => by omega, rfl⟩
      · rw [if_neg hend]
        push_neg at hend
        have hmid1 : lo ≤ (lo + hi) / 2 := by omega
        have hmid2 : (lo + hi) / 2 < hi := by omega
        have hmidlen : (lo + hi) / 2 < l.length := by omega
        by_cases hv1 : h (l.getD ((lo + hi) / 2) default) < 0
        · rw [if_pos hv1]
          have hneg : ∀ k, lo ≤ k → k ≤ (lo + hi) / 2 → h (l.getD k default) < 0 := by
            intro k hk1 hk2
            rcases Nat.eq_or_lt_of_le hk2 with rfl | hk3
            · exact hv1
            · exact mono_neg (monoSign_getD hm hk3 hmidlen) hv1
          rcases ih ((lo + hi) / 2 + 1) hi (by omega) hhil (by omega) with
            ⟨j, hj1, hj2, hjz, hjmin, hres⟩ | ⟨hnone, j, hj1, hj2, hjneg, hjpos, hres⟩
          · refine Or.inl ⟨j, by omega, hj2, hjz, ?_, hres⟩
            intro k hk1 hk2
            by_cases hc : k ≤ (lo + hi) / 2
            · have := hneg k hk1 hc
              omega
            · exact hjmin k (by omega) hk2
          · refine Or.inr ⟨?_, j, by omega, hj2, ?_, hjpos, hres⟩
            · intro k hk1 hk2
              by_cases hc : k ≤ (lo + hi) / 2
              · have := hneg k hk1 hc
                omega
              · exact hnone k (by omega) hk2
            · intro k hk1 hk2
              by_cases hc : k ≤ (lo + hi) / 2
              · exact hneg k hk1 hc
              · exact hjneg k (by omega) hk2
        · rw [if_neg hv1]
          by_cases hv2 : 0 < h (l.getD ((lo + hi) / 2) default)
          · rw [if_pos hv2]
            have hpos : ∀ k, (lo + hi) / 2 ≤ k → k < hi → 0 < h (l.getD k default) := by
              intro k hk1 hk2
              rcases Nat.eq_or_lt_of_le hk1 with rfl | hk3
              · exact hv2
              · exact mono_pos (monoSign_getD hm hk3 (by omega)) hv2
            rcases ih lo ((lo + hi) / 2) (by omega) (by omega) (by omega) with
              ⟨j, hj1, hj2, hjz, hjmin, hres⟩ | ⟨hnone, j, hj1, hj2, hjneg, hjpos, hres⟩
            · exact Or.inl ⟨j, hj1, by omega, hjz, hjmin, hres⟩
            · refine Or.inr ⟨?_, j, hj1, by omega, hjneg, ?_, hres⟩
              · intro k hk1 hk2
                by_cases hc : k < (lo + hi) / 2
                · exact hnone k hk1 hc
                · have := hpos k (by omega) hk2
                  omega
              · intro k hk1 hk2
                by_cases hc : k < (lo + hi) / 2
                · exact hjpos k hk1 hc
                · exact hpos k (by omega) hk2
          · rw [if_neg hv2]
            have hv0 : h (l.getD ((lo + hi) / 2) default) = 0 := by omega
            rcases ih lo ((lo + hi) / 2) (by omega) (by omega) (by omega) with
              ⟨j, hj1, hj2, hjz, hjmin, hres⟩ | ⟨hnone, j, hj1, hj2, hjneg, hjpos, hres⟩
            · rw [hres, if_neg (by simp)]
              exact Or.inl ⟨j, hj1, by omega, hjz, hjmin, rfl⟩
            · rw [hres, if_pos rfl]
              refine Or.inl ⟨(lo + hi) / 2, by omega, by omega, hv0, ?_, rfl⟩
              intro k hk1 hk2
              exact hnone k hk1 hk2

theorem find_plus_arr_go [Inhabited α] (h : α → Int) (l : List α) (hm : MonoSign h l) :
    ∀ (fuel lo hi : Nat), lo ≤ hi → hi ≤ l.length → hi - lo < fuel →
      (∃ j, lo ≤ j ∧ j < hi ∧ 0 < h (l.getD j default) ∧
        (∀ k, lo ≤ k → k < j → h (l.getD k default) ≤ 0) ∧
        find_plus_arr h l fuel lo hi = (.ok, some (l.getD j default), some j)) ∨
      ((∀ k, lo ≤ k → k < hi → h (l.getD k default) ≤ 0) ∧
        find_plus_arr h l fuel lo hi = (.NOT_FOUND, none, none)) := by
  intro fuel
  induction fuel with
  | zero =>
      intro lo hi hlohi _ h0
      exact absurd h0 (by omega)
  | succ fuel ih =>
      intro lo hi hlohi hhil hfuel
      simp only [find_plus_arr]
      by_cases hend : hi ≤ lo
      · rw [if_pos hend]
        exact Or.inr ⟨fun k hk1 hk2 => by omega, rfl⟩
      · rw [if_neg hend]
        push_neg at hend
        have hmid1 : lo ≤ (lo + hi) / 2 := by omega
        have hmid2 : (lo + hi) / 2 < hi := by omega
        have hmidlen : (lo + hi) / 2 < l.length := by omega
        by_cases hv : 0 < h (l.getD ((lo + hi) / 2) default)
        · rw [if_pos hv]
          rcases ih lo ((lo + hi) / 2) (by omega) (by omega) (by omega) with
            ⟨j, hj1, hj2, hjp, hjmin, hres⟩ | ⟨hnone, hres⟩
          · rw [hres, if_neg (by simp)]
            exact Or.inl ⟨j, hj1, by omega, hjp, hjmin, rfl⟩
          · rw [hres, if_pos rfl]
            refine Or.inl ⟨(lo + hi) / 2, by omega, by omega, hv, ?_, rfl⟩
            intro k hk1 hk2
            exact hnone k hk1 hk2
        · rw [if_neg hv]
          push_neg at hv
          have hnp : ∀ k, lo ≤ k → k ≤ (lo + hi) / 2 → h (l.getD k default) ≤ 0 := by
            intro k hk1 hk2
            rcases Nat.eq_or_lt_of_le hk2 with rfl | hk3
            · exact hv
            · exact mono_nonpos (monoSign_getD hm hk3 hmidlen) hv
          rcases ih ((lo + hi) / 2 + 1) hi (by omega) hhil (by omega) with
            ⟨j, hj1, hj2, hjp, hjmin, hres⟩ | ⟨hnone, hres⟩
          · refine Or.inl ⟨j, by omega, hj2, hjp, ?_, hres⟩
            intro k hk1 hk2
            by_cases hc : k ≤ (lo + hi) / 2
            · exact hnp k hk1 hc
            · exact hjmin k (by omega) hk2
          · refine Or.inr ⟨?_, hres⟩
            intro k hk1 hk2
            by_cases hc : k ≤ (lo + hi) / 2
            · exact hnp k hk1 hc
            · exact hnone k (by omega) hk2

theorem find_minus_arr_go [Inhabited α] (h : α → Int) (l : List α) (hm : MonoSign h l) :
    ∀ (fuel lo hi : Nat), lo ≤ hi → hi ≤ l.length → hi - lo < fuel →
      (∃ j, lo ≤ j ∧ j < hi ∧ h (l.getD j default) < 0 ∧
        (∀ k, j < k → k < hi → 0 ≤ h (l.getD k default)) ∧
        find_minus_arr h l fuel lo hi = (.ok, some (l.getD j default), some j)) ∨
      ((∀ k, lo ≤ k → k < hi → 0 ≤ h (l.getD k default)) ∧
        find_minus_arr h l fuel lo hi = (.NOT_FOUND, none, none)) := by
  intro fuel
  induction fuel with
  | zero =>
      intro lo hi hlohi _ h0
      exact absurd h0 (by omega)
  | succ fuel ih =>
      intro lo hi hlohi hhil hfuel
      simp only [find_minus_arr]
      by_cases hend : hi ≤ lo
      · rw [if_pos hend]
        exact Or.inr ⟨fun k hk1 hk2 => by omega, rfl⟩
      · rw [if_neg hend]
        push_neg at hend
        have hmid1 : lo ≤ (lo + hi) / 2 := by omega
        have hmid2 : (lo + hi) / 2 < hi := by omega
        have hmidlen : (lo + hi) / 2 < l.length := by omega
        by_cases hv : h (l.getD ((lo + hi) / 2) default) < 0
        · rw [if_pos hv]
          rcases ih ((lo + hi) / 2 + 1) hi (by omega) hhil (by omega) with
            ⟨j, hj1, hj2, hjn, hjmax, hres⟩ | ⟨hnone, hres⟩
          · rw [hres, if_neg (by simp)]
            exact Or.inl ⟨j, by omega, hj2, hjn, hjmax, rfl⟩
          · rw [hres, if_pos rfl]
            refine Or.inl ⟨(lo + hi) / 2, by omega, by omega, hv, ?_, rfl⟩
            intro k hk1 hk2
            exact hnone k (by omega) hk2
        · rw [if_neg hv]
          push_neg at hv
          have hnn : ∀ k, (lo + hi) / 2 ≤ k → k < hi → 0 ≤ h (l.getD k default) := by
            intro k hk1 hk2
            rcases Nat.eq_or_lt_of_le hk1 with rfl | hk3
            · exact hv
            · exact mono_nonneg (monoSign_getD hm hk3 (by omega)) hv
          rcases ih lo ((lo + hi) / 2) (by omega) (by omega) (by omega) with
            ⟨j, hj1, hj2, hjn, hjmax, hres⟩ | ⟨hnone, hres⟩
          · refine Or.inl ⟨j, hj1, by omega, hjn, ?_, hres⟩
            intro k hk1 hk2
            by_cases hc : k < (lo + hi) / 2
            · exact hjmax k hk1 hc
            · exact hnn k (by omega) hk2
          · refine Or.inr ⟨?_, hres⟩
            intro k hk1 hk2
            by_cases hc : k < (lo + hi) / 2
            · exact hnone k hk1 hc
            · exact hnn k (by omega) hk2

/-! ## Iteration and the conversion routines -/

theorem listIterate_append {f : α → Nat → σ → σ × Int} :
    ∀ (l1 l2 : List α) (i : Nat) (s : σ),
      listIterate f (l1 ++ l2) i s =
        (if (listIterate f l1 i s).2 = 0
          then listIterate f l2 (i + l1.length) (listIterate f l1 i s).1
          else listIterate f l1 i s) := by
  intro l1
  induction l1 with
  | nil =>
      intro l2 i s
      simp [listIterate]
  | cons x xs ih =>
      intro l2 i s
      simp only [List.cons_append, listIterate]
      by_cases hc : (f x i s).2 = 0
      · rw [if_pos hc, if_pos hc]
        have hap : xs.append l2 = xs ++ l2 := rfl
        rw [hap, ih]
        have : i + (x :: xs).length = i + 1 + xs.length := by
          simp [List.length_cons]
          omega
        rw [this]
      · rw [if_neg hc, if_neg hc]
        rw [if_neg (by simpa using hc)]

theorem iterate_tree_go [Inhabited α] {f : α → Nat → σ → σ × Int} :
    ∀ (fuel : Nat) (b : bt α) (ns : List (omt_node α)) (root : Option Nat) (il : List Nat),
      Rep ns root b il → b.size < fuel →
      ∀ (i0 : Nat) (s : σ),
        iterate_tree f fuel ns root i0 s = listIterate f b.flatten i0 s := by
  intro fuel
  induction fuel with
  | zero =>
      intro b ns root il _ h0
      exact absurd h0 (by omega)
  | succ fuel ih =>
      intro b ns root il hrep hsz i0 s
      rcases hR : root with _ | i
      · rw [hR] at hrep
        cases hrep
        rfl
      · rw [hR] at hrep
        cases hrep with
        | node hi hw hl hr =>
        rename_i l r ill ilr
        have hlw : nweight ns (getNode ns i).left = l.size := hl.nweight_eq
        have hszn : l.size + r.size + 1 < fuel + 1 := by simpa [bt.size] using hsz
        have hlfl : l.flatten.length = l.size := bt.flatten_length l
        have hflat : (bt.node l (getNode ns i).value r).flatten =
            l.flatten ++ (getNode ns i).value :: r.flatten := rfl
        rw [hflat, listIterate_append]
        simp only [iterate_tree, hR]
        rw [ih l ns (getNode ns i).left ill hl (by omega) i0 s]
        by_cases hc : (listIterate f l.flatten i0 s).2 = 0
        · rw [if_neg (by simpa using hc), if_pos hc]
          simp only [listIterate, hlw, hlfl]
          by_cases hc2 : (f (getNode ns i).value (i0 + l.size) (listIterate f l.flatten i0 s).1).2 = 0
          · rw [if_pos hc2, if_neg (by simpa using hc2)]
            rw [ih r ns (getNode ns i).right ilr hr (by omega)]
          · rw [if_neg hc2, if_pos (by simpa using hc2)]
        · rw [if_pos (by simpa using hc), if_neg hc]

theorem map_getD_range {β : Type} {l : List β} (d : β) :
    (List.range l.length).map (fun j => l.getD j d) = l := by
  refine List.ext_getElem (by simp) (fun n h1 h2 => ?_)
  rw [List.getElem_map, List.getElem_range]
  rw [List.getD_eq_getElem?_getD, List.getElem?_eq_getElem h2]
  rfl

theorem liveList_length {a : omt_array α} (hinv : a.start_idx + a.num_values ≤ a.values.length) :
    (liveList a).length = a.num_values := by
  unfold liveList
  rw [List.length_take, List.length_drop]
  omega

theorem liveList_map [Inhabited α] {a : omt_array α}
    (hinv : a.start_idx + a.num_values ≤ a.values.length) :
    liveList a = (List.range a.num_values).map
      (fun k => a.values.getD (a.start_idx + k) default) := by
  refine List.ext_getElem ?_ (fun n h1 h2 => ?_)
  · rw [liveList_length hinv]
    simp
  · have hn : n < a.num_values := by
      have := liveList_length hinv
      omega
    rw [List.getElem_map, List.getElem_range]
    show (List.take a.num_values (List.drop a.start_idx a.values))[n] = _
    rw [List.getElem_take, List.getElem_drop]
    rw [List.getD_eq_getElem?_getD,
      List.getElem?_eq_getElem (show a.start_idx + n < a.values.length by omega)]
    rfl

theorem convert_to_tree_spec [Inhabited α] {a : omt_array α}
    (hinv : a.start_idx + a.num_values ≤ a.values.length) :
    TreeOK (convert_to_tree a) ∧
    subtreeList (convert_to_tree a).nodes (convert_to_tree a).nodes.length
      (convert_to_tree a).root = liveList a ∧
    nweight (convert_to_tree a).nodes (convert_to_tree a).root = a.num_values ∧
    (convert_to_tree a).nodes.length = max a.values.length a.num_values := by
  have hcnt : (liveList a).length = a.num_values := liveList_length hinv
  set vs := liveList a with hvs
  set cnt := vs.length with hcntdef
  set cap := max a.values.length cnt with hcap
  set ns0 : List (omt_node α) := (List.range cap).map (fun j =>
    ⟨0, if cnt ≤ j ∧ j + 1 < cap then some (j + 1) else none, none, vs.getD j default⟩)
    with hns0
  have hlen0 : ns0.length = cap := by
    rw [hns0, List.length_map, List.length_range]
  have hcntcap : cnt ≤ cap := by
    rw [hcap]
    exact le_max_right _ _
  have hget0 : ∀ j, j < cap → getNode ns0 j =
      ⟨0, if cnt ≤ j ∧ j + 1 < cap then some (j + 1) else none, none, vs.getD j default⟩ := by
    intro j hj
    rw [hns0]
    exact getD_map_range _ _ hj
  obtain ⟨b, hrep, hlen1, hfr1, hfl1⟩ := rebuild_spec cnt (List.range cnt) ns0
    (by rw [List.length_range]) (List.nodup_range cnt)
    (fun j hj => by rw [hlen0]; rw [List.mem_range] at hj; omega)
  have hflat : b.flatten = vs := by
    rw [hfl1]
    have : (List.range cnt).map (fun j => (getNode ns0 j).value) =
        (List.range cnt).map (fun j => vs.getD j default) := by
      refine List.map_congr_left (fun j hj => ?_)
      rw [List.mem_range] at hj
      rw [hget0 j (by omega)]
    rw [this, hcntdef, map_getD_range]
  have hsize : b.size = cnt := by
    rw [← bt.flatten_length, hflat]
  have hfree : FreeChain (rebuild_from_idxs ns0 cnt (List.range cnt)).1
      (if cnt < cap then some cnt else none)
      ((List.range (cap - cnt)).map (cnt + ·)) := by
    have hseg : FreeChain (rebuild_from_idxs ns0 cnt (List.range cnt)).1
        (if 0 < cap - cnt then some cnt else none)
        ((List.range (cap - cnt)).map (cnt + ·)) := by
      refine freeChain_seg _ (cap - cnt) cnt (by rw [hlen1, hlen0]; omega) (fun k hk => ?_)
      rw [hfr1 _ (by rw [List.mem_range]; omega), hget0 _ (by omega)]
      by_cases hc : k + 1 < cap - cnt
      · rw [if_pos (by omega : cnt ≤ cnt + k ∧ cnt + k + 1 < cap), if_pos hc]
      · rw [if_neg (by omega : ¬(cnt ≤ cnt + k ∧ cnt + k + 1 < cap)), if_neg hc]
    by_cases hc : cnt < cap
    · rw [if_pos hc]
      rw [if_pos (by omega)] at hseg
      exact hseg
    · rw [if_neg hc]
      rw [if_neg (by omega)] at hseg
      exact hseg
  refine ⟨⟨b, List.range cnt, (List.range (cap - cnt)).map (cnt + ·), hrep, hfree, ?_, ?_⟩,
    ?_, ?_, ?_⟩
  · rw [List.nodup_append]
    refine ⟨List.nodup_range _, (List.nodup_range _).map (fun x y hxy => by omega), ?_⟩
    intro j hj hmem
    rw [List.mem_range] at hj
    rcases List.mem_map.1 hmem with ⟨k, hk, rfl⟩
    omega
  · intro j hj
    show j ∈ List.range cnt ∨ _
    have hj2 : j < (rebuild_from_idxs ns0 cnt (List.range cnt)).1.length := hj
    rw [hlen1, hlen0] at hj2
    by_cases hc : j < cnt
    · exact Or.inl (List.mem_range.2 hc)
    · refine Or.inr (List.mem_map.2 ⟨j - cnt, List.mem_range.2 (by omega), by omega⟩)
  · show subtreeList (rebuild_from_idxs ns0 cnt (List.range cnt)).1
      (rebuild_from_idxs ns0 cnt (List.range cnt)).1.length
      (rebuild_from_idxs ns0 cnt (List.range cnt)).2 = vs
    rw [← hflat]
    refine subtreeList_eq hrep _ ?_
    rw [hsize, hlen1, hlen0]
    omega
  · show nweight (rebuild_from_idxs ns0 cnt (List.range cnt)).1
      (rebuild_from_idxs ns0 cnt (List.range cnt)).2 = a.num_values
    rw [hrep.nweight_eq, hsize]
    exact hcnt
  · show (rebuild_from_idxs ns0 cnt (List.range cnt)).1.length = _
    rw [hlen1, hlen0, hcap, hcnt]

theorem convert_to_array_spec [Inhabited α] {t : omt_tree α} (hok : TreeOK t) :
    (convert_to_array t).start_idx + (convert_to_array t).num_values ≤
      (convert_to_array t).values.length ∧
    liveList (convert_to_array t) = subtreeList t.nodes t.nodes.length t.root ∧
    (convert_to_array t).num_values = nweight t.nodes t.root := by
  obtain ⟨b, il, fl, hrep, hfc, hnd, hcov⟩ := hok
  have hsub : subtreeList t.nodes t.nodes.length t.root = b.flatten := by
    refine subtreeList_eq hrep _ ?_
    rw [hrep.size_eq]
    exact nodup_length_le ((List.sublist_append_left il fl).nodup hnd) hrep.mem_lt
  constructor
  · show 0 + (subtreeList t.nodes t.nodes.length t.root).length ≤ _
    simp [convert_to_array, List.length_append, List.length_replicate]
  constructor
  · show ((convert_to_array t).values.drop 0).take _ = _
    simp only [convert_to_array, List.drop_zero]
    exact List.take_left _ _
  · show (subtreeList t.nodes t.nodes.length t.root).length = nweight t.nodes t.root
    rw [hsub, hrep.nweight_eq, ← bt.flatten_length]

theorem maybe_resize_array_spec [Inhabited α] {a : omt_array α} {needed : Nat}
    (hinv : a.start_idx + a.num_values ≤ a.values.length) :
    (maybe_resize_array a needed).start_idx + (maybe_resize_array a needed).num_values ≤
      (maybe_resize_array a needed).values.length ∧
    liveList (maybe_resize_array a needed) = liveList a ∧
    (maybe_resize_array a needed).num_values = a.num_values := by
  unfold maybe_resize_array
  by_cases hc : needed ≤ a.values.length - a.num_values
  · rw [if_pos hc]
    exact ⟨hinv, rfl, rfl⟩
  · rw [if_neg hc]
    have hlive : (liveList a).length = a.num_values := liveList_length hinv
    refine ⟨?_, ?_, rfl⟩
    · show 0 + a.num_values ≤ _
      rw [List.length_append, hlive, List.length_replicate]
      omega
    · show ((liveList a ++ _).drop 0).take a.num_values = _
      rw [List.drop_zero, ← hlive]
      exact List.take_left _ _

theorem StepOK.out [Inhabited α] {t t2 : omt_tree α} {il fl : List Nat} {res : List α}
    (h : StepOK t t2 il fl res) (hcov : ∀ j, j < t.nodes.length → j ∈ il ∨ j ∈ fl) :
    TreeOK t2 ∧ subtreeList t2.nodes t2.nodes.length t2.root = res ∧
    nweight t2.nodes t2.root = res.length := by
  obtain ⟨b2, il2, fl2, hrep, hfc, hnd, hfl, hlen, hacc, hfr⟩ := h
  have hsz : b2.size ≤ t2.nodes.length :=
    (hrep.size_eq) ▸ nodup_length_le ((List.sublist_append_left il2 fl2).nodup hnd) hrep.mem_lt
  refine ⟨⟨b2, il2, fl2, hrep, hfc, hnd, ?_⟩, ?_, ?_⟩
  · intro j hj
    by_cases hc : j < t.nodes.length
    · rcases hcov j hc with h2 | h2
      · exact (hacc j).2 (Or.inl h2)
      · exact (hacc j).2 (Or.inr (Or.inl h2))
    · exact (hacc j).2 (Or.inr (Or.inr ⟨by omega, hj⟩))
  · rw [← hfl]
    exact subtreeList_eq hrep _ hsz
  · rw [hrep.nweight_eq, ← hfl, bt.flatten_length]

/-! ## Facts about the array form slices -/

theorem omt_size_eq [Inhabited α] {o : omt α} (hinv : Inv o) : o.size = (seqOf o).length := by
  match o with
  | ⟨.array a⟩ =>
      show a.num_values = (liveList a).length
      exact (liveList_length hinv).symm
  | ⟨.tree t⟩ =>
      obtain ⟨b, il, fl, hrep, hfc, hnd, hcov⟩ := hinv
      show nweight t.nodes t.root = (subtreeList t.nodes t.nodes.length t.root).length
      rw [subtreeList_eq hrep _ (by
        rw [hrep.size_eq]
        exact nodup_length_le ((List.sublist_append_left il fl).nodup hnd) hrep.mem_lt)]
      rw [hrep.nweight_eq, bt.flatten_length]

theorem insertList_zero (l : List α) (v : α) : insertList l v 0 = v :: l := by
  simp [insertList]

theorem insertList_length_self (l : List α) (v : α) : insertList l v l.length = l ++ [v] := by
  simp [insertList]

theorem deleteList_zero (l : List α) : deleteList l 0 = l.drop 1 := by
  simp [deleteList]

theorem deleteList_last (l : List α) : deleteList l (l.length - 1) = l.take (l.length - 1) := by
  rcases Nat.eq_zero_or_pos l.length with hc | hc
  · rw [List.length_eq_zero.1 hc]
    rfl
  · show l.take (l.length - 1) ++ l.drop (l.length - 1 + 1) = _
    rw [show l.length - 1 + 1 = l.length by omega, List.drop_length, List.append_nil]

theorem list_ext_getD {β : Type} {l l2 : List β} (d : β) (hlen : l.length = l2.length)
    (h : ∀ n, n < l.length → l.getD n d = l2.getD n d) : l = l2 := by
  refine List.ext_getElem hlen (fun n h1 h2 => ?_)
  have h3 := h n h1
  rw [List.getD_eq_getElem?_getD, List.getElem?_eq_getElem h1,
    List.getD_eq_getElem?_getD, List.getElem?_eq_getElem h2] at h3
  simpa using h3

theorem getD_set_self {β : Type} {l : List β} {i : Nat} {v d : β} (h : i < l.length) :
    (l.set i v).getD i d = v := by
  simp [List.getD_eq_getElem?_getD, List.getElem?_set_self, h]

theorem getD_set_ne {β : Type} {l : List β} {i n : Nat} (h : i ≠ n) (v d : β) :
    (l.set i v).getD n d = l.getD n d := by
  simp [List.getD_eq_getElem?_getD, List.getElem?_set_ne h]

theorem getD_take {β : Type} {l : List β} {m n : Nat} {d : β} (hn : n < m)
    (hl : n < l.length) : (l.take m).getD n d = l.getD n d := by
  have h1 : n < (l.take m).length := by
    rw [List.length_take]
    omega
  rw [List.getD_eq_getElem?_getD, List.getElem?_eq_getElem h1,
    List.getD_eq_getElem?_getD, List.getElem?_eq_getElem hl]
  rw [List.getElem_take]

theorem getD_drop {β : Type} {l : List β} {m n : Nat} {d : β} (h : m + n < l.length) :
    (l.drop m).getD n d = l.getD (m + n) d := by
  have h1 : n < (l.drop m).length := by
    rw [List.length_drop]
    omega
  rw [List.getD_eq_getElem?_getD, List.getElem?_eq_getElem h1,
    List.getD_eq_getElem?_getD, List.getElem?_eq_getElem h]
  rw [List.getElem_drop]

theorem liveList_getD [Inhabited α] {a : omt_array α} {n : Nat} (d : α)
    (hinv : a.start_idx + a.num_values ≤ a.values.length) (hn : n < a.num_values) :
    (liveList a).getD n d = a.values.getD (a.start_idx + n) d := by
  show ((a.values.drop a.start_idx).take a.num_values).getD n d = _
  rw [getD_take hn (by rw [List.length_drop]; omega), getD_drop (by omega)]

theorem liveList_set_front [Inhabited α] {a : omt_array α} (v : α)
    (hinv : a.start_idx + a.num_values ≤ a.values.length) (hs : 0 < a.start_idx) :
    liveList ⟨a.start_idx - 1, a.num_values + 1, a.values.set (a.start_idx - 1) v⟩ =
      v :: liveList a := by
  have hlen : (liveList a).length = a.num_values := liveList_length hinv
  have hinv2 : a.start_idx - 1 + (a.num_values + 1) ≤ (a.values.set (a.start_idx - 1) v).length := by
    rw [List.length_set]
    omega
  refine list_ext_getD default ?_ (fun n hn => ?_)
  · rw [liveList_length (a := ⟨a.start_idx - 1, a.num_values + 1,
      a.values.set (a.start_idx - 1) v⟩) hinv2, List.length_cons, hlen]
  · have hn2 : n < a.num_values + 1 := by
      rw [liveList_length (a := ⟨a.start_idx - 1, a.num_values + 1,
        a.values.set (a.start_idx - 1) v⟩) hinv2] at hn
      exact hn
    have hL : (liveList ⟨a.start_idx - 1, a.num_values + 1,
        a.values.set (a.start_idx - 1) v⟩).getD n default =
        (a.values.set (a.start_idx - 1) v).getD (a.start_idx - 1 + n) default :=
      liveList_getD (a := ⟨a.start_idx - 1, a.num_values + 1,
        a.values.set (a.start_idx - 1) v⟩) default hinv2 hn2
    rw [hL]
    rcases n with _ | m
    · rw [Nat.add_zero, getD_set_self (by omega), List.getD_cons_zero]
    · rw [List.getD_cons_succ, getD_set_ne (by omega) v default]
      rw [show a.start_idx - 1 + (m + 1) = a.start_idx + m by omega]
      rw [liveList_getD default hinv (by omega)]

theorem liveList_set_back [Inhabited α] {a : omt_array α} (v : α)
    (hinv : a.start_idx + a.num_values ≤ a.values.length)
    (hroom : a.start_idx + a.num_values < a.values.length) :
    liveList ⟨a.start_idx, a.num_values + 1, a.values.set (a.start_idx + a.num_values) v⟩ =
      liveList a ++ [v] := by
  have hlen : (liveList a).length = a.num_values := liveList_length hinv
  have hinv2 : a.start_idx + (a.num_values + 1) ≤ (a.values.set (a.start_idx + a.num_values) v).length := by
    rw [List.length_set]
    omega
  refine list_ext_getD default ?_ (fun n hn => ?_)
  · rw [liveList_length (a := ⟨a.start_idx, a.num_values + 1,
      a.values.set (a.start_idx + a.num_values) v⟩) hinv2, List.length_append, hlen]
    rfl
  · have hn2 : n < a.num_values + 1 := by
      rw [liveList_length (a := ⟨a.start_idx, a.num_values + 1,
        a.values.set (a.start_idx + a.num_values) v⟩) hinv2] at hn
      exact hn
    have hL : (liveList ⟨a.start_idx, a.num_values + 1,
        a.values.set (a.start_idx + a.num_values) v⟩).getD n default =
        (a.values.set (a.start_idx + a.num_values) v).getD (a.start_idx + n) default :=
      liveList_getD (a := ⟨a.start_idx, a.num_values + 1,
        a.values.set (a.start_idx + a.num_values) v⟩) default hinv2 hn2
    rw [hL]
    by_cases hc : n < a.num_values
    · rw [getD_set_ne (by omega) v default, List.getD_append _ _ _ _ (by omega)]
      rw [liveList_getD default hinv hc]
    · have hn3 : n = a.num_values := by omega
      subst hn3
      rw [getD_set_self (by omega), List.getD_append_right _ _ _ _ (by omega)]
      rw [hlen, Nat.sub_self, List.getD_cons_zero]

theorem liveList_drop_last [Inhabited α] {a : omt_array α}
    (hinv : a.start_idx + a.num_values ≤ a.values.length) :
    liveList ⟨a.start_idx, a.num_values - 1, a.values⟩ =
      (liveList a).take (a.num_values - 1) := by
  show List.take (a.num_values - 1) (List.drop a.start_idx a.values) = _
  rw [liveList, List.take_take]
  congr 1
  omega

theorem liveList_drop_first [Inhabited α] {a : omt_array α}
    (hinv : a.start_idx + a.num_values ≤ a.values.length) :
    liveList ⟨a.start_idx + 1, a.num_values - 1, a.values⟩ = (liveList a).drop 1 := by
  show List.take (a.num_values - 1) (List.drop (a.start_idx + 1) a.values) = _
  rw [liveList, List.drop_take, List.drop_drop]

theorem liveList_set_mid [Inhabited α] {a : omt_array α} (v : α) {idx : Nat}
    (hinv : a.start_idx + a.num_values ≤ a.values.length) (hidx : idx < a.num_values) :
    liveList ⟨a.start_idx, a.num_values, a.values.set (a.start_idx + idx) v⟩ =
      (liveList a).set idx v := by
  have hlen : (liveList a).length = a.num_values := liveList_length hinv
  have hinv2 : a.start_idx + a.num_values ≤ (a.values.set (a.start_idx + idx) v).length := by
    rw [List.length_set]
    omega
  refine list_ext_getD default ?_ (fun n hn => ?_)
  · rw [liveList_length (a := ⟨a.start_idx, a.num_values,
      a.values.set (a.start_idx + idx) v⟩) hinv2, List.length_set, hlen]
  · have hn2 : n < a.num_values := by
      rw [liveList_length (a := ⟨a.start_idx, a.num_values,
        a.values.set (a.start_idx + idx) v⟩) hinv2] at hn
      exact hn
    have hL : (liveList ⟨a.start_idx, a.num_values,
        a.values.set (a.start_idx + idx) v⟩).getD n default =
        (a.values.set (a.start_idx + idx) v).getD (a.start_idx + n) default :=
      liveList_getD (a := ⟨a.start_idx, a.num_values,
        a.values.set (a.start_idx + idx) v⟩) default hinv2 hn2
    rw [hL]
    by_cases hc : n = idx
    · subst hc
      rw [getD_set_self (by omega), getD_set_self (by omega)]
    · rw [getD_set_ne (by omega) v default, getD_set_ne (by omega) v default]
      rw [liveList_getD default hinv hn2]

/-! ## Wrappers of the internal mutation lemmas at the TreeOK level -/

theorem liveList_take [Inhabited α] {a : omt_array α} {k : Nat} (hk : k ≤ a.num_values) :
    liveList ⟨a.start_idx, k, a.values⟩ = (liveList a).take k := by
  show List.take k (List.drop a.start_idx a.values) = _
  rw [liveList, List.take_take]
  congr 1
  omega

theorem seq_create_sorted [Inhabited α] (vs : List α) :
    seqOf (omt.create_from_sorted_array vs) = vs := by
  show (vs.drop 0).take vs.length = vs
  rw [List.drop_zero, List.take_length]

theorem inv_create_sorted [Inhabited α] (vs : List α) :
    Inv (omt.create_from_sorted_array vs) := by
  show 0 + vs.length ≤ vs.length
  omega

theorem treeOK_flatten [Inhabited α] {t : omt_tree α} {b : bt α} {il fl : List Nat}
    (hrep : Rep t.nodes t.root b il) (hfc : FreeChain t.nodes t.free_idx fl)
    (hnd : (il ++ fl).Nodup) :
    b.size ≤ t.nodes.length ∧ b.flatten = subtreeList t.nodes t.nodes.length t.root ∧
    nweight t.nodes t.root = b.size := by
  have hsz : b.size ≤ t.nodes.length := by
    rw [hrep.size_eq]
    exact nodup_length_le ((List.sublist_append_left il fl).nodup hnd) hrep.mem_lt
  exact ⟨hsz, (subtreeList_eq hrep _ hsz).symm, hrep.nweight_eq⟩

theorem tree_insert_ok [Inhabited α] {t : omt_tree α} (hok : TreeOK t) (value : α) {idx : Nat}
    (hidx : idx ≤ nweight t.nodes t.root) :
    TreeOK (insert_help value (t.nodes.length + 1) t idx true) ∧
    subtreeList (insert_help value (t.nodes.length + 1) t idx true).nodes
        (insert_help value (t.nodes.length + 1) t idx true).nodes.length
        (insert_help value (t.nodes.length + 1) t idx true).root =
      insertList (subtreeList t.nodes t.nodes.length t.root) value idx ∧
    nweight (insert_help value (t.nodes.length + 1) t idx true).nodes
        (insert_help value (t.nodes.length + 1) t idx true).root =
      (subtreeList t.nodes t.nodes.length t.root).length + 1 := by
  obtain ⟨b, il, fl, hrep, hfc, hnd, hcov⟩ := hok
  obtain ⟨hsz, hfl, hnw⟩ := treeOK_flatten hrep hfc hnd
  have hstep := insert_help_go value (t.nodes.length + 1) b t il fl idx true hrep hfc hnd
    (by rw [hnw] at hidx; exact hidx) (by omega)
  obtain ⟨hok2, hsub2, hnw2⟩ := hstep.out hcov
  refine ⟨hok2, by rw [hsub2, hfl], ?_⟩
  rw [hnw2, insertList_length, ← hfl]

theorem tree_delete_ok [Inhabited α] {t : omt_tree α} (hok : TreeOK t) {idx : Nat}
    (hidx : idx < nweight t.nodes t.root) :
    TreeOK (delete_help (t.nodes.length + 1) t idx true).1 ∧
    subtreeList (delete_help (t.nodes.length + 1) t idx true).1.nodes
        (delete_help (t.nodes.length + 1) t idx true).1.nodes.length
        (delete_help (t.nodes.length + 1) t idx true).1.root =
      deleteList (subtreeList t.nodes t.nodes.length t.root) idx ∧
    nweight (delete_help (t.nodes.length + 1) t idx true).1.nodes
        (delete_help (t.nodes.length + 1) t idx true).1.root =
      (subtreeList t.nodes t.nodes.length t.root).length - 1 := by
  obtain ⟨b, il, fl, hrep, hfc, hnd, hcov⟩ := hok
  obtain ⟨hsz, hfl, hnw⟩ := treeOK_flatten hrep hfc hnd
  have hstep := delete_help_go (t.nodes.length + 1) b t il fl idx true hrep hfc hnd
    (by rw [hnw] at hidx; exact hidx) (by omega)
  obtain ⟨hok2, hsub2, hnw2⟩ := hstep.1.out hcov
  refine ⟨hok2, by rw [hsub2, hfl], ?_⟩
  rw [hnw2, deleteList_length, ← hfl]
  rw [bt.flatten_length]
  omega

/-! ## Contracts of the public operations -/

theorem insert_at_spec [Inhabited α] {o : omt α} (hinv : Inv o) (v : α) (idx : Nat) :
    (o.size < idx → o.insert_at v idx = (.INVALID_ARGUMENT, o)) ∧
    (idx ≤ o.size →
      (o.insert_at v idx).1 = .ok ∧ Inv (o.insert_at v idx).2 ∧
      seqOf (o.insert_at v idx).2 = insertList (seqOf o) v idx) := by
  constructor
  · intro hlt
    rw [omt.insert_at, if_pos hlt]
  · intro hle
    obtain ⟨d⟩ := o
    cases d with
    | array a =>
        have hA : a.start_idx + a.num_values ≤ a.values.length := hinv
        have hle2 : idx ≤ a.num_values := hle
        have hre : (maybe_resize_array a 1).start_idx + (maybe_resize_array a 1).num_values ≤
            (maybe_resize_array a 1).values.length ∧
            liveList (maybe_resize_array a 1) = liveList a ∧
            (maybe_resize_array a 1).num_values = a.num_values := maybe_resize_array_spec hA
        simp only [omt.insert_at, maybe_resize_or_convert]
        rw [if_neg (show ¬ (omt.size ⟨.array a⟩ < idx) from by
          show ¬ (a.num_values < idx)
          omega)]
        by_cases hb1 : idx = 0 ∧ 0 < (maybe_resize_array a 1).start_idx
        · rw [if_pos hb1]
          refine ⟨rfl, ?_, ?_⟩
          · show (maybe_resize_array a 1).start_idx - 1 + ((maybe_resize_array a 1).num_values + 1) ≤
              ((maybe_resize_array a 1).values.set ((maybe_resize_array a 1).start_idx - 1) v).length
            rw [List.length_set]
            omega
          · show liveList ⟨(maybe_resize_array a 1).start_idx - 1,
              (maybe_resize_array a 1).num_values + 1,
              (maybe_resize_array a 1).values.set ((maybe_resize_array a 1).start_idx - 1) v⟩ =
              insertList (liveList a) v idx
            rw [hb1.1, insertList_zero, liveList_set_front v hre.1 hb1.2, hre.2.1]
        · rw [if_neg hb1]
          by_cases hb2 : idx = (maybe_resize_array a 1).num_values ∧
              (maybe_resize_array a 1).start_idx + (maybe_resize_array a 1).num_values <
                (maybe_resize_array a 1).values.length
          · rw [if_pos hb2]
            refine ⟨rfl, ?_, ?_⟩
            · show (maybe_resize_array a 1).start_idx + ((maybe_resize_array a 1).num_values + 1) ≤
                ((maybe_resize_array a 1).values.set
                  ((maybe_resize_array a 1).start_idx + (maybe_resize_array a 1).num_values) v).length
              rw [List.length_set]
              omega
            · show liveList ⟨(maybe_resize_array a 1).start_idx,
                (maybe_resize_array a 1).num_values + 1,
                (maybe_resize_array a 1).values.set
                  ((maybe_resize_array a 1).start_idx + (maybe_resize_array a 1).num_values) v⟩ =
                insertList (liveList a) v idx
              have hr : insertList (liveList a) v idx = liveList a ++ [v] := by
                rw [hb2.1, hre.2.2, ← liveList_length hA, insertList_length_self]
              rw [hr, liveList_set_back v hre.1 hb2.2, hre.2.1]
          · rw [if_neg hb2]
            obtain ⟨hokT, hsubT, hnwT, _⟩ := convert_to_tree_spec hre.1
            have hidxT : idx ≤ nweight (convert_to_tree (maybe_resize_array a 1)).nodes
                (convert_to_tree (maybe_resize_array a 1)).root := by
              rw [hnwT, hre.2.2]
              exact hle2
            obtain ⟨hok2, hsub2, hnw2⟩ := tree_insert_ok hokT v hidxT
            refine ⟨rfl, hok2, ?_⟩
            show subtreeList _ _ _ = insertList (liveList a) v idx
            rw [hsub2, hsubT, hre.2.1]
    | tree t =>
        have hok : TreeOK t := hinv
        have hle2 : idx ≤ nweight t.nodes t.root := hle
        simp only [omt.insert_at, maybe_resize_or_convert]
        rw [if_neg (show ¬ (omt.size ⟨.tree t⟩ < idx) from by
          show ¬ (nweight t.nodes t.root < idx)
          omega)]
        obtain ⟨hok2, hsub2, hnw2⟩ := tree_insert_ok hok v hle2
        exact ⟨rfl, hok2, hsub2⟩

theorem delete_at_spec [Inhabited α] {o : omt α} (hinv : Inv o) (idx : Nat) :
    (o.size ≤ idx → o.delete_at idx = (.INVALID_ARGUMENT, o)) ∧
    (idx < o.size →
      (o.delete_at idx).1 = .ok ∧ Inv (o.delete_at idx).2 ∧
      seqOf (o.delete_at idx).2 = deleteList (seqOf o) idx) := by
  constructor
  · intro hlt
    rw [omt.delete_at, if_pos hlt]
  · intro hlt
    obtain ⟨d⟩ := o
    cases d with
    | array a =>
        have hA : a.start_idx + a.num_values ≤ a.values.length := hinv
        have hlt2 : idx < a.num_values := hlt
        have hlen : (liveList a).length = a.num_values := liveList_length hA
        simp only [omt.delete_at]
        rw [if_neg (show ¬ (omt.size ⟨.array a⟩ ≤ idx) from by
          show ¬ (a.num_values ≤ idx)
          omega)]
        by_cases hb1 : idx = a.num_values - 1
        · rw [if_pos hb1]
          refine ⟨rfl, ?_, ?_⟩
          · show a.start_idx + (a.num_values - 1) ≤ a.values.length
            omega
          · show liveList ⟨a.start_idx, a.num_values - 1, a.values⟩ =
              deleteList (liveList a) idx
            have hr : deleteList (liveList a) idx = (liveList a).take (a.num_values - 1) := by
              rw [hb1, ← hlen, deleteList_last, hlen]
            rw [hr, liveList_drop_last hA]
        · rw [if_neg hb1]
          by_cases hb2 : idx = 0
          · rw [if_pos hb2]
            refine ⟨rfl, ?_, ?_⟩
            · show a.start_idx + 1 + (a.num_values - 1) ≤ a.values.length
              omega
            · show liveList ⟨a.start_idx + 1, a.num_values - 1, a.values⟩ =
                deleteList (liveList a) idx
              rw [hb2, deleteList_zero, liveList_drop_first hA]
          · rw [if_neg hb2]
            obtain ⟨hokT, hsubT, hnwT, _⟩ := convert_to_tree_spec hA
            have hidxT : idx < nweight (convert_to_tree a).nodes (convert_to_tree a).root := by
              rw [hnwT]
              exact hlt2
            obtain ⟨hok2, hsub2, hnw2⟩ := tree_delete_ok hokT hidxT
            refine ⟨rfl, hok2, ?_⟩
            show subtreeList _ _ _ = deleteList (liveList a) idx
            rw [hsub2, hsubT]
    | tree t =>
        have hok : TreeOK t := hinv
        have hlt2 : idx < nweight t.nodes t.root := hlt
        simp only [omt.delete_at]
        rw [if_neg (show ¬ (omt.size ⟨.tree t⟩ ≤ idx) from by
          show ¬ (nweight t.nodes t.root ≤ idx)
          omega)]
        obtain ⟨hok2, hsub2, hnw2⟩ := tree_delete_ok hok hlt2
        exact ⟨rfl, hok2, hsub2⟩

theorem set_at_spec [Inhabited α] {o : omt α} (hinv : Inv o) (v : α) (idx : Nat) :
    (o.size ≤ idx → o.set_at v idx = (.INVALID_ARGUMENT, o)) ∧
    (idx < o.size →
      (o.set_at v idx).1 = .ok ∧ Inv (o.set_at v idx).2 ∧
      seqOf (o.set_at v idx).2 = (seqOf o).set idx v) := by
  constructor
  · intro hlt
    rw [omt.set_at, if_pos hlt]
  · intro hlt
    obtain ⟨d⟩ := o
    cases d with
    | array a =>
        have hA : a.start_idx + a.num_values ≤ a.values.length := hinv
        have hlt2 : idx < a.num_values := hlt
        simp only [omt.set_at]
        rw [if_neg (show ¬ (omt.size ⟨.array a⟩ ≤ idx) from by
          show ¬ (a.num_values ≤ idx)
          omega)]
        refine ⟨rfl, ?_, ?_⟩
        · show a.start_idx + a.num_values ≤ (a.values.set (a.start_idx + idx) v).length
          rw [List.length_set]
          exact hA
        · show liveList ⟨a.start_idx, a.num_values, a.values.set (a.start_idx + idx) v⟩ =
            (liveList a).set idx v
          exact liveList_set_mid v hA hlt2
    | tree t =>
        have hok : TreeOK t := hinv
        have hlt2 : idx < nweight t.nodes t.root := hlt
        simp only [omt.set_at]
        rw [if_neg (show ¬ (omt.size ⟨.tree t⟩ ≤ idx) from by
          show ¬ (nweight t.nodes t.root ≤ idx)
          omega)]
        obtain ⟨b, il, fl, hrep, hfc, hnd, hcov⟩ := hok
        obtain ⟨hsz, hfl, hnw⟩ := treeOK_flatten hrep hfc hnd
        obtain ⟨b2, hrep2, hfl2, hlen2, hfr2⟩ := set_help_go v (t.nodes.length + 1) b t.nodes
          t.root il idx hrep ((List.sublist_append_left il fl).nodup hnd)
          (by omega) (by omega)
        have hfc2 : FreeChain (set_help v (t.nodes.length + 1) t.nodes t.root idx) t.free_idx fl := by
          refine hfc.chain_stable (by omega) (fun j hj => hfr2 j ?_)
          have hd := (List.nodup_append.1 hnd).2.2
          exact fun hj2 => hd hj2 hj
        refine ⟨rfl, ⟨b2, il, fl, hrep2, hfc2, hnd, fun j hj => ?_⟩, ?_⟩
        · rw [hlen2] at hj
          exact hcov j hj
        · show subtreeList _ _ _ = _
          have hsz2 : b2.size ≤ (set_help v (t.nodes.length + 1) t.nodes t.root idx).length := by
            rw [hlen2, ← bt.flatten_length, hfl2, List.length_set, bt.flatten_length]
            exact hsz
          rw [subtreeList_eq hrep2 _ hsz2, hfl2, hfl]
          rfl

theorem fetch_spec [Inhabited α] {o : omt α} (hinv : Inv o) (idx : Nat) :
    (o.size ≤ idx → o.fetch idx = (.INVALID_ARGUMENT, none)) ∧
    (idx < o.size → o.fetch idx = (.ok, some ((seqOf o).getD idx default))) := by
  constructor
  · intro hlt
    rw [omt.fetch, if_pos hlt]
  · intro hlt
    obtain ⟨d⟩ := o
    cases d with
    | array a =>
        have hA : a.start_idx + a.num_values ≤ a.values.length := hinv
        have hlt2 : idx < a.num_values := hlt
        simp only [omt.fetch]
        rw [if_neg (show ¬ (omt.size ⟨.array a⟩ ≤ idx) from by
          show ¬ (a.num_values ≤ idx)
          omega)]
        rw [show (seqOf ⟨.array a⟩).getD idx default = a.values.getD (a.start_idx + idx) default from
          liveList_getD default hA hlt2]
    | tree t =>
        have hok : TreeOK t := hinv
        have hlt2 : idx < nweight t.nodes t.root := hlt
        simp only [omt.fetch]
        rw [if_neg (show ¬ (omt.size ⟨.tree t⟩ ≤ idx) from by
          show ¬ (nweight t.nodes t.root ≤ idx)
          omega)]
        obtain ⟨b, il, fl, hrep, hfc, hnd, hcov⟩ := hok
        obtain ⟨hsz, hfl, hnw⟩ := treeOK_flatten hrep hfc hnd
        rw [fetch_help_go (t.nodes.length + 1) b t.nodes t.root il idx hrep (by omega) (by omega)]
        rw [hfl]
        rfl

theorem find_zero_spec [Inhabited α] {o : omt α} (hinv : Inv o) (h : α → Int)
    (hm : MonoSign h (seqOf o)) :
    (∃ j, j < (seqOf o).length ∧ h ((seqOf o).getD j default) = 0 ∧
      (∀ k, k < j → h ((seqOf o).getD k default) ≠ 0) ∧
      o.find_zero h = (.ok, some ((seqOf o).getD j default), some j)) ∨
    ((∀ k, k < (seqOf o).length → h ((seqOf o).getD k default) ≠ 0) ∧
     ∃ j, j ≤ (seqOf o).length ∧
      (∀ k, k < j → h ((seqOf o).getD k default) < 0) ∧
      (∀ k, j ≤ k → k < (seqOf o).length → 0 < h ((seqOf o).getD k default)) ∧
      o.find_zero h = (.NOT_FOUND, none, some j)) := by
  obtain ⟨d⟩ := o
  cases d with
  | array a =>
      have hA : a.start_idx + a.num_values ≤ a.values.length := hinv
      have hlen : (liveList a).length = a.num_values := liveList_length hA
      have hm2 : MonoSign h (liveList a) := hm
      have hlen2 : (seqOf (⟨.array a⟩ : omt α)).length = a.num_values := hlen
      have hgo := find_zero_arr_go h (liveList a) hm2 (a.num_values + 1) 0 a.num_values
        (by omega) (by omega) (by omega)
      rcases hgo with ⟨j, _, hj, hz, hleast, heq⟩ | ⟨hno, j, _, hjle, hneg, hpos, heq⟩
      · exact Or.inl ⟨j, by omega, hz, fun k hk => hleast k (by omega) hk, heq⟩
      · exact Or.inr ⟨fun k hk => hno k (by omega) (by omega),
          j, by omega, fun k hk => hneg k (by omega) hk,
          fun k hk1 hk2 => hpos k hk1 (by omega), heq⟩
  | tree t =>
      obtain ⟨b, il, fl, hrep, hfc, hnd, hcov⟩ := (hinv : TreeOK t)
      obtain ⟨hsz, hfl, hnw⟩ := treeOK_flatten hrep hfc hnd
      have hseq : seqOf (⟨.tree t⟩ : omt α) = b.flatten := hfl.symm
      have hfz : (⟨.tree t⟩ : omt α).find_zero h =
          find_internal_zero h (t.nodes.length + 1) t.nodes t.root := rfl
      rw [hseq, hfz]
      exact find_zero_tree_go h (t.nodes.length + 1) b t.nodes t.root il hrep
        (by rw [← hseq]; exact hm) (by omega)

theorem find_spec [Inhabited α] {o : omt α} (hinv : Inv o) (h : α → Int) (direction : Int)
    (hm : MonoSign h (seqOf o)) :
    (direction = 0 → o.find h direction = (.INVALID_ARGUMENT, none, none)) ∧
    (0 < direction →
      (∃ j, j < (seqOf o).length ∧ 0 < h ((seqOf o).getD j default) ∧
        (∀ k, k < j → h ((seqOf o).getD k default) ≤ 0) ∧
        o.find h direction = (.ok, some ((seqOf o).getD j default), some j)) ∨
      ((∀ k, k < (seqOf o).length → h ((seqOf o).getD k default) ≤ 0) ∧
        o.find h direction = (.NOT_FOUND, none, none))) ∧
    (direction < 0 →
      (∃ j, j < (seqOf o).length ∧ h ((seqOf o).getD j default) < 0 ∧
        (∀ k, j < k → k < (seqOf o).length → 0 ≤ h ((seqOf o).getD k default)) ∧
        o.find h direction = (.ok, some ((seqOf o).getD j default), some j)) ∨
      ((∀ k, k < (seqOf o).length → 0 ≤ h ((seqOf o).getD k default)) ∧
        o.find h direction = (.NOT_FOUND, none, none))) := by
  refine ⟨fun hd => ?_, fun hd => ?_, fun hd => ?_⟩
  · rw [omt.find, if_pos hd]
  · rw [show o.find h direction = (if 0 < direction then _ else _) from by
      rw [omt.find, if_neg (by omega)], if_pos hd]
    obtain ⟨d⟩ := o
    cases d with
    | array a =>
        have hA : a.start_idx + a.num_values ≤ a.values.length := hinv
        have hlen : (liveList a).length = a.num_values := liveList_length hA
        have hm2 : MonoSign h (liveList a) := hm
        have hlen2 : (seqOf (⟨.array a⟩ : omt α)).length = a.num_values := hlen
        have hgo := find_plus_arr_go h (liveList a) hm2 (a.num_values + 1) 0 a.num_values
          (by omega) (by omega) (by omega)
        rcases hgo with ⟨j, _, hj, hz, hleast, heq⟩ | ⟨hno, heq⟩
        · exact Or.inl ⟨j, by omega, hz, fun k hk => hleast k (by omega) hk, heq⟩
        · exact Or.inr ⟨fun k hk => hno k (by omega) (by omega), heq⟩
    | tree t =>
        obtain ⟨b, il, fl, hrep, hfc, hnd, hcov⟩ := (hinv : TreeOK t)
        obtain ⟨hsz, hfl, hnw⟩ := treeOK_flatten hrep hfc hnd
        have hseq : seqOf (⟨.tree t⟩ : omt α) = b.flatten := hfl.symm
        rw [hseq]
        exact find_plus_tree_go h (t.nodes.length + 1) b t.nodes t.root il hrep
          (by rw [← hseq]; exact hm) (by omega)
  · rw [show o.find h direction = (if 0 < direction then _ else _) from by
      rw [omt.find, if_neg (by omega)], if_neg (by omega)]
    obtain ⟨d⟩ := o
    cases d with
    | array a =>
        have hA : a.start_idx + a.num_values ≤ a.values.length := hinv
        have hlen : (liveList a).length = a.num_values := liveList_length hA
        have hm2 : MonoSign h (liveList a) := hm
        have hlen2 : (seqOf (⟨.array a⟩ : omt α)).length = a.num_values := hlen
        have hgo := find_minus_arr_go h (liveList a) hm2 (a.num_values + 1) 0 a.num_values
          (by omega) (by omega) (by omega)
        rcases hgo with ⟨j, _, hj, hz, hgreat, heq⟩ | ⟨hno, heq⟩
        · exact Or.inl ⟨j, by omega, hz, fun k hk1 hk2 => hgreat k hk1 (by omega), heq⟩
        · exact Or.inr ⟨fun k hk => hno k (by omega) (by omega), heq⟩
    | tree t =>
        obtain ⟨b, il, fl, hrep, hfc, hnd, hcov⟩ := (hinv : TreeOK t)
        obtain ⟨hsz, hfl, hnw⟩ := treeOK_flatten hrep hfc hnd
        have hseq : seqOf (⟨.tree t⟩ : omt α) = b.flatten := hfl.symm
        rw [hseq]
        exact find_minus_tree_go h (t.nodes.length + 1) b t.nodes t.root il hrep
          (by rw [← hseq]; exact hm) (by omega)

theorem insert_cmp_spec [Inhabited α] {o : omt α} (hinv : Inv o) (v : α) (h : α → Int)
    (hm : MonoSign h (seqOf o)) :
    ((∃ k, k < (seqOf o).length ∧ h ((seqOf o).getD k default) = 0) →
      o.insert v h = (.KEY_EXISTS, o, none)) ∧
    ((∀ k, k < (seqOf o).length → h ((seqOf o).getD k default) ≠ 0) →
      ∃ j, j ≤ (seqOf o).length ∧
        (∀ k, k < j → h ((seqOf o).getD k default) < 0) ∧
        (∀ k, j ≤ k → k < (seqOf o).length → 0 < h ((seqOf o).getD k default)) ∧
        o.insert v h = (.ok, (o.insert_at v j).2, some j) ∧
        Inv (o.insert v h).2.1 ∧
        seqOf (o.insert v h).2.1 = insertList (seqOf o) v j) := by
  have hfz := find_zero_spec hinv h hm
  constructor
  · rintro ⟨k, hk, hzk⟩
    rcases hfz with ⟨j, hjl, hjz, hleast, heq⟩ | ⟨hno, _⟩
    · simp only [omt.insert]
      rw [heq]
      rfl
    · exact absurd hzk (hno k hk)
  · intro hno
    rcases hfz with ⟨j, hjl, hjz, _, _⟩ | ⟨_, j, hjle, hneg, hpos, heq⟩
    · exact absurd hjz (hno j hjl)
    · have hsz := omt_size_eq hinv
      have hins := (insert_at_spec hinv v j).2 (by omega)
      have hrun : o.insert v h = (.ok, (o.insert_at v j).2, some j) := by
        simp only [omt.insert]
        rw [heq]
        show (if (o.insert_at v j).1 = .ok then
            ((.ok, (o.insert_at v j).2, some j) : errcode × omt α × Option Nat)
          else ((o.insert_at v j).1, (o.insert_at v j).2, none)) =
          (.ok, (o.insert_at v j).2, some j)
        rw [if_pos hins.1]
      refine ⟨j, hjle, hneg, hpos, hrun, ?_, ?_⟩
      · rw [hrun]
        exact hins.2.1
      · rw [hrun]
        exact hins.2.2

theorem split_at_spec [Inhabited α] {o : omt α} (hinv : Inv o) (idx : Nat) :
    (o.size < idx → o.split_at idx = (.INVALID_ARGUMENT, o, none)) ∧
    (idx ≤ o.size →
      (o.split_at idx).1 = .ok ∧
      Inv (o.split_at idx).2.1 ∧ seqOf (o.split_at idx).2.1 = (seqOf o).take idx ∧
      ∃ r, (o.split_at idx).2.2 = some r ∧ Inv r ∧ seqOf r = (seqOf o).drop idx) := by
  constructor
  · intro hlt
    rw [omt.split_at, if_pos hlt]
  · intro hle
    obtain ⟨d⟩ := o
    cases d with
    | array a =>
        have hA : a.start_idx + a.num_values ≤ a.values.length := hinv
        have hle2 : idx ≤ a.num_values := hle
        simp only [omt.split_at]
        rw [if_neg (show ¬ (omt.size ⟨.array a⟩ < idx) from by
          show ¬ (a.num_values < idx)
          omega)]
        refine ⟨rfl, ?_, ?_, _, rfl, inv_create_sorted _, ?_⟩
        · show a.start_idx + idx ≤ a.values.length
          omega
        · show liveList ⟨a.start_idx, idx, a.values⟩ = (seqOf ⟨.array a⟩).take idx
          rw [liveList_take hle2]
          rfl
        · rw [seq_create_sorted]
          rfl
    | tree t =>
        obtain ⟨hA, hL, hN⟩ := convert_to_array_spec (hinv : TreeOK t)
        have hle2 : idx ≤ (convert_to_array t).num_values := by
          rw [hN]
          exact hle
        simp only [omt.split_at]
        rw [if_neg (show ¬ (omt.size ⟨.tree t⟩ < idx) from by
          show ¬ (nweight t.nodes t.root < idx)
          omega)]
        refine ⟨rfl, ?_, ?_, _, rfl, inv_create_sorted _, ?_⟩
        · show (convert_to_array t).start_idx + idx ≤ (convert_to_array t).values.length
          omega
        · show liveList ⟨(convert_to_array t).start_idx, idx, (convert_to_array t).values⟩ =
            (seqOf ⟨.tree t⟩).take idx
          rw [liveList_take hle2, hL]
          rfl
        · rw [seq_create_sorted, hL]
          rfl

theorem merge_spec [Inhabited α] (l r : omt α) :
    Inv (l.merge r) ∧ seqOf (l.merge r) = seqOf l ++ seqOf r :=
  ⟨inv_create_sorted _, seq_create_sorted _⟩

theorem clear_spec [Inhabited α] (o : omt α) :
    Inv o.clear ∧ seqOf o.clear = [] ∧ o.clear.size = 0 := by
  obtain ⟨d⟩ := o
  cases d with
  | array a =>
      refine ⟨?_, rfl, rfl⟩
      show 0 + 0 ≤ a.values.length
      omega
  | tree t =>
      refine ⟨?_, rfl, rfl⟩
      show 0 + 0 ≤ (List.replicate t.nodes.length (default : α)).length
      omega

theorem create_spec [Inhabited α] :
    Inv (omt.create : omt α) ∧ seqOf (omt.create : omt α) = [] := by
  refine ⟨?_, rfl⟩
  show 0 + 0 ≤ ([] : List α).length
  omega

theorem iterate_spec [Inhabited α] {o : omt α} (hinv : Inv o)
    (f : α → Nat → σ → σ × Int) (s : σ) :
    o.iterate f s = listIterate f (seqOf o) 0 s := by
  obtain ⟨d⟩ := o
  cases d with
  | array a => rfl
  | tree t =>
      obtain ⟨b, il, fl, hrep, hfc, hnd, hcov⟩ := (hinv : TreeOK t)
      obtain ⟨hsz, hfl, hnw⟩ := treeOK_flatten hrep hfc hnd
      show iterate_tree f (t.nodes.length + 1) t.nodes t.root 0 s = _
      rw [iterate_tree_go (t.nodes.length + 1) b t.nodes t.root il hrep (by omega) 0 s, hfl]
      rfl

/-! ## Invariant preservation and the reachable states -/

theorem inv_insert_at [Inhabited α] {o : omt α} (hinv : Inv o) (v : α) (i : Nat) :
    Inv (o.insert_at v i).2 := by
  by_cases hc : i ≤ o.size
  · exact ((insert_at_spec hinv v i).2 hc).2.1
  · rw [(insert_at_spec hinv v i).1 (by omega)]
    exact hinv

theorem inv_delete_at [Inhabited α] {o : omt α} (hinv : Inv o) (i : Nat) :
    Inv (o.delete_at i).2 := by
  by_cases hc : i < o.size
  · exact ((delete_at_spec hinv i).2 hc).2.1
  · rw [(delete_at_spec hinv i).1 (by omega)]
    exact hinv

theorem inv_set_at [Inhabited α] {o : omt α} (hinv : Inv o) (v : α) (i : Nat) :
    Inv (o.set_at v i).2 := by
  by_cases hc : i < o.size
  · exact ((set_at_spec hinv v i).2 hc).2.1
  · rw [(set_at_spec hinv v i).1 (by omega)]
    exact hinv

theorem inv_insert_cmp [Inhabited α] {o : omt α} (hinv : Inv o) (v : α) (h : α → Int) :
    Inv (o.insert v h).2.1 := by
  have hsplit : (o.insert v h).2.1 = o ∨
      ∃ ix, (o.insert v h).2.1 = (o.insert_at v ix).2 := by
    simp only [omt.insert]
    by_cases hc : (o.find_zero h).1 = .ok
    · rw [if_pos hc]
      exact Or.inl rfl
    · rw [if_neg hc]
      by_cases hc2 : (o.insert_at v ((o.find_zero h).2.2.getD 0)).1 = .ok
      · rw [if_pos hc2]
        exact Or.inr ⟨_, rfl⟩
      · rw [if_neg hc2]
        exact Or.inr ⟨_, rfl⟩
  rcases hsplit with he | ⟨ix, he⟩
  · rw [he]
    exact hinv
  · rw [he]
    exact inv_insert_at hinv v ix

theorem inv_split_prefix [Inhabited α] {o : omt α} (hinv : Inv o) (i : Nat) :
    Inv (o.split_at i).2.1 := by
  by_cases hc : i ≤ o.size
  · exact ((split_at_spec hinv i).2 hc).2.1
  · rw [(split_at_spec hinv i).1 (by omega)]
    exact hinv

theorem inv_split_suffix [Inhabited α] {o : omt α} (hinv : Inv o) (i : Nat) :
    Inv ((o.split_at i).2.2.getD omt.create) := by
  by_cases hc : i ≤ o.size
  · obtain ⟨r, hr, hrinv, _⟩ := ((split_at_spec hinv i).2 hc).2.2.2
    rw [hr]
    exact hrinv
  · rw [(split_at_spec hinv i).1 (by omega)]
    exact create_spec.1

/-- The states of the container reachable through the public
constructors and mutators. -/
inductive Reached [Inhabited α] : omt α → Prop where
  | create : Reached omt.create
  | fromSorted (vs : List α) : Reached (omt.create_from_sorted_array vs)
  | insertAt {o : omt α} (h : Reached o) (v : α) (i : Nat) : Reached (o.insert_at v i).2
  | insertCmp {o : omt α} (h : Reached o) (v : α) (f : α → Int) : Reached (o.insert v f).2.1
  | deleteAt {o : omt α} (h : Reached o) (i : Nat) : Reached (o.delete_at i).2
  | setAt {o : omt α} (h : Reached o) (v : α) (i : Nat) : Reached (o.set_at v i).2
  | clearOp {o : omt α} (h : Reached o) : Reached o.clear
  | splitL {o : omt α} (h : Reached o) (i : Nat) : Reached (o.split_at i).2.1
  | splitR {o : omt α} (h : Reached o) (i : Nat) :
      Reached ((o.split_at i).2.2.getD omt.create)
  | mergeOp {o1 o2 : omt α} (h1 : Reached o1) (h2 : Reached o2) : Reached (o1.merge o2)

theorem Reached.inv [Inhabited α] {o : omt α} (h : Reached o) : Inv o := by
  induction h with
  | create => exact create_spec.1
  | fromSorted vs => exact inv_create_sorted vs
  | insertAt h v i ih => exact inv_insert_at ih v i
  | insertCmp h v f ih => exact inv_insert_cmp ih v f
  | deleteAt h i ih => exact inv_delete_at ih i
  | setAt h v i ih => exact inv_set_at ih v i
  | clearOp h ih => exact (clear_spec _).1
  | splitL h i ih => exact inv_split_prefix ih i
  | splitR h i ih => exact inv_split_suffix ih i
  | mergeOp h1 h2 ih1 ih2 => exact (merge_spec _ _).1

/-! ## The weight and the slot accounting invariants, stated over the
concrete pool -/

theorem Rep.weights [Inhabited α] {ns : List (omt_node α)} {r : Option Nat}
    {b : bt α} {il : List Nat} (h : Rep ns r b il) :
    ∀ i ∈ il, (getNode ns i).weight =
      nweight ns (getNode ns i).left + nweight ns (getNode ns i).right + 1 := by
  induction h with
  | leaf => intro i hi; cases hi
  | @node i l r il ir hi hw hl hr ihl ihr =>
      intro j hj
      rcases List.mem_append.1 hj with hj | hj
      · exact ihl j hj
      · rcases List.mem_cons.1 hj with rfl | hj
        · rw [hw, hl.nweight_eq, hr.nweight_eq]
        · exact ihr j hj

/-- The slots of the free list read off the pool by chasing the left
fields, with explicit fuel. -/
def freeSlots [Inhabited α] : Nat → List (omt_node α) → Option Nat → List Nat
  | 0, _, _ => []
  | _ + 1, _, none => []
  | fuel + 1, ns, some i => i :: freeSlots fuel ns (getNode ns i).left

theorem freeSlots_eq [Inhabited α] {ns : List (omt_node α)} :
    ∀ (fuel : Nat) {head : Option Nat} {fl : List Nat},
      FreeChain ns head fl → fl.length < fuel → freeSlots fuel ns head = fl := by
  intro fuel
  induction fuel with
  | zero =>
      intro head fl _ h
      exact absurd h (by omega)
  | succ f ih =>
      intro head fl hfc hlen
      cases hfc with
      | nil => rfl
      | @cons i rest hi hrest =>
          show i :: freeSlots f ns (getNode ns i).left = i :: rest
          rw [ih hrest (by simp only [List.length_cons] at hlen; omega)]

/-! ## The naive model of the search operations

The following functions are the spec's words for the searches: the
smallest index satisfying a predicate, found by a left to right scan of
the plain list, and its mirror for the largest index. -/

/-- The smallest index of the list whose element satisfies p. -/
def scanIdx (p : α → Bool) : List α → Option Nat
  | [] => none
  | x :: xs => if p x then some 0 else (scanIdx p xs).map (· + 1)

/-- The largest index of the list whose element satisfies p. -/
def scanIdxBack (p : α → Bool) (l : List α) : Option Nat :=
  (scanIdx p l.reverse).map (fun k => l.length - 1 - k)

theorem scanIdx_of_least [Inhabited α] {p : α → Bool} :
    ∀ {l : List α} {j : Nat}, j < l.length → p (l.getD j default) = true →
      (∀ k, k < j → p (l.getD k default) = false) → scanIdx p l = some j := by
  intro l
  induction l with
  | nil =>
      intro j hj _ _
      exact absurd hj (by simp)
  | cons x xs ih =>
      intro j hj hp hleast
      rcases j with _ | m
      · rw [List.getD_cons_zero] at hp
        rw [scanIdx, if_pos hp]
      · have hx : p x = false := by
          have := hleast 0 (by omega)
          rwa [List.getD_cons_zero] at this
        rw [scanIdx, if_neg (by rw [hx]; exact Bool.false_ne_true)]
        rw [ih (by simpa using hj) (by rw [← List.getD_cons_succ (x := x)]; exact hp)
          (fun k hk => by rw [← List.getD_cons_succ (x := x)]; exact hleast (k + 1) (by omega))]
        rfl

theorem scanIdx_of_none [Inhabited α] {p : α → Bool} :
    ∀ {l : List α}, (∀ k, k < l.length → p (l.getD k default) = false) →
      scanIdx p l = none := by
  intro l
  induction l with
  | nil => intro _; rfl
  | cons x xs ih =>
      intro h
      have hx : p x = false := by
        have := h 0 (by simp)
        rwa [List.getD_cons_zero] at this
      rw [scanIdx, if_neg (by rw [hx]; exact Bool.false_ne_true)]
      rw [ih (fun k hk => by
        rw [← List.getD_cons_succ (x := x)]
        exact h (k + 1) (by simpa using hk))]
      rfl

theorem getD_reverse [Inhabited α] {l : List α} {k : Nat} (hk : k < l.length) :
    l.reverse.getD k default = l.getD (l.length - 1 - k) default := by
  have h1 : k < l.reverse.length := by
    rw [List.length_reverse]
    exact hk
  have h2 : l.length - 1 - k < l.length := by omega
  rw [List.getD_eq_getElem?_getD, List.getElem?_eq_getElem h1,
    List.getD_eq_getElem?_getD, List.getElem?_eq_getElem h2]
  rw [List.getElem_reverse]

theorem scanIdxBack_of_greatest [Inhabited α] {p : α → Bool} {l : List α} {j : Nat}
    (hj : j < l.length) (hp : p (l.getD j default) = true)
    (hgr : ∀ k, j < k → k < l.length → p (l.getD k default) = false) :
    scanIdxBack p l = some j := by
  have h1 : scanIdx p l.reverse = some (l.length - 1 - j) := by
    refine scanIdx_of_least (by rw [List.length_reverse]; omega) ?_ ?_
    · rw [getD_reverse (by omega), show l.length - 1 - (l.length - 1 - j) = j by omega]
      exact hp
    · intro k hk
      rw [getD_reverse (by omega)]
      exact hgr _ (by omega) (by omega)
  rw [scanIdxBack, h1]
  show some (l.length - 1 - (l.length - 1 - j)) = some j
  rw [show l.length - 1 - (l.length - 1 - j) = j by omega]

theorem scanIdxBack_of_none [Inhabited α] {p : α → Bool} {l : List α}
    (h : ∀ k, k < l.length → p (l.getD k default) = false) :
    scanIdxBack p l = none := by
  rw [scanIdxBack, scanIdx_of_none (fun k hk => by
    rw [getD_reverse (by rw [List.length_reverse] at hk; exact hk)]
    exact h _ (by rw [List.length_reverse] at hk; omega))]
  rfl

/-! ## The naive list model of the public interface (spec section 8) -/

/-- List model of insert_at with its error check. -/
def listInsertAt (l : List α) (v : α) (i : Nat) : errcode × List α :=
  if l.length < i then (.INVALID_ARGUMENT, l) else (.ok, insertList l v i)

/-- List model of delete_at with its error check. -/
def listDeleteAt (l : List α) (i : Nat) : errcode × List α :=
  if l.length ≤ i then (.INVALID_ARGUMENT, l) else (.ok, deleteList l i)

/-- List model of set_at with its error check. -/
def listSetAt (l : List α) (v : α) (i : Nat) : errcode × List α :=
  if l.length ≤ i then (.INVALID_ARGUMENT, l) else (.ok, l.set i v)

/-- List model of fetch. -/
def listFetch [Inhabited α] (l : List α) (i : Nat) : errcode × Option α :=
  if l.length ≤ i then (.INVALID_ARGUMENT, none) else (.ok, some (l.getD i default))

/-- List model of find_zero: the smallest index with a zero comparator
value, else NOT_FOUND with the smallest index with a positive value, or
the length when none. -/
def listFindZero [Inhabited α] (h : α → Int) (l : List α) :
    errcode × Option α × Option Nat :=
  match scanIdx (fun x => decide (h x = 0)) l with
  | some i => (.ok, some (l.getD i default), some i)
  | none =>
      match scanIdx (fun x => decide (0 < h x)) l with
      | some i => (.NOT_FOUND, none, some i)
      | none => (.NOT_FOUND, none, some l.length)

/-- List model of find: the smallest index with a positive comparator
value for a positive direction, the largest index with a negative value
for a negative direction. -/
def listFind [Inhabited α] (h : α → Int) (direction : Int) (l : List α) :
    errcode × Option α × Option Nat :=
  if direction = 0 then (.INVALID_ARGUMENT, none, none)
  else if 0 < direction then
    match scanIdx (fun x => decide (0 < h x)) l with
    | some i => (.ok, some (l.getD i default), some i)
    | none => (.NOT_FOUND, none, none)
  else
    match scanIdxBack (fun x => decide (h x < 0)) l with
    | some i => (.ok, some (l.getD i default), some i)
    | none => (.NOT_FOUND, none, none)

/-- List model of the comparator guided insert. -/
def listInsertCmp [Inhabited α] (h : α → Int) (v : α) (l : List α) :
    errcode × List α × Option Nat :=
  let f := listFindZero h l
  if f.1 = .ok then (.KEY_EXISTS, l, none)
  else
    let ix := f.2.2.getD 0
    (.ok, insertList l v ix, some ix)

/-- List model of split_at with its error check. -/
def listSplitAt (l : List α) (i : Nat) : errcode × List α × Option (List α) :=
  if l.length < i then (.INVALID_ARGUMENT, l, none)
  else (.ok, l.take i, some (l.drop i))

/-! ## The implementation agrees with the list model, operation by
operation -/

theorem find_zero_model [Inhabited α] {o : omt α} (hinv : Inv o) (h : α → Int)
    (hm : MonoSign h (seqOf o)) : o.find_zero h = listFindZero h (seqOf o) := by
  rcases find_zero_spec hinv h hm with ⟨j, hj, hz, hleast, heq⟩ |
    ⟨hno, j, hjle, hneg, hpos, heq⟩
  · have h1 : scanIdx (fun x => decide (h x = 0)) (seqOf o) = some j :=
      scanIdx_of_least hj (decide_eq_true hz) (fun k hk => decide_eq_false (hleast k hk))
    rw [heq]
    unfold listFindZero
    rw [h1]
  · have h1 : scanIdx (fun x => decide (h x = 0)) (seqOf o) = none :=
      scanIdx_of_none (fun k hk => decide_eq_false (hno k hk))
    rw [heq]
    unfold listFindZero
    rw [h1]
    by_cases hc : j < (seqOf o).length
    · have h2 : scanIdx (fun x => decide (0 < h x)) (seqOf o) = some j :=
        scanIdx_of_least hc (decide_eq_true (hpos j (by omega) hc))
          (fun k hk => decide_eq_false (by have := hneg k hk; omega))
      rw [h2]
    · have hj2 : j = (seqOf o).length := by omega
      have h2 : scanIdx (fun x => decide (0 < h x)) (seqOf o) = none :=
        scanIdx_of_none (fun k hk => decide_eq_false (by have := hneg k (by omega); omega))
      rw [h2, hj2]

theorem find_model [Inhabited α] {o : omt α} (hinv : Inv o) (h : α → Int) (direction : Int)
    (hm : MonoSign h (seqOf o)) : o.find h direction = listFind h direction (seqOf o) := by
  obtain ⟨hzero, hplus, hminus⟩ := find_spec hinv h direction hm
  rcases lt_trichotomy direction 0 with hd | hd | hd
  · unfold listFind
    rw [if_neg (by omega), if_neg (by omega)]
    rcases hminus hd with ⟨j, hj, hz, hgr, heq⟩ | ⟨hno, heq⟩
    · have h1 : scanIdxBack (fun x => decide (h x < 0)) (seqOf o) = some j :=
        scanIdxBack_of_greatest hj (decide_eq_true hz)
          (fun k hk1 hk2 => decide_eq_false (by have := hgr k hk1 hk2; omega))
      rw [heq, h1]
    · have h1 : scanIdxBack (fun x => decide (h x < 0)) (seqOf o) = none :=
        scanIdxBack_of_none (fun k hk => decide_eq_false (by have := hno k hk; omega))
      rw [heq, h1]
  · rw [hzero hd]
    unfold listFind
    rw [if_pos hd]
  · unfold listFind
    rw [if_neg (by omega), if_pos hd]
    rcases hplus hd with ⟨j, hj, hz, hleast, heq⟩ | ⟨hno, heq⟩
    · have h1 : scanIdx (fun x => decide (0 < h x)) (seqOf o) = some j :=
        scanIdx_of_least hj (decide_eq_true hz)
          (fun k hk => decide_eq_false (by have := hleast k hk; omega))
      rw [heq, h1]
    · have h1 : scanIdx (fun x => decide (0 < h x)) (seqOf o) = none :=
        scanIdx_of_none (fun k hk => decide_eq_false (by have := hno k hk; omega))
      rw [heq, h1]

theorem fetch_model [Inhabited α] {o : omt α} (hinv : Inv o) (i : Nat) :
    o.fetch i = listFetch (seqOf o) i := by
  have hsz := omt_size_eq hinv
  obtain ⟨herr, hok⟩ := fetch_spec hinv i
  unfold listFetch
  by_cases hc : i < o.size
  · rw [hok hc, if_neg (by omega)]
  · rw [herr (by omega), if_pos (by omega)]

theorem insert_at_model [Inhabited α] {o : omt α} (hinv : Inv o) (v : α) (i : Nat) :
    (o.insert_at v i).1 = (listInsertAt (seqOf o) v i).1 ∧
    Inv (o.insert_at v i).2 ∧
    seqOf (o.insert_at v i).2 = (listInsertAt (seqOf o) v i).2 := by
  have hsz := omt_size_eq hinv
  obtain ⟨herr, hok⟩ := insert_at_spec hinv v i
  unfold listInsertAt
  by_cases hc : i ≤ o.size
  · obtain ⟨h1, h2, h3⟩ := hok hc
    rw [if_neg (by omega)]
    exact ⟨h1, h2, h3⟩
  · rw [herr (by omega), if_pos (by omega)]
    exact ⟨rfl, hinv, rfl⟩

theorem delete_at_model [Inhabited α] {o : omt α} (hinv : Inv o) (i : Nat) :
    (o.delete_at i).1 = (listDeleteAt (seqOf o) i).1 ∧
    Inv (o.delete_at i).2 ∧
    seqOf (o.delete_at i).2 = (listDeleteAt (seqOf o) i).2 := by
  have hsz := omt_size_eq hinv
  obtain ⟨herr, hok⟩ := delete_at_spec hinv i
  unfold listDeleteAt
  by_cases hc : i < o.size
  · obtain ⟨h1, h2, h3⟩ := hok hc
    rw [if_neg (by omega)]
    exact ⟨h1, h2, h3⟩
  · rw [herr (by omega), if_pos (by omega)]
    exact ⟨rfl, hinv, rfl⟩

theorem set_at_model [Inhabited α] {o : omt α} (hinv : Inv o) (v : α) (i : Nat) :
    (o.set_at v i).1 = (listSetAt (seqOf o) v i).1 ∧
    Inv (o.set_at v i).2 ∧
    seqOf (o.set_at v i).2 = (listSetAt (seqOf o) v i).2 := by
  have hsz := omt_size_eq hinv
  obtain ⟨herr, hok⟩ := set_at_spec hinv v i
  unfold listSetAt
  by_cases hc : i < o.size
  · obtain ⟨h1, h2, h3⟩ := hok hc
    rw [if_neg (by omega)]
    exact ⟨h1, h2, h3⟩
  · rw [herr (by omega), if_pos (by omega)]
    exact ⟨rfl, hinv, rfl⟩

theorem insert_cmp_model [Inhabited α] {o : omt α} (hinv : Inv o) (v : α) (h : α → Int)
    (hm : MonoSign h (seqOf o)) :
    (o.insert v h).1 = (listInsertCmp h v (seqOf o)).1 ∧
    Inv (o.insert v h).2.1 ∧
    seqOf (o.insert v h).2.1 = (listInsertCmp h v (seqOf o)).2.1 ∧
    (o.insert v h).2.2 = (listInsertCmp h v (seqOf o)).2.2 := by
  have hfzm := find_zero_model hinv h hm
  obtain ⟨hex, hnoex⟩ := insert_cmp_spec hinv v h hm
  by_cases hc : ∃ k, k < (seqOf o).length ∧ h ((seqOf o).getD k default) = 0
  · obtain ⟨k, hk, hzk⟩ := hc
    have hz := find_zero_spec hinv h hm
    rcases hz with ⟨j, hjl, hjz, hleast, heq⟩ | ⟨hno, _⟩
    · have hrunM : listInsertCmp h v (seqOf o) = (.KEY_EXISTS, seqOf o, none) := by
        unfold listInsertCmp
        rw [← hfzm, heq]
        rfl
      rw [hex ⟨k, hk, hzk⟩, hrunM]
      exact ⟨rfl, hinv, rfl, rfl⟩
    · exact absurd hzk (hno k hk)
  · push_neg at hc
    have hno : ∀ k, k < (seqOf o).length → h ((seqOf o).getD k default) ≠ 0 := hc
    obtain ⟨j, hjle, hneg, hpos, hrun, hinv2, hseq2⟩ := hnoex hno
    have hz := find_zero_spec hinv h hm
    rcases hz with ⟨k, hkl, hkz, _, _⟩ | ⟨_, j2, hj2le, hneg2, hpos2, heq2⟩
    · exact absurd hkz (hno k hkl)
    · have hj12 : j = j2 := by
        by_contra hne
        rcases Nat.lt_or_ge j j2 with hlt | hge
        · have := hneg2 j hlt
          have h2 := hpos j (by omega)
          by_cases hj2 : j < (seqOf o).length
          · have := hpos j (le_refl j) hj2
            omega
          · omega
        · have hlt2 : j2 < j := by omega
          have := hneg j2 hlt2
          have := hpos2 j2 (le_refl j2) (by omega)
          omega
      have hrunM : listInsertCmp h v (seqOf o) = (.ok, insertList (seqOf o) v j2, some j2) := by
        unfold listInsertCmp
        rw [← hfzm, heq2]
        rfl
      rw [hrun, hrunM]
      refine ⟨rfl, ?_, ?_, by rw [hj12]⟩
      · rw [← hrun]
        exact hinv2
      · show seqOf (o.insert_at v j).2 = _
        rw [show seqOf (o.insert_at v j).2 = seqOf (o.insert v h).2.1 from by rw [hrun],
          hseq2, hj12]

theorem split_at_model [Inhabited α] {o : omt α} (hinv : Inv o) (i : Nat) :
    (o.split_at i).1 = (listSplitAt (seqOf o) i).1 ∧
    Inv (o.split_at i).2.1 ∧
    seqOf (o.split_at i).2.1 = (listSplitAt (seqOf o) i).2.1 ∧
    Option.map seqOf (o.split_at i).2.2 = (listSplitAt (seqOf o) i).2.2 := by
  have hsz := omt_size_eq hinv
  obtain ⟨herr, hok⟩ := split_at_spec hinv i
  unfold listSplitAt
  by_cases hc : i ≤ o.size
  · obtain ⟨h1, h2, h3, r, hr, hrinv, hrseq⟩ := hok hc
    rw [if_neg (by omega)]
    refine ⟨h1, h2, h3, ?_⟩
    rw [hr]
    show some (seqOf r) = some ((seqOf o).drop i)
    rw [hrseq]
  · rw [herr (by omega), if_pos (by omega)]
    exact ⟨rfl, hinv, rfl, rfl⟩

theorem size_model [Inhabited α] {o : omt α} (hinv : Inv o) : o.size = (seqOf o).length :=
  omt_size_eq hinv

/-! ## Operation sequences over a world of containers

A world is a list of containers; an operation addresses containers by
their position k in the world, constructors append a fresh container.
The model world keeps one plain list per container. -/

/-- One public operation of the interface. -/
inductive Op (α : Type) (σ : Type) where
  | createOp
  | fromSortedOp (vs : List α)
  | insertAtOp (k : Nat) (v : α) (i : Nat)
  | insertCmpOp (k : Nat) (v : α) (h : α → Int)
  | deleteAtOp (k : Nat) (i : Nat)
  | setAtOp (k : Nat) (v : α) (i : Nat)
  | clearOp (k : Nat)
  | splitAtOp (k : Nat) (i : Nat)
  | mergeOp (k1 k2 : Nat)
  | fetchOp (k : Nat) (i : Nat)
  | findOp (k : Nat) (h : α → Int) (dir : Int)
  | findZeroOp (k : Nat) (h : α → Int)
  | sizeOp (k : Nat)
  | iterOp (k : Nat) (f : α → Nat → σ → σ × Int) (s : σ)

/-- The observable outcome of one operation. -/
inductive Obs (α : Type) (σ : Type) where
  | unitObs
  | errObs (e : errcode)
  | valObs (e : errcode) (v : Option α)
  | findObs (e : errcode) (v : Option α) (i : Option Nat)
  | natObs (n : Nat)
  | iterObs (s : σ) (r : Int)

/-- Container k of the implementation world. -/
def getW [Inhabited α] (ws : List (omt α)) (k : Nat) : omt α := ws.getD k omt.create

/-- Sequence k of the model world. -/
def getM (ms : List (List α)) (k : Nat) : List α := ms.getD k []

/-- One step of the implementation world. -/
def stepImpl [Inhabited α] (ws : List (omt α)) : Op α σ → List (omt α) × Obs α σ
  | .createOp => (ws ++ [omt.create], .unitObs)
  | .fromSortedOp vs => (ws ++ [omt.create_from_sorted_array vs], .unitObs)
  | .insertAtOp k v i =>
      let p := (getW ws k).insert_at v i
      (ws.set k p.2, .errObs p.1)
  | .insertCmpOp k v h =>
      let p := (getW ws k).insert v h
      (ws.set k p.2.1, .findObs p.1 none p.2.2)
  | .deleteAtOp k i =>
      let p := (getW ws k).delete_at i
      (ws.set k p.2, .errObs p.1)
  | .setAtOp k v i =>
      let p := (getW ws k).set_at v i
      (ws.set k p.2, .errObs p.1)
  | .clearOp k => (ws.set k (getW ws k).clear, .unitObs)
  | .splitAtOp k i =>
      let p := (getW ws k).split_at i
      (ws.set k p.2.1 ++ [p.2.2.getD omt.create], .errObs p.1)
  | .mergeOp k1 k2 => (ws ++ [(getW ws k1).merge (getW ws k2)], .unitObs)
  | .fetchOp k i =>
      let p := (getW ws k).fetch i
      (ws, .valObs p.1 p.2)
  | .findOp k h dir =>
      let p := (getW ws k).find h dir
      (ws, .findObs p.1 p.2.1 p.2.2)
  | .findZeroOp k h =>
      let p := (getW ws k).find_zero h
      (ws, .findObs p.1 p.2.1 p.2.2)
  | .sizeOp k => (ws, .natObs (getW ws k).size)
  | .iterOp k f s =>
      let p := (getW ws k).iterate f s
      (ws, .iterObs p.1 p.2)

/-- One step of the naive model world, written from the spec's words. -/
def stepModel [Inhabited α] (ms : List (List α)) : Op α σ → List (List α) × Obs α σ
  | .createOp => (ms ++ [[]], .unitObs)
  | .fromSortedOp vs => (ms ++ [vs], .unitObs)
  | .insertAtOp k v i =>
      let p := listInsertAt (getM ms k) v i
      (ms.set k p.2, .errObs p.1)
  | .insertCmpOp k v h =>
      let p := listInsertCmp h v (getM ms k)
      (ms.set k p.2.1, .findObs p.1 none p.2.2)
  | .deleteAtOp k i =>
      let p := listDeleteAt (getM ms k) i
      (ms.set k p.2, .errObs p.1)
  | .setAtOp k v i =>
      let p := listSetAt (getM ms k) v i
      (ms.set k p.2, .errObs p.1)
  | .clearOp k => (ms.set k [], .unitObs)
  | .splitAtOp k i =>
      let p := listSplitAt (getM ms k) i
      (ms.set k p.2.1 ++ [p.2.2.getD []], .errObs p.1)
  | .mergeOp k1 k2 => (ms ++ [getM ms k1 ++ getM ms k2], .unitObs)
  | .fetchOp k i =>
      let p := listFetch (getM ms k) i
      (ms, .valObs p.1 p.2)
  | .findOp k h dir =>
      let p := listFind h dir (getM ms k)
      (ms, .findObs p.1 p.2.1 p.2.2)
  | .findZeroOp k h =>
      let p := listFindZero h (getM ms k)
      (ms, .findObs p.1 p.2.1 p.2.2)
  | .sizeOp k => (ms, .natObs (getM ms k).length)
  | .iterOp k f s =>
      let p := listIterate f (getM ms k) 0 s
      (ms, .iterObs p.1 p.2)

/-- Validity of one operation in a model world: comparator guided
operations require the comparator sign to be monotone over the
addressed sequence, as the interface demands. -/
def OpOK [Inhabited α] (ms : List (List α)) : Op α σ → Prop
  | .insertCmpOp k _ h => MonoSign h (getM ms k)
  | .findOp k h _ => MonoSign h (getM ms k)
  | .findZeroOp k h => MonoSign h (getM ms k)
  | _ => True

/-- The implementation world refines the model world: same number of
containers, and position by position the invariant holds and the
abstract sequence is the model sequence. -/
def Agrees [Inhabited α] (ws : List (omt α)) (ms : List (List α)) : Prop :=
  ws.length = ms.length ∧
  ∀ k, Inv (getW ws k) ∧ seqOf (getW ws k) = getM ms k

theorem agrees_nil [Inhabited α] : Agrees ([] : List (omt α)) [] := by
  refine ⟨rfl, fun k => ?_⟩
  show Inv (([] : List (omt α)).getD k omt.create) ∧ _
  rw [List.getD_nil]
  exact ⟨create_spec.1, create_spec.2⟩

theorem agrees_set [Inhabited α] {ws : List (omt α)} {ms : List (List α)}
    (h : Agrees ws ms) {x : omt α} {y : List α} (hx : Inv x) (hy : seqOf x = y) (k : Nat) :
    Agrees (ws.set k x) (ms.set k y) := by
  have hlen := h.1
  refine ⟨by rw [List.length_set, List.length_set, hlen], fun j => ?_⟩
  show Inv ((ws.set k x).getD j omt.create) ∧
    seqOf ((ws.set k x).getD j omt.create) = (ms.set k y).getD j []
  by_cases hc : k = j
  · subst hc
    by_cases hk : k < ws.length
    · rw [getD_set_self hk, getD_set_self (by omega)]
      exact ⟨hx, hy⟩
    · rw [List.set_eq_of_length_le (by omega), List.set_eq_of_length_le (by omega)]
      exact h.2 k
  · rw [getD_set_ne hc, getD_set_ne hc]
    exact h.2 j

theorem agrees_append [Inhabited α] {ws : List (omt α)} {ms : List (List α)}
    (h : Agrees ws ms) {x : omt α} {y : List α} (hx : Inv x) (hy : seqOf x = y) :
    Agrees (ws ++ [x]) (ms ++ [y]) := by
  have hlen := h.1
  refine ⟨by simp [hlen], fun j => ?_⟩
  show Inv ((ws ++ [x]).getD j omt.create) ∧
    seqOf ((ws ++ [x]).getD j omt.create) = (ms ++ [y]).getD j []
  by_cases hc : j < ws.length
  · rw [List.getD_append _ _ _ _ hc, List.getD_append _ _ _ _ (by omega)]
    exact h.2 j
  · rw [List.getD_append_right _ _ _ _ (by omega),
      List.getD_append_right _ _ _ _ (by omega)]
    by_cases hc2 : j = ws.length
    · rw [hc2, Nat.sub_self, hlen, Nat.sub_self, List.getD_cons_zero, List.getD_cons_zero]
      exact ⟨hx, hy⟩
    · rw [show j - ws.length = (j - ws.length - 1) + 1 from by omega,
        List.getD_cons_succ, List.getD_nil,
        show j - ms.length = (j - ms.length - 1) + 1 from by rw [← hlen]; omega,
        List.getD_cons_succ, List.getD_nil]
      exact ⟨create_spec.1, create_spec.2⟩

theorem step_agrees [Inhabited α] {ws : List (omt α)} {ms : List (List α)}
    (hA : Agrees ws ms) (op : Op α σ) (hop : OpOK ms op) :
    Agrees (stepImpl ws op).1 (stepModel ms op).1 ∧
    (stepImpl ws op).2 = (stepModel ms op).2 := by
  cases op with
  | createOp =>
      exact ⟨agrees_append hA create_spec.1 create_spec.2, rfl⟩
  | fromSortedOp vs =>
      exact ⟨agrees_append hA (inv_create_sorted vs) (seq_create_sorted vs), rfl⟩
  | insertAtOp k v i =>
      obtain ⟨hi, hs⟩ := hA.2 k
      obtain ⟨h1, h2, h3⟩ := insert_at_model hi v i
      rw [hs] at h1 h3
      refine ⟨agrees_set hA h2 h3 k, ?_⟩
      show Obs.errObs ((getW ws k).insert_at v i).1 = Obs.errObs (listInsertAt (getM ms k) v i).1
      rw [h1]
  | insertCmpOp k v h =>
      obtain ⟨hi, hs⟩ := hA.2 k
      have hm : MonoSign h (seqOf (getW ws k)) := by
        rw [hs]
        exact hop
      obtain ⟨h1, h2, h3, h4⟩ := insert_cmp_model hi v h hm
      rw [hs] at h1 h3 h4
      refine ⟨agrees_set hA h2 h3 k, ?_⟩
      show Obs.findObs ((getW ws k).insert v h).1 none ((getW ws k).insert v h).2.2 =
        Obs.findObs (listInsertCmp h v (getM ms k)).1 none (listInsertCmp h v (getM ms k)).2.2
      rw [h1, h4]
  | deleteAtOp k i =>
      obtain ⟨hi, hs⟩ := hA.2 k
      obtain ⟨h1, h2, h3⟩ := delete_at_model hi i
      rw [hs] at h1 h3
      refine ⟨agrees_set hA h2 h3 k, ?_⟩
      show Obs.errObs ((getW ws k).delete_at i).1 = Obs.errObs (listDeleteAt (getM ms k) i).1
      rw [h1]
  | setAtOp k v i =>
      obtain ⟨hi, hs⟩ := hA.2 k
      obtain ⟨h1, h2, h3⟩ := set_at_model hi v i
      rw [hs] at h1 h3
      refine ⟨agrees_set hA h2 h3 k, ?_⟩
      show Obs.errObs ((getW ws k).set_at v i).1 = Obs.errObs (listSetAt (getM ms k) v i).1
      rw [h1]
  | clearOp k =>
      exact ⟨agrees_set hA (clear_spec _).1 (clear_spec _).2.1 k, rfl⟩
  | splitAtOp k i =>
      obtain ⟨hi, hs⟩ := hA.2 k
      obtain ⟨h1, h2, h3, h4⟩ := split_at_model hi i
      rw [hs] at h1 h3 h4
      have h5 : seqOf (((getW ws k).split_at i).2.2.getD omt.create) =
          (listSplitAt (getM ms k) i).2.2.getD [] := by
        rcases hopt : ((getW ws k).split_at i).2.2 with _ | r
        · rw [hopt] at h4
          rw [← h4]
          exact create_spec.2
        · rw [hopt] at h4
          rw [← h4]
          rfl
      refine ⟨agrees_append (agrees_set hA h2 h3 k) (inv_split_suffix hi i) h5, ?_⟩
      show Obs.errObs ((getW ws k).split_at i).1 = Obs.errObs (listSplitAt (getM ms k) i).1
      rw [h1]
  | mergeOp k1 k2 =>
      obtain ⟨hi1, hs1⟩ := hA.2 k1
      obtain ⟨hi2, hs2⟩ := hA.2 k2
      obtain ⟨hmi, hms⟩ := merge_spec (getW ws k1) (getW ws k2)
      exact ⟨agrees_append hA hmi (by rw [hms, hs1, hs2]), rfl⟩
  | fetchOp k i =>
      obtain ⟨hi, hs⟩ := hA.2 k
      have h1 := fetch_model hi i
      rw [hs] at h1
      refine ⟨hA, ?_⟩
      show Obs.valObs ((getW ws k).fetch i).1 ((getW ws k).fetch i).2 =
        Obs.valObs (listFetch (getM ms k) i).1 (listFetch (getM ms k) i).2
      rw [h1]
  | findOp k h dir =>
      obtain ⟨hi, hs⟩ := hA.2 k
      have hm : MonoSign h (seqOf (getW ws k)) := by
        rw [hs]
        exact hop
      have h1 := find_model hi h dir hm
      rw [hs] at h1
      refine ⟨hA, ?_⟩
      show Obs.findObs ((getW ws k).find h dir).1 ((getW ws k).find h dir).2.1
          ((getW ws k).find h dir).2.2 =
        Obs.findObs (listFind h dir (getM ms k)).1 (listFind h dir (getM ms k)).2.1
          (listFind h dir (getM ms k)).2.2
      rw [h1]
  | findZeroOp k h =>
      obtain ⟨hi, hs⟩ := hA.2 k
      have hm : MonoSign h (seqOf (getW ws k)) := by
        rw [hs]
        exact hop
      have h1 := find_zero_model hi h hm
      rw [hs] at h1
      refine ⟨hA, ?_⟩
      show Obs.findObs ((getW ws k).find_zero h).1 ((getW ws k).find_zero h).2.1
          ((getW ws k).find_zero h).2.2 =
        Obs.findObs (listFindZero h (getM ms k)).1 (listFindZero h (getM ms k)).2.1
          (listFindZero h (getM ms k)).2.2
      rw [h1]
  | sizeOp k =>
      obtain ⟨hi, hs⟩ := hA.2 k
      refine ⟨hA, ?_⟩
      show Obs.natObs (getW ws k).size = Obs.natObs (getM ms k).length
      rw [omt_size_eq hi, hs]
  | iterOp k f s =>
      obtain ⟨hi, hs⟩ := hA.2 k
      have h1 := iterate_spec hi f s
      rw [hs] at h1
      refine ⟨hA, ?_⟩
      show Obs.iterObs ((getW ws k).iterate f s).1 ((getW ws k).iterate f s).2 =
        Obs.iterObs (listIterate f (getM ms k) 0 s).1 (listIterate f (getM ms k) 0 s).2
      rw [h1]

/-- Run of an operation list over the implementation world, collecting
the observations. -/
def runImpl [Inhabited α] (ws : List (omt α)) : List (Op α σ) → List (omt α) × List (Obs α σ)
  | [] => (ws, [])
  | op :: ops =>
      let p := stepImpl ws op
      let q := runImpl p.1 ops
      (q.1, p.2 :: q.2)

/-- Run of an operation list over the model world. -/
def runModel [Inhabited α] (ms : List (List α)) : List (Op α σ) → List (List α) × List (Obs α σ)
  | [] => (ms, [])
  | op :: ops =>
      let p := stepModel ms op
      let q := runModel p.1 ops
      (q.1, p.2 :: q.2)

/-- Validity of an operation list: each comparator guided operation
meets its monotonicity requirement in the model state it runs in. -/
def TraceOK [Inhabited α] (ms : List (List α)) : List (Op α σ) → Prop
  | [] => True
  | op :: ops => OpOK ms op ∧ TraceOK (stepModel ms op).1 ops

theorem run_agrees [Inhabited α] :
    ∀ (ops : List (Op α σ)) {ws : List (omt α)} {ms : List (List α)},
      Agrees ws ms → TraceOK ms ops →
      Agrees (runImpl ws ops).1 (runModel ms ops).1 ∧
      (runImpl ws ops).2 = (runModel ms ops).2 := by
  intro ops
  induction ops with
  | nil =>
      intro ws ms hA _
      exact ⟨hA, rfl⟩
  | cons op ops ih =>
      intro ws ms hA hT
      obtain ⟨hstep, hobs⟩ := step_agrees hA op hT.1
      obtain ⟨hA2, hobs2⟩ := ih hstep hT.2
      refine ⟨hA2, ?_⟩
      show (stepImpl ws op).2 :: (runImpl (stepImpl ws op).1 ops).2 =
    (stepModel ms op).2 :: (runModel (stepModel ms op).1 ops).2
      rw [hobs, hobs2]

/-! ## The claims -/

/-- Claim C1: for every finite sequence of public operations run from an
empty world, after the whole sequence the implementation world agrees
position by position with the naive list model (same number of
containers, every container satisfies the invariant and its in-order
sequence equals the model list), and the observations returned by the
operations are the same, provided each comparator guided operation is
given a sign-monotone comparator as the interface demands.  Since this
holds for every valid sequence, it holds in particular for every prefix
of a sequence, which is the claim's after-each-operation form. -/
theorem claim_C1 [Inhabited α] (ops : List (Op α σ))
    (hT : TraceOK ([] : List (List α)) ops) :
    Agrees (runImpl ([] : List (omt α)) ops).1 (runModel ([] : List (List α)) ops).1 ∧
    (runImpl ([] : List (omt α)) ops).2 = (runModel ([] : List (List α)) ops).2 :=
  run_agrees ops agrees_nil hT

/-- Claim C2: with a sign-monotone comparator, the comparator guided
insert returns KEY_EXISTS and changes nothing when a zero comparator
value exists; otherwise it returns ok, inserts at the smallest index
with a positive comparator value (or at the size when none is
positive), behaves exactly as insert_at there, and reports that index. -/
theorem claim_C2 [Inhabited α] {o : omt α} (hinv : Inv o) (v : α) (h : α → Int)
    (hm : MonoSign h (seqOf o)) :
    ((∃ k, k < (seqOf o).length ∧ h ((seqOf o).getD k default) = 0) →
      o.insert v h = (.KEY_EXISTS, o, none)) ∧
    ((∀ k, k < (seqOf o).length → h ((seqOf o).getD k default) ≠ 0) →
      ∃ i, ((i < (seqOf o).length ∧ 0 < h ((seqOf o).getD i default) ∧
              ∀ k, k < i → ¬ 0 < h ((seqOf o).getD k default)) ∨
            (i = (seqOf o).length ∧
              ∀ k, k < (seqOf o).length → ¬ 0 < h ((seqOf o).getD k default))) ∧
        o.insert v h = (.ok, (o.insert_at v i).2, some i) ∧
        (o.insert_at v i).1 = .ok ∧
        seqOf (o.insert v h).2.1 = insertList (seqOf o) v i) := by
  obtain ⟨hA, hB⟩ := insert_cmp_spec hinv v h hm
  refine ⟨hA, fun hno => ?_⟩
  obtain ⟨j, hjle, hneg, hpos, hrun, hinv2, hseq⟩ := hB hno
  have hsz := omt_size_eq hinv
  refine ⟨j, ?_, hrun, ((insert_at_spec hinv v j).2 (by omega)).1, hseq⟩
  by_cases hc : j < (seqOf o).length
  · exact Or.inl ⟨hc, hpos j (le_refl j) hc, fun k hk => by have := hneg k hk; omega⟩
  · exact Or.inr ⟨by omega, fun k hk => by have := hneg k (by omega); omega⟩

/-- Claim C3: with a sign-monotone comparator, find_zero returns ok and
the smallest index with a zero comparator value together with that
value; when no zero exists it returns NOT_FOUND and writes the index
out-parameter with the smallest index with a positive comparator value,
or the size when none is positive.  On an empty container it returns
NOT_FOUND with index 0. -/
theorem claim_C3 [Inhabited α] {o : omt α} (hinv : Inv o) (h : α → Int)
    (hm : MonoSign h (seqOf o)) :
    ((∃ j, j < (seqOf o).length ∧ h ((seqOf o).getD j default) = 0 ∧
        (∀ k, k < j → h ((seqOf o).getD k default) ≠ 0) ∧
        o.find_zero h = (.ok, some ((seqOf o).getD j default), some j)) ∨
      ((∀ k, k < (seqOf o).length → h ((seqOf o).getD k default) ≠ 0) ∧
       ∃ j, ((j < (seqOf o).length ∧ 0 < h ((seqOf o).getD j default) ∧
               ∀ k, k < j → ¬ 0 < h ((seqOf o).getD k default)) ∨
             (j = (seqOf o).length ∧
               ∀ k, k < (seqOf o).length → ¬ 0 < h ((seqOf o).getD k default))) ∧
        o.find_zero h = (.NOT_FOUND, none, some j))) ∧
    (seqOf o = [] → o.find_zero h = (.NOT_FOUND, none, some 0)) := by
  constructor
  · rcases find_zero_spec hinv h hm with ⟨j, hj, hz, hleast, heq⟩ |
      ⟨hno, j, hjle, hneg, hpos, heq⟩
    · exact Or.inl ⟨j, hj, hz, hleast, heq⟩
    · refine Or.inr ⟨hno, j, ?_, heq⟩
      by_cases hc : j < (seqOf o).length
      · exact Or.inl ⟨hc, hpos j (le_refl j) hc, fun k hk => by have := hneg k hk; omega⟩
      · exact Or.inr ⟨by omega, fun k hk => by have := hneg k (by omega); omega⟩
  · intro hempty
    rcases find_zero_spec hinv h hm with ⟨j, hj, _, _, _⟩ |
      ⟨_, j, hjle, _, _, heq⟩
    · rw [hempty] at hj
      exact absurd hj (by simp)
    · rw [hempty] at hjle
      have hj0 : j = 0 := by simpa using hjle
      rw [hj0] at heq
      exact heq

/-- Claim C4: with a sign-monotone comparator, find with a positive
direction returns ok and the smallest index with a positive comparator
value together with that value, find with a negative direction returns
ok and the largest index with a negative comparator value, each
returning NOT_FOUND when no element qualifies, and a zero direction is
rejected. -/
theorem claim_C4 [Inhabited α] {o : omt α} (hinv : Inv o) (h : α → Int) (direction : Int)
    (hm : MonoSign h (seqOf o)) :
    (direction = 0 → o.find h direction = (.INVALID_ARGUMENT, none, none)) ∧
    (0 < direction →
      (∃ j, j < (seqOf o).length ∧ 0 < h ((seqOf o).getD j default) ∧
        (∀ k, k < j → h ((seqOf o).getD k default) ≤ 0) ∧
        o.find h direction = (.ok, some ((seqOf o).getD j default), some j)) ∨
      ((∀ k, k < (seqOf o).length → h ((seqOf o).getD k default) ≤ 0) ∧
        o.find h direction = (.NOT_FOUND, none, none))) ∧
    (direction < 0 →
      (∃ j, j < (seqOf o).length ∧ h ((seqOf o).getD j default) < 0 ∧
        (∀ k, j < k → k < (seqOf o).length → 0 ≤ h ((seqOf o).getD k default)) ∧
        o.find h direction = (.ok, some ((seqOf o).getD j default), some j)) ∨
      ((∀ k, k < (seqOf o).length → 0 ≤ h ((seqOf o).getD k default)) ∧
        o.find h direction = (.NOT_FOUND, none, none))) :=
  find_spec hinv h direction hm

/-- Claim C5: insert_at rejects exactly the indices above the size,
set_at and delete_at reject exactly the indices at or above the size,
and on every such rejection the container is returned unchanged. -/
theorem claim_C5 [Inhabited α] {o : omt α} (hinv : Inv o) (v : α) (i : Nat) :
    (((o.insert_at v i).1 = .INVALID_ARGUMENT ↔ o.size < i) ∧
      (o.size < i → o.insert_at v i = (.INVALID_ARGUMENT, o))) ∧
    (((o.set_at v i).1 = .INVALID_ARGUMENT ↔ o.size ≤ i) ∧
      (o.size ≤ i → o.set_at v i = (.INVALID_ARGUMENT, o))) ∧
    (((o.delete_at i).1 = .INVALID_ARGUMENT ↔ o.size ≤ i) ∧
      (o.size ≤ i → o.delete_at i = (.INVALID_ARGUMENT, o))) := by
  refine ⟨⟨⟨fun he => ?_, fun hlt => ?_⟩, fun hlt => (insert_at_spec hinv v i).1 hlt⟩,
    ⟨⟨fun he => ?_, fun hlt => ?_⟩, fun hlt => (set_at_spec hinv v i).1 hlt⟩,
    ⟨⟨fun he => ?_, fun hlt => ?_⟩, fun hlt => (delete_at_spec hinv i).1 hlt⟩⟩
  · by_contra hc
    have hok := ((insert_at_spec hinv v i).2 (by omega)).1
    rw [he] at hok
    exact errcode.noConfusion hok
  · rw [(insert_at_spec hinv v i).1 hlt]
  · by_contra hc
    have hok := ((set_at_spec hinv v i).2 (by omega)).1
    rw [he] at hok
    exact errcode.noConfusion hok
  · rw [(set_at_spec hinv v i).1 hlt]
  · by_contra hc
    have hok := ((delete_at_spec hinv i).2 (by omega)).1
    rw [he] at hok
    exact errcode.noConfusion hok
  · rw [(delete_at_spec hinv i).1 hlt]

/-- Claim C6: splitting at a valid index succeeds, leaves the prefix of
the sequence in this container and hands back a fresh container with
the suffix, and merging the two halves afterwards reconstructs exactly
the original sequence. -/
theorem claim_C6 [Inhabited α] {o : omt α} (hinv : Inv o) {i : Nat} (hle : i ≤ o.size) :
    (o.split_at i).1 = .ok ∧
    seqOf (o.split_at i).2.1 = (seqOf o).take i ∧
    ∃ r, (o.split_at i).2.2 = some r ∧ Inv r ∧ seqOf r = (seqOf o).drop i ∧
      seqOf ((o.split_at i).2.1.merge r) = seqOf o := by
  obtain ⟨h1, h2, h3, r, hr, hrinv, hrseq⟩ := (split_at_spec hinv i).2 hle
  refine ⟨h1, h3, r, hr, hrinv, hrseq, ?_⟩
  rw [(merge_spec _ _).2, h3, hrseq, List.take_append_drop]

/-- Claim C7: in every reachable state, every node slot reachable from
the root of a tree form container has a weight equal to one plus the
weights of its two children (null children counting zero), size()
equals the root's weight in tree form, and size() equals num_values in
array form. -/
theorem claim_C7 [Inhabited α] {o : omt α} (hre : Reached o) :
    (∀ t, o.d = omt_rep.tree t →
      (∀ i ∈ subtreeIdxs t.nodes t.nodes.length t.root,
        (getNode t.nodes i).weight =
          nweight t.nodes (getNode t.nodes i).left +
            nweight t.nodes (getNode t.nodes i).right + 1) ∧
      o.size = nweight t.nodes t.root) ∧
    (∀ a, o.d = omt_rep.array a → o.size = a.num_values) := by
  have hinv := hre.inv
  obtain ⟨d⟩ := o
  constructor
  · intro t hd
    cases hd
    obtain ⟨b, il, fl, hrep, hfc, hnd, hcov⟩ := (hinv : TreeOK t)
    obtain ⟨hsz, hfl, hnw⟩ := treeOK_flatten hrep hfc hnd
    constructor
    · rw [subtreeIdxs_eq hrep _ hsz]
      exact hrep.weights
    · rfl
  · intro a hd
    cases hd
    rfl

/-- Claim C8: in every reachable tree form state, the in-order
enumeration of the slots reachable from the root lists pairwise
distinct slots and has length size(), so exactly size() distinct node
slots are reachable from the root; every other slot of the pool is on
the free list, and the reachable slots are disjoint from the free
list. -/
theorem claim_C8 [Inhabited α] {o : omt α} (hre : Reached o) :
    ∀ t, o.d = omt_rep.tree t →
      (subtreeIdxs t.nodes t.nodes.length t.root).Nodup ∧
      (subtreeIdxs t.nodes t.nodes.length t.root).length = o.size ∧
      (∀ j, j < t.nodes.length →
        j ∈ subtreeIdxs t.nodes t.nodes.length t.root ∨
        j ∈ freeSlots (t.nodes.length + 1) t.nodes t.free_idx) ∧
      (∀ j, j ∈ subtreeIdxs t.nodes t.nodes.length t.root →
        j ∉ freeSlots (t.nodes.length + 1) t.nodes t.free_idx) := by
  have hinv := hre.inv
  obtain ⟨d⟩ := o
  intro t hd
  cases hd
  obtain ⟨b, il, fl, hrep, hfc, hnd, hcov⟩ := (hinv : TreeOK t)
  obtain ⟨hsz, hfl, hnw⟩ := treeOK_flatten hrep hfc hnd
  have hil : subtreeIdxs t.nodes t.nodes.length t.root = il := subtreeIdxs_eq hrep _ hsz
  have hflnd : fl.Nodup := (List.sublist_append_right il fl).nodup hnd
  have hfllen : fl.length ≤ t.nodes.length := nodup_length_le hflnd hfc.chain_mem_lt
  have hfree : freeSlots (t.nodes.length + 1) t.nodes t.free_idx = fl :=
    freeSlots_eq (t.nodes.length + 1) hfc (by omega)
  rw [hil, hfree]
  refine ⟨(List.sublist_append_left il fl).nodup hnd, ?_, hcov, ?_⟩
  · show il.length = nweight t.nodes t.root
    rw [hnw, hrep.size_eq]
  · intro j hj1 hj2
    exact (List.nodup_append.1 hnd).2.2 hj1 hj2

/-- Claim C9: an insert at position 0 into an array form container with
leading slack is absorbed in array form: the start index is
decremented, the value is written into the freed buffer slot, no
conversion to tree form happens, and the sequence becomes the new value
followed by the old sequence. -/
theorem claim_C9 [Inhabited α] {o : omt α} {a : omt_array α} (hinv : Inv o)
    (hd : o.d = omt_rep.array a) (hs : 0 < a.start_idx) (v : α) :
    o.insert_at v 0 = (.ok, ⟨omt_rep.array ⟨a.start_idx - 1, a.num_values + 1,
      a.values.set (a.start_idx - 1) v⟩⟩) ∧
    (o.insert_at v 0).2.is_array = true ∧
    seqOf (o.insert_at v 0).2 = v :: seqOf o := by
  obtain ⟨d⟩ := o
  cases hd
  have hA : a.start_idx + a.num_values ≤ a.values.length := hinv
  have hrun : (⟨omt_rep.array a⟩ : omt α).insert_at v 0 =
      (.ok, ⟨omt_rep.array ⟨a.start_idx - 1, a.num_values + 1,
        a.values.set (a.start_idx - 1) v⟩⟩) := by
    simp only [omt.insert_at, maybe_resize_or_convert]
    rw [if_neg (show ¬ (omt.size ⟨.array a⟩ < 0) from by omega)]
    have hmr : maybe_resize_array a 1 = a := by
      rw [maybe_resize_array, if_pos (by omega)]
    rw [hmr, if_pos ⟨by trivial, hs⟩]
  refine ⟨hrun, by rw [hrun]; rfl, ?_⟩
  rw [hrun]
  show liveList ⟨a.start_idx - 1, a.num_values + 1,
    a.values.set (a.start_idx - 1) v⟩ = v :: liveList a
  exact liveList_set_front v hA hs

/-- Claim C10: the out-parameters are untouched on failure: fetch on an
out of range index reports the error with the value out-parameter
untouched, find reports NOT_FOUND with both out-parameters untouched,
while find_zero writes its index out-parameter on every path. -/
theorem claim_C10 [Inhabited α] {o : omt α} (hinv : Inv o) (h : α → Int)
    (hm : MonoSign h (seqOf o)) (i : Nat) (direction : Int) :
    (o.size ≤ i → o.fetch i = (.INVALID_ARGUMENT, none)) ∧
    ((o.find h direction).1 = .NOT_FOUND → (o.find h direction).2 = (none, none)) ∧
    (∃ j, (o.find_zero h).2.2 = some j) := by
  obtain ⟨hzero, hplus, hminus⟩ := find_spec hinv h direction hm
  refine ⟨(fetch_spec hinv i).1, fun hnf => ?_, ?_⟩
  · rcases lt_trichotomy direction 0 with hdir | hdir | hdir
    · rcases hminus hdir with ⟨j, _, _, _, heq⟩ | ⟨_, heq⟩
      · rw [heq] at hnf
        exact errcode.noConfusion hnf
      · rw [heq]
    · rw [hzero hdir] at hnf
      exact errcode.noConfusion hnf
    · rcases hplus hdir with ⟨j, _, _, _, heq⟩ | ⟨_, heq⟩
      · rw [heq] at hnf
        exact errcode.noConfusion hnf
      · rw [heq]
  · rcases find_zero_spec hinv h hm with ⟨j, _, _, _, heq⟩ | ⟨_, j, _, _, _, heq⟩
    · exact ⟨j, by rw [heq]⟩
    · exact ⟨j, by rw [heq]⟩

/-! ## Concrete instances exercising the claims -/

/-- A three element container used as a concrete instance. -/
def wOmt3 : omt Nat := omt.create_from_sorted_array [10, 20, 30]

/-- A comparator with a zero at the middle element. -/
def wCmp20 : Nat → Int := fun x => (x : Int) - 20

/-- A comparator with no zero on the instance. -/
def wCmp25 : Nat → Int := fun x => (x : Int) - 25

/-- The five element container of the spec's scenarios. -/
def wOmt5 : omt Int := omt.create_from_sorted_array [10, 20, 30, 40, 50]

/-- The sign comparator of the spec's scenarios at key 25. -/
def wCmpI : Int → Int := fun x => (x - 25).sign

/-- A two element container used as a concrete instance. -/
def wOmt2 : omt Nat := omt.create_from_sorted_array [1, 2]

/-- A reachable tree form container: a middle insert forces the
conversion out of array form. -/
def wOmtT : omt Nat := ((omt.create_from_sorted_array [10, 20, 30] : omt Nat).insert_at 25 2).2

/-- A reachable array form container with leading slack, produced by a
front delete. -/
def wOmt9 : omt Nat := ((omt.create_from_sorted_array [1, 2, 3, 4] : omt Nat).delete_at 0).2

/-- A concrete valid operation sequence over a world. -/
def wOps : List (Op Nat Nat) :=
  [Op.fromSortedOp [10, 20, 30], Op.findZeroOp 0 (fun x => (x : Int) - 20),
    Op.insertAtOp 0 40 3, Op.deleteAtOp 0 0, Op.sizeOp 0]

theorem claim_C1_witness :
    TraceOK ([] : List (List Nat)) wOps ∧
    (Agrees (runImpl ([] : List (omt Nat)) wOps).1 (runModel ([] : List (List Nat)) wOps).1 ∧
      (runImpl ([] : List (omt Nat)) wOps).2 = (runModel ([] : List (List Nat)) wOps).2) := by
  have hT : TraceOK ([] : List (List Nat)) wOps :=
    ⟨trivial,
      (by show List.Pairwise (fun a b : Nat => ((a : Int) - 20).sign ≤ ((b : Int) - 20).sign)
            (getM (stepModel ([] : List (List Nat)) (Op.fromSortedOp (σ := Nat) [10, 20, 30])).1 0)
          decide),
      trivial, trivial, trivial, trivial⟩
  exact ⟨hT, claim_C1 wOps hT⟩

theorem claim_C2_witness :
    Inv wOmt3 ∧ MonoSign wCmp20 (seqOf wOmt3) ∧
    (((∃ k, k < (seqOf wOmt3).length ∧ wCmp20 ((seqOf wOmt3).getD k default) = 0) →
        wOmt3.insert 25 wCmp20 = (.KEY_EXISTS, wOmt3, none)) ∧
      ((∀ k, k < (seqOf wOmt3).length → wCmp20 ((seqOf wOmt3).getD k default) ≠ 0) →
        ∃ i, ((i < (seqOf wOmt3).length ∧ 0 < wCmp20 ((seqOf wOmt3).getD i default) ∧
                ∀ k, k < i → ¬ 0 < wCmp20 ((seqOf wOmt3).getD k default)) ∨
              (i = (seqOf wOmt3).length ∧
                ∀ k, k < (seqOf wOmt3).length → ¬ 0 < wCmp20 ((seqOf wOmt3).getD k default))) ∧
          wOmt3.insert 25 wCmp20 = (.ok, (wOmt3.insert_at 25 i).2, some i) ∧
          (wOmt3.insert_at 25 i).1 = .ok ∧
          seqOf (wOmt3.insert 25 wCmp20).2.1 = insertList (seqOf wOmt3) 25 i)) := by
  have h1 : Inv wOmt3 := inv_create_sorted _
  have h2 : MonoSign wCmp20 (seqOf wOmt3) := by
    show List.Pairwise (fun a b : Nat => (wCmp20 a).sign ≤ (wCmp20 b).sign) (seqOf wOmt3)
    decide
  exact ⟨h1, h2, claim_C2 h1 25 wCmp20 h2⟩

theorem claim_C3_witness :
    Inv wOmt3 ∧ MonoSign wCmp25 (seqOf wOmt3) ∧
    (((∃ j, j < (seqOf wOmt3).length ∧ wCmp25 ((seqOf wOmt3).getD j default) = 0 ∧
          (∀ k, k < j → wCmp25 ((seqOf wOmt3).getD k default) ≠ 0) ∧
          wOmt3.find_zero wCmp25 = (.ok, some ((seqOf wOmt3).getD j default), some j)) ∨
        ((∀ k, k < (seqOf wOmt3).length → wCmp25 ((seqOf wOmt3).getD k default) ≠ 0) ∧
         ∃ j, ((j < (seqOf wOmt3).length ∧ 0 < wCmp25 ((seqOf wOmt3).getD j default) ∧
                 ∀ k, k < j → ¬ 0 < wCmp25 ((seqOf wOmt3).getD k default)) ∨
               (j = (seqOf wOmt3).length ∧
                 ∀ k, k < (seqOf wOmt3).length → ¬ 0 < wCmp25 ((seqOf wOmt3).getD k default))) ∧
          wOmt3.find_zero wCmp25 = (.NOT_FOUND, none, some j))) ∧
      (seqOf wOmt3 = [] → wOmt3.find_zero wCmp25 = (.NOT_FOUND, none, some 0))) ∧
    wOmt3.find_zero wCmp25 = (.NOT_FOUND, none, some 2) := by
  have h1 : Inv wOmt3 := inv_create_sorted _
  have h2 : MonoSign wCmp25 (seqOf wOmt3) := by
    show List.Pairwise (fun a b : Nat => (wCmp25 a).sign ≤ (wCmp25 b).sign) (seqOf wOmt3)
    decide
  exact ⟨h1, h2, claim_C3 h1 wCmp25 h2, by decide⟩

theorem claim_C4_witness :
    Inv wOmt5 ∧ MonoSign wCmpI (seqOf wOmt5) ∧
    (((1 : Int) = 0 → wOmt5.find wCmpI 1 = (.INVALID_ARGUMENT, none, none)) ∧
      ((0 : Int) < 1 →
        (∃ j, j < (seqOf wOmt5).length ∧ 0 < wCmpI ((seqOf wOmt5).getD j default) ∧
          (∀ k, k < j → wCmpI ((seqOf wOmt5).getD k default) ≤ 0) ∧
          wOmt5.find wCmpI 1 = (.ok, some ((seqOf wOmt5).getD j default), some j)) ∨
        ((∀ k, k < (seqOf wOmt5).length → wCmpI ((seqOf wOmt5).getD k default) ≤ 0) ∧
          wOmt5.find wCmpI 1 = (.NOT_FOUND, none, none))) ∧
      ((1 : Int) < 0 →
        (∃ j, j < (seqOf wOmt5).length ∧ wCmpI ((seqOf wOmt5).getD j default) < 0 ∧
          (∀ k, j < k → k < (seqOf wOmt5).length → 0 ≤ wCmpI ((seqOf wOmt5).getD k default)) ∧
          wOmt5.find wCmpI 1 = (.ok, some ((seqOf wOmt5).getD j default), some j)) ∨
        ((∀ k, k < (seqOf wOmt5).length → 0 ≤ wCmpI ((seqOf wOmt5).getD k default)) ∧
          wOmt5.find wCmpI 1 = (.NOT_FOUND, none, none)))) ∧
    wOmt5.find wCmpI 1 = (.ok, some 30, some 2) ∧
    wOmt5.find wCmpI (-1) = (.ok, some 20, some 1) ∧
    wOmt5.find (fun x => (x - 5).sign) (-1) = (.NOT_FOUND, none, none) := by
  have h1 : Inv wOmt5 := inv_create_sorted _
  have h2 : MonoSign wCmpI (seqOf wOmt5) := by
    show List.Pairwise (fun a b : Int => (wCmpI a).sign ≤ (wCmpI b).sign) (seqOf wOmt5)
    decide
  exact ⟨h1, h2, claim_C4 h1 wCmpI 1 h2, by decide, by decide, by decide⟩

theorem claim_C5_witness :
    Inv wOmt2 ∧
    ((((wOmt2.insert_at 7 5).1 = .INVALID_ARGUMENT ↔ wOmt2.size < 5) ∧
        (wOmt2.size < 5 → wOmt2.insert_at 7 5 = (.INVALID_ARGUMENT, wOmt2))) ∧
      (((wOmt2.set_at 7 5).1 = .INVALID_ARGUMENT ↔ wOmt2.size ≤ 5) ∧
        (wOmt2.size ≤ 5 → wOmt2.set_at 7 5 = (.INVALID_ARGUMENT, wOmt2))) ∧
      (((wOmt2.delete_at 5).1 = .INVALID_ARGUMENT ↔ wOmt2.size ≤ 5) ∧
        (wOmt2.size ≤ 5 → wOmt2.delete_at 5 = (.INVALID_ARGUMENT, wOmt2)))) := by
  have h1 : Inv wOmt2 := inv_create_sorted _
  exact ⟨h1, claim_C5 h1 7 5⟩

theorem claim_C6_witness :
    Inv wOmt3 ∧ 1 ≤ wOmt3.size ∧
    ((wOmt3.split_at 1).1 = .ok ∧
      seqOf (wOmt3.split_at 1).2.1 = (seqOf wOmt3).take 1 ∧
      ∃ r, (wOmt3.split_at 1).2.2 = some r ∧ Inv r ∧ seqOf r = (seqOf wOmt3).drop 1 ∧
        seqOf ((wOmt3.split_at 1).2.1.merge r) = seqOf wOmt3) := by
  have h1 : Inv wOmt3 := inv_create_sorted _
  have h2 : 1 ≤ wOmt3.size := by decide
  exact ⟨h1, h2, claim_C6 h1 h2⟩

theorem claim_C7_witness :
    Reached wOmtT ∧
    ((∀ t, wOmtT.d = omt_rep.tree t →
        (∀ i ∈ subtreeIdxs t.nodes t.nodes.length t.root,
          (getNode t.nodes i).weight =
            nweight t.nodes (getNode t.nodes i).left +
              nweight t.nodes (getNode t.nodes i).right + 1) ∧
        wOmtT.size = nweight t.nodes t.root) ∧
      (∀ a, wOmtT.d = omt_rep.array a → wOmtT.size = a.num_values)) ∧
    wOmtT.is_array = false := by
  have hre : Reached wOmtT :=
    Reached.insertAt (Reached.fromSorted [10, 20, 30]) 25 2
  exact ⟨hre, claim_C7 hre, by decide⟩

theorem claim_C8_witness :
    Reached wOmtT ∧
    (∀ t, wOmtT.d = omt_rep.tree t →
      (subtreeIdxs t.nodes t.nodes.length t.root).Nodup ∧
      (subtreeIdxs t.nodes t.nodes.length t.root).length = wOmtT.size ∧
      (∀ j, j < t.nodes.length →
        j ∈ subtreeIdxs t.nodes t.nodes.length t.root ∨
        j ∈ freeSlots (t.nodes.length + 1) t.nodes t.free_idx) ∧
      (∀ j, j ∈ subtreeIdxs t.nodes t.nodes.length t.root →
        j ∉ freeSlots (t.nodes.length + 1) t.nodes t.free_idx)) := by
  have hre : Reached wOmtT :=
    Reached.insertAt (Reached.fromSorted [10, 20, 30]) 25 2
  exact ⟨hre, claim_C8 hre⟩

theorem claim_C9_witness :
    Inv wOmt9 ∧ wOmt9.d = omt_rep.array ⟨1, 3, [1, 2, 3, 4]⟩ ∧
    0 < (⟨1, 3, [1, 2, 3, 4]⟩ : omt_array Nat).start_idx ∧
    (wOmt9.insert_at 9 0 = (.ok, ⟨omt_rep.array ⟨1 - 1, 3 + 1, [1, 2, 3, 4].set (1 - 1) 9⟩⟩) ∧
      (wOmt9.insert_at 9 0).2.is_array = true ∧
      seqOf (wOmt9.insert_at 9 0).2 = 9 :: seqOf wOmt9) ∧
    seqOf (wOmt9.insert_at 9 0).2 = [9, 2, 3, 4] := by
  have h1 : Inv wOmt9 := inv_delete_at (inv_create_sorted [1, 2, 3, 4]) 0
  have h2 : wOmt9.d = omt_rep.array ⟨1, 3, [1, 2, 3, 4]⟩ := rfl
  have h3 : 0 < (⟨1, 3, [1, 2, 3, 4]⟩ : omt_array Nat).start_idx := by decide
  exact ⟨h1, h2, h3, claim_C9 h1 h2 h3 9, by decide⟩

theorem claim_C10_witness :
    Inv wOmt3 ∧ MonoSign wCmp25 (seqOf wOmt3) ∧
    ((wOmt3.size ≤ 5 → wOmt3.fetch 5 = (.INVALID_ARGUMENT, none)) ∧
      ((wOmt3.find wCmp25 1).1 = .NOT_FOUND → (wOmt3.find wCmp25 1).2 = (none, none)) ∧
      (∃ j, (wOmt3.find_zero wCmp25).2.2 = some j)) ∧
    wOmt3.fetch 5 = (.INVALID_ARGUMENT, none) := by
  have h1 : Inv wOmt3 := inv_create_sorted _
  have h2 : MonoSign wCmp25 (seqOf wOmt3) := by
    show List.Pairwise (fun a b : Nat => (wCmp25 a).sign ≤ (wCmp25 b).sign) (seqOf wOmt3)
    decide
  exact ⟨h1, h2, claim_C10 h1 wCmp25 h2 5 1, by decide⟩

end toku

